import Mathlib

/-!
The program `convert.c`: byte-order conversion of a llama2 checkpoint

A shallow embedding of `src/convert.c` and theorems about it.

Modelling conventions

* A `char` of an object representation is a `Byte` (`Fin 256`).
* A C `int` is a Lean `Int`; the 32-bit arithmetic of the program is made
  explicit (`wrap32`, `imul`).  Signed overflow is modelled as wrap-around.
* A C `float` is modelled by its 4-byte object representation (`CFloat`);
  the program never does floating-point arithmetic, it only moves bytes.
* The host is a parameter (`Host`): its byte order, the width of `size_t`
  and which `calloc` requests it can satisfy.
* Files are lists of bytes.  The destination is written through a buffered
  stream: the program gives bytes to the stream, and the destination file
  holds as many of them as the device accepts (its capacity).  Whether a call
  of `fwrite` that the device cannot take reports a short count, or the loss
  shows only when the stream is flushed at the end, is the library's choice
  and a parameter of the host.
* Undefined behaviour that the program can reach (division by zero, access
  past the end of a buffer) is an explicit `Fault`.
-/

namespace Convert

/-! ## Bytes, words and the host -/

/-- One `char` of an object representation. -/
abbrev Byte := Fin 256

/-- The array `char b[4]` of the unions in `ibyteswap` and `fbyteswap`. -/
structure Bytes4 where
  b0 : Byte
  b1 : Byte
  b2 : Byte
  b3 : Byte
deriving DecidableEq, Repr

/-- Byte order of the host the program runs on. -/
inductive Endian where
  | little
  | big
deriving DecidableEq, Repr

/-- Width of `size_t` on the host. -/
inductive SizeWidth where
  | w32
  | w64
deriving DecidableEq, Repr

/-- Number of values of `size_t`. -/
def SizeWidth.modulus : SizeWidth → Nat
  | .w32 => 4294967296
  | .w64 => 18446744073709551616

/-- The host: byte order, width of `size_t`, the `calloc` requests
(in elements of `sizeof(float)` bytes) for which memory is available, and the
buffering of the destination stream.  `fwrite_report handed size n room` is the
count that a call of `fwrite` for `n` elements of `size` bytes reports when
`handed` bytes were given to the stream before and the device has room for
`room` bytes in all, fewer than the stream holds with this request.  A stream
whose buffer takes the request reports `n` (the default: the loss shows only
when the stream is flushed); a stream that has to write to the device reports
a smaller count. -/
structure Host where
  endian : Endian
  size_t : SizeWidth
  calloc_ok : Nat → Bool
  fwrite_report : Nat → Nat → Nat → Nat → Nat := fun _ _ n _ => n

/-- Reduction of an integer to the range of a 32-bit signed `int`. -/
def wrap32 (x : Int) : Int := (x + 2147483648) % 4294967296 - 2147483648

/-- The range of a C `int`. -/
def InInt32 (x : Int) : Prop := -2147483648 ≤ x ∧ x < 2147483648

instance (x : Int) : Decidable (InInt32 x) := by
  unfold InInt32; exact inferInstance

/-- The unsigned 32-bit pattern of an `int`. -/
def toU32 (i : Int) : Nat := (i % 4294967296).toNat

/-- The `int` with a given unsigned 32-bit pattern (two's complement). -/
def ofU32 (u : Nat) : Int :=
  if u % 4294967296 < 2147483648 then (u % 4294967296 : Nat) else (u % 4294967296 : Nat) - 4294967296

/-- Object representation of an `int` on the host (`src.i = i` read as `src.b`). -/
def intToBytes (e : Endian) (i : Int) : Bytes4 :=
  let u := toU32 i
  let lo : Byte := Fin.ofNat (u % 256)
  let ml : Byte := Fin.ofNat (u / 256 % 256)
  let mh : Byte := Fin.ofNat (u / 65536 % 256)
  let hi : Byte := Fin.ofNat (u / 16777216 % 256)
  match e with
  | .little => ⟨lo, ml, mh, hi⟩
  | .big => ⟨hi, mh, ml, lo⟩

/-- The `int` whose object representation on the host is `b` (`dst.b` read as `dst.i`). -/
def bytesToInt (e : Endian) (b : Bytes4) : Int :=
  match e with
  | .little => ofU32 (b.b0.val + 256 * b.b1.val + 65536 * b.b2.val + 16777216 * b.b3.val)
  | .big => ofU32 (b.b3.val + 256 * b.b2.val + 65536 * b.b1.val + 16777216 * b.b0.val)

/-- The byte assignments shared by both unions:
`dst.b[3] = src.b[0]; dst.b[2] = src.b[1]; dst.b[1] = src.b[2]; dst.b[0] = src.b[3]`. -/
def swapBytes4 (src : Bytes4) : Bytes4 :=
  { b3 := src.b0, b2 := src.b1, b1 := src.b2, b0 := src.b3 }

/-- Source `ibyteswap` (lines 18-30). -/
def ibyteswap (e : Endian) (i : Int) : Int :=
  let src := intToBytes e i
  let dst := swapBytes4 src
  bytesToInt e dst

/-- A C `float`, as its object representation. -/
structure CFloat where
  b : Bytes4
deriving DecidableEq, Repr

/-- Source `fbyteswap` (lines 127-139). -/
def fbyteswap (f : CFloat) : CFloat :=
  let src := f.b
  let dst := swapBytes4 src
  ⟨dst⟩

/-! ## Integer expressions of the program -/

/-- The C expression `a * b` on `int`. -/
def imul (a b : Int) : Int := wrap32 (a * b)

/-- Undefined behaviour the program can reach. -/
inductive Fault where
  | div_by_zero
  | div_overflow
  | out_of_bounds
deriving DecidableEq, Repr

/-- The C expression `a / b` on `int`: truncating division, undefined for
`b = 0` and for `INT_MIN / -1`. -/
def cdiv (a b : Int) : Except Fault Int :=
  if b = 0 then .error .div_by_zero
  else if a = -2147483648 ∧ b = -1 then .error .div_overflow
  else .ok (Int.tdiv a b)

/-- Conversion of an `int` to `size_t` (argument of `calloc`, `fread`, `fwrite`,
and the right operand of the `!=` comparisons). -/
def toSizeT (h : Host) (i : Int) : Nat := (i % (h.size_t.modulus : Int)).toNat

/-! ## Header record -/

/-- Source `Config` (lines 33-41). -/
structure Config where
  dim : Int
  hidden_dim : Int
  n_layers : Int
  n_heads : Int
  n_kv_heads : Int
  vocab_size : Int
  seq_len : Int
deriving DecidableEq, Repr

/-- Every field is a value of type `int`. -/
def Config.InRange (p : Config) : Prop :=
  InInt32 p.dim ∧ InInt32 p.hidden_dim ∧ InInt32 p.n_layers ∧ InInt32 p.n_heads ∧
  InInt32 p.n_kv_heads ∧ InInt32 p.vocab_size ∧ InInt32 p.seq_len

instance (p : Config) : Decidable p.InRange := by
  unfold Config.InRange; exact inferInstance

/-- Source `convert_config` (lines 43-51); the record `c` is the result. -/
def convert_config (e : Endian) (p : Config) : Config :=
  { dim := ibyteswap e p.dim
    hidden_dim := ibyteswap e p.hidden_dim
    n_layers := ibyteswap e p.n_layers
    n_heads := ibyteswap e p.n_heads
    n_kv_heads := ibyteswap e p.n_kv_heads
    vocab_size := ibyteswap e p.vocab_size
    seq_len := ibyteswap e p.seq_len }

/-- The 4 bytes of a word, in memory order. -/
def Bytes4.toList (b : Bytes4) : List Byte := [b.b0, b.b1, b.b2, b.b3]

/-- Object representation of a `Config` (7 `int`s, no padding: `sizeof(Config)` is 28). -/
def Config.toBytes (e : Endian) (p : Config) : List Byte :=
  (intToBytes e p.dim).toList ++ (intToBytes e p.hidden_dim).toList ++
  (intToBytes e p.n_layers).toList ++ (intToBytes e p.n_heads).toList ++
  (intToBytes e p.n_kv_heads).toList ++ (intToBytes e p.vocab_size).toList ++
  (intToBytes e p.seq_len).toList

/-- The `Config` whose object representation is the given 28 bytes. -/
def Config.ofBytes (e : Endian) : List Byte → Option Config
  | [a0, a1, a2, a3, b0, b1, b2, b3, c0, c1, c2, c3, d0, d1, d2, d3,
     e0, e1, e2, e3, f0, f1, f2, f3, g0, g1, g2, g3] =>
    some { dim := bytesToInt e ⟨a0, a1, a2, a3⟩
           hidden_dim := bytesToInt e ⟨b0, b1, b2, b3⟩
           n_layers := bytesToInt e ⟨c0, c1, c2, c3⟩
           n_heads := bytesToInt e ⟨d0, d1, d2, d3⟩
           n_kv_heads := bytesToInt e ⟨e0, e1, e2, e3⟩
           vocab_size := bytesToInt e ⟨f0, f1, f2, f3⟩
           seq_len := bytesToInt e ⟨g0, g1, g2, g3⟩ }
  | _ => none

/-! ## Buffers, streams and the C library -/

/-- The thirteen tensors, in file order. -/
inductive Tensor where
  | token_embedding_table
  | rms_att_weight
  | wq
  | wk
  | wv
  | wo
  | rms_ffn_weight
  | w1
  | w2
  | w3
  | rms_final_weight
  | freq_cis_real
  | freq_cis_imag
deriving DecidableEq, Repr

/-- Source `TransformerWeights` (lines 64-84): each pointer is modelled by the
buffer it points to. -/
structure TransformerWeights where
  token_embedding_table : List CFloat
  rms_att_weight : List CFloat
  rms_ffn_weight : List CFloat
  wq : List CFloat
  wk : List CFloat
  wv : List CFloat
  wo : List CFloat
  w1 : List CFloat
  w2 : List CFloat
  w3 : List CFloat
  rms_final_weight : List CFloat
  freq_cis_real : List CFloat
  freq_cis_imag : List CFloat
deriving DecidableEq, Repr

/-- Calls of the C library that the program makes, with the requested count
and, for transfers, the count the call returned. -/
inductive Event where
  | fread_config (returned : Nat)
  | fwrite_config (returned : Nat)
  | calloc (t : Tensor) (n : Nat) (ok : Bool)
  | fread (t : Tensor) (n : Nat) (returned : Nat)
  | fabyteswap (t : Tensor) (size : Int)
  | fwrite (t : Tensor) (n : Nat) (returned : Nat)
  | free (t : Tensor)
deriving DecidableEq, Repr

/-- The two open files and the record of library calls made so far.
`src` is the unread rest of the source, `dst` the bytes given to the
destination stream, `cap` the number of bytes the destination device accepts
in all. -/
structure World where
  src : List Byte
  dst : List Byte
  cap : Nat
  trace : List Event
deriving DecidableEq, Repr

/-- The floats held by a run of bytes (a trailing incomplete element is no element). -/
def decodeFloats : List Byte → List CFloat
  | a :: b :: c :: d :: rest => ⟨⟨a, b, c, d⟩⟩ :: decodeFloats rest
  | _ => []

/-- The bytes of a run of floats. -/
def encodeFloats : List CFloat → List Byte
  | [] => []
  | f :: fs => f.b.b0 :: f.b.b1 :: f.b.b2 :: f.b.b3 :: encodeFloats fs

/-- The float that `calloc` leaves in fresh memory (all bytes zero). -/
def zeroFloat : CFloat := ⟨⟨0, 0, 0, 0⟩⟩

/-- Library `calloc(n, sizeof(float))`: fails when the byte size does not fit
`size_t` or the host has no memory for it. -/
def calloc (h : Host) (n : Nat) : Option (List CFloat) :=
  if 4 * n < h.size_t.modulus ∧ h.calloc_ok n = true then some (List.replicate n zeroFloat)
  else none

/-- Library `fread(buf, sizeof(float), n, f)`: transfers `min (4*n) available`
bytes into `buf`; storing past the end of `buf` is a fault.  Returns the new
buffer, the number of complete elements read, and the new state. -/
def fread (t : Tensor) (buf : List CFloat) (n : Nat) (s : World) :
    Except Fault (List CFloat × Nat × World) :=
  let nbytes := min (4 * n) s.src.length
  if 4 * buf.length < nbytes then .error .out_of_bounds
  else
    let r := nbytes / 4
    .ok (decodeFloats (s.src.take (4 * r)) ++ buf.drop r, r,
         { s with src := s.src.drop nbytes, trace := s.trace ++ [.fread t n r] })

/-- The count that a call of `fwrite` for `n` elements of `size` bytes reports
on the buffered destination stream, `handed` bytes having been given to the
stream before, for a device with room for `room` bytes in all: `n` when the
device has room for all the bytes given to the stream with this request;
otherwise what the library chooses to report, at most `n`. -/
def fwrite_count (h : Host) (handed size n room : Nat) : Nat :=
  if handed + size * n ≤ room then n else min n (h.fwrite_report handed size n room)

/-- Library `fwrite(buf, sizeof(float), n, c)` on the buffered destination
stream: the `4*n` bytes of `buf` are given to the stream; loading past the end
of `buf` is a fault.  Returns the reported count and the new state. -/
def fwrite (h : Host) (t : Tensor) (buf : List CFloat) (n : Nat) (s : World) :
    Except Fault (Nat × World) :=
  if buf.length < n then .error .out_of_bounds
  else
    let r := fwrite_count h s.dst.length 4 n s.cap
    .ok (r, { s with dst := s.dst ++ (encodeFloats buf).take (4 * n),
                     trace := s.trace ++ [.fwrite t n r] })

/-- The destination file once the stream is flushed and closed, by `fclose`
(line 264) or by the end of the process: it holds the bytes given to the
stream as far as the device accepts them.  The program does not look at the
result of the flush. -/
def fclose (s : World) : World := { s with dst := s.dst.take s.cap }

/-- The loop of `fabyteswap` with `k` iterations left, at index `idx`. -/
def fabyteswap_loop : Nat → Nat → List CFloat → Except Fault (List CFloat)
  | 0, _, f => .ok f
  | k + 1, idx, f =>
    match f[idx]? with
    | none => .error .out_of_bounds
    | some x => fabyteswap_loop k (idx + 1) (f.set idx (fbyteswap x))

/-- Source `fabyteswap` (lines 141-147): `for (idx = 0; idx < size; idx++)` runs
`size` times when `size` is positive and not at all otherwise. -/
def fabyteswap (f : List CFloat) (size : Int) : Except Fault (List CFloat) :=
  fabyteswap_loop size.toNat 0 f

/-- Source `malloc_weights` (lines 86-107).  `none` is `exit(1)` after
"malloc failed!". -/
def malloc_weights (h : Host) (p : Config) (s : World) : Option TransformerWeights × World :=
  let n_token_embedding_table := toSizeT h (imul p.vocab_size p.dim)
  let n_rms_att_weight := toSizeT h (imul p.n_layers p.dim)
  let n_rms_ffn_weight := toSizeT h (imul p.n_layers p.dim)
  let n_wq := toSizeT h (imul (imul p.n_layers p.dim) p.dim)
  let n_wk := toSizeT h (imul (imul p.n_layers p.dim) p.dim)
  let n_wv := toSizeT h (imul (imul p.n_layers p.dim) p.dim)
  let n_wo := toSizeT h (imul (imul p.n_layers p.dim) p.dim)
  let n_w1 := toSizeT h (imul (imul p.n_layers p.hidden_dim) p.dim)
  let n_w2 := toSizeT h (imul (imul p.n_layers p.dim) p.hidden_dim)
  let n_w3 := toSizeT h (imul (imul p.n_layers p.hidden_dim) p.dim)
  let n_rms_final_weight := toSizeT h p.dim
  let n_freq_cis_real := toSizeT h (Int.tdiv (imul p.seq_len p.dim) 2)
  let n_freq_cis_imag := toSizeT h (Int.tdiv (imul p.seq_len p.dim) 2)
  let token_embedding_table := calloc h n_token_embedding_table
  let rms_att_weight := calloc h n_rms_att_weight
  let rms_ffn_weight := calloc h n_rms_ffn_weight
  let wq := calloc h n_wq
  let wk := calloc h n_wk
  let wv := calloc h n_wv
  let wo := calloc h n_wo
  let w1 := calloc h n_w1
  let w2 := calloc h n_w2
  let w3 := calloc h n_w3
  let rms_final_weight := calloc h n_rms_final_weight
  let freq_cis_real := calloc h n_freq_cis_real
  let freq_cis_imag := calloc h n_freq_cis_imag
  let s' : World :=
    { s with trace := s.trace ++
        [ .calloc .token_embedding_table n_token_embedding_table token_embedding_table.isSome,
          .calloc .rms_att_weight n_rms_att_weight rms_att_weight.isSome,
          .calloc .rms_ffn_weight n_rms_ffn_weight rms_ffn_weight.isSome,
          .calloc .wq n_wq wq.isSome,
          .calloc .wk n_wk wk.isSome,
          .calloc .wv n_wv wv.isSome,
          .calloc .wo n_wo wo.isSome,
          .calloc .w1 n_w1 w1.isSome,
          .calloc .w2 n_w2 w2.isSome,
          .calloc .w3 n_w3 w3.isSome,
          .calloc .rms_final_weight n_rms_final_weight rms_final_weight.isSome,
          .calloc .freq_cis_real n_freq_cis_real freq_cis_real.isSome,
          .calloc .freq_cis_imag n_freq_cis_imag freq_cis_imag.isSome ] }
  match token_embedding_table, rms_att_weight, rms_ffn_weight, wq, wk, wv, wo, w1, w2, w3,
        rms_final_weight, freq_cis_real, freq_cis_imag with
  | some a, some b, some c, some d, some e, some f, some g, some i, some j, some k,
    some l, some m, some n =>
    (some { token_embedding_table := a, rms_att_weight := b, rms_ffn_weight := c, wq := d,
            wk := e, wv := f, wo := g, w1 := i, w2 := j, w3 := k, rms_final_weight := l,
            freq_cis_real := m, freq_cis_imag := n }, s')
  | _, _, _, _, _, _, _, _, _, _, _, _, _ => (none, s')

/-- Source `free_weights` (lines 109-123). -/
def free_weights (_w : TransformerWeights) (s : World) : World :=
  { s with trace := s.trace ++
      [ .free .token_embedding_table, .free .rms_att_weight, .free .rms_ffn_weight,
        .free .wq, .free .wk, .free .wv, .free .wo, .free .w1, .free .w2, .free .w3,
        .free .rms_final_weight, .free .freq_cis_real, .free .freq_cis_imag ] }

/-! ## The tensor stream converter -/

/-- Result of the three source lines that convert one tensor. -/
inductive Step where
  | next (buf : List CFloat) (s : World)
  | ret1 (buf : List CFloat) (s : World)
  | fault (f : Fault)
deriving DecidableEq, Repr

/-- The three source lines that `convert_weights` repeats for each tensor, for
the buffer `buf` and the `int` expression value `count`:
    if (fread(buf, sizeof(float), count, f) != count) return 1;
    fabyteswap(buf, count);
    if (fwrite(buf, sizeof(float), count, c) != count) return 1; -/
def xfer (h : Host) (t : Tensor) (buf : List CFloat) (count : Int) (s : World) : Step :=
  match fread t buf (toSizeT h count) s with
  | .error f => .fault f
  | .ok (buf1, r, s1) =>
    if r ≠ toSizeT h count then .ret1 buf1 s1
    else
      match fabyteswap buf1 count with
      | .error f => .fault f
      | .ok buf2 =>
        let s2 : World := { s1 with trace := s1.trace ++ [.fabyteswap t count] }
        match fwrite h t buf2 (toSizeT h count) s2 with
        | .error f => .fault f
        | .ok (w, s3) =>
          if w ≠ toSizeT h count then .ret1 buf2 s3 else .next buf2 s3

/-- How a call of `convert_weights` ends: it returns `code`, or it faults. -/
inductive Outcome where
  | ret (code : Int) (w : TransformerWeights) (s : World)
  | fault (f : Fault)
deriving DecidableEq, Repr

/-- Source `convert_weights` (lines 149-204). -/
def convert_weights (h : Host) (w : TransformerWeights) (p : Config) (s : World) : Outcome :=
  match xfer h .token_embedding_table w.token_embedding_table (imul p.vocab_size p.dim) s with
  | .fault f => .fault f
  | .ret1 b s => .ret 1 { w with token_embedding_table := b } s
  | .next b s =>
  let w := { w with token_embedding_table := b }
  match xfer h .rms_att_weight w.rms_att_weight (imul p.n_layers p.dim) s with
  | .fault f => .fault f
  | .ret1 b s => .ret 1 { w with rms_att_weight := b } s
  | .next b s =>
  let w := { w with rms_att_weight := b }
  match xfer h .wq w.wq (imul (imul p.n_layers p.dim) p.dim) s with
  | .fault f => .fault f
  | .ret1 b s => .ret 1 { w with wq := b } s
  | .next b s =>
  let w := { w with wq := b }
  match xfer h .wk w.wk (imul (imul p.n_layers p.dim) p.dim) s with
  | .fault f => .fault f
  | .ret1 b s => .ret 1 { w with wk := b } s
  | .next b s =>
  let w := { w with wk := b }
  match xfer h .wv w.wv (imul (imul p.n_layers p.dim) p.dim) s with
  | .fault f => .fault f
  | .ret1 b s => .ret 1 { w with wv := b } s
  | .next b s =>
  let w := { w with wv := b }
  match xfer h .wo w.wo (imul (imul p.n_layers p.dim) p.dim) s with
  | .fault f => .fault f
  | .ret1 b s => .ret 1 { w with wo := b } s
  | .next b s =>
  let w := { w with wo := b }
  match xfer h .rms_ffn_weight w.rms_ffn_weight (imul p.n_layers p.dim) s with
  | .fault f => .fault f
  | .ret1 b s => .ret 1 { w with rms_ffn_weight := b } s
  | .next b s =>
  let w := { w with rms_ffn_weight := b }
  match xfer h .w1 w.w1 (imul (imul p.n_layers p.dim) p.hidden_dim) s with
  | .fault f => .fault f
  | .ret1 b s => .ret 1 { w with w1 := b } s
  | .next b s =>
  let w := { w with w1 := b }
  match xfer h .w2 w.w2 (imul (imul p.n_layers p.hidden_dim) p.dim) s with
  | .fault f => .fault f
  | .ret1 b s => .ret 1 { w with w2 := b } s
  | .next b s =>
  let w := { w with w2 := b }
  match xfer h .w3 w.w3 (imul (imul p.n_layers p.dim) p.hidden_dim) s with
  | .fault f => .fault f
  | .ret1 b s => .ret 1 { w with w3 := b } s
  | .next b s =>
  let w := { w with w3 := b }
  match xfer h .rms_final_weight w.rms_final_weight p.dim s with
  | .fault f => .fault f
  | .ret1 b s => .ret 1 { w with rms_final_weight := b } s
  | .next b s =>
  let w := { w with rms_final_weight := b }
  match cdiv p.dim p.n_heads with
  | .error f => .fault f
  | .ok head_size =>
  match xfer h .freq_cis_real w.freq_cis_real (Int.tdiv (imul p.seq_len head_size) 2) s with
  | .fault f => .fault f
  | .ret1 b s => .ret 1 { w with freq_cis_real := b } s
  | .next b s =>
  let w := { w with freq_cis_real := b }
  match xfer h .freq_cis_imag w.freq_cis_imag (Int.tdiv (imul p.seq_len head_size) 2) s with
  | .fault f => .fault f
  | .ret1 b s => .ret 1 { w with freq_cis_imag := b } s
  | .next b s => .ret 0 { w with freq_cis_imag := b } s

/-! ## The program -/

/-- How the process ends: with an exit status (a `return` from `main` or a call
of `exit`), or by a fault. -/
inductive Run where
  | exit (status : Int) (s : World)
  | fault (f : Fault)
deriving DecidableEq, Repr

/-- The call `fread(&config, sizeof(Config), 1, file)` of `main`. -/
def fread_config (e : Endian) (s : World) : Option Config × World :=
  match Config.ofBytes e (s.src.take 28) with
  | some config =>
    (some config, { s with src := s.src.drop 28, trace := s.trace ++ [.fread_config 1] })
  | none => (none, { s with src := [], trace := s.trace ++ [.fread_config 0] })

/-- The call `fwrite(&cconfig, sizeof(Config), 1, cfile)` of `main`: the 28
bytes are given to the stream, and the count is reported as by `fwrite`. -/
def fwrite_config (h : Host) (cconfig : Config) (s : World) : Nat × World :=
  let r := fwrite_count h s.dst.length 28 1 s.cap
  (r, { s with dst := s.dst ++ cconfig.toBytes h.endian,
               trace := s.trace ++ [.fwrite_config r] })

/-- Source `main` (lines 214-274), from the point where both files are open:
`file` is the content of the checkpoint, `cap` the number of bytes the
converted file can take.  Every way out of the process flushes and closes the
destination stream: the `fclose` of line 264 on success, the end of the
process at `return 1` and at the `exit(1)` of `malloc_weights`. -/
def main (h : Host) (file : List Byte) (cap : Nat) : Run :=
  let s : World := { src := file, dst := [], cap := cap, trace := [] }
  match fread_config h.endian s with
  | (none, s) => .exit 1 (fclose s)
  | (some config, s) =>
    let cconfig := convert_config h.endian config
    match fwrite_config h cconfig s with
    | (r, s) =>
      if r ≠ 1 then .exit 1 (fclose s)
      else
        match malloc_weights h cconfig s with
        | (none, s) => .exit 1 (fclose s)
        | (some weights, s) =>
          match convert_weights h weights cconfig s with
          | .fault f => .fault f
          | .ret code weights s =>
            if code ≠ 0 then .exit 1 (fclose s)
            else .exit 0 (free_weights weights (fclose s))

/-! ## Vocabulary of the statements -/

/-- Reversal of every aligned 4-byte group of a run of bytes (what the
specification asks of the output relative to the input).  A trailing
incomplete group is left as it is. -/
def swapWords : List Byte → List Byte
  | a :: b :: c :: d :: rest => d :: c :: b :: a :: swapWords rest
  | l => l

/-- The buffer of a tensor. -/
def TransformerWeights.get (w : TransformerWeights) : Tensor → List CFloat
  | .token_embedding_table => w.token_embedding_table
  | .rms_att_weight => w.rms_att_weight
  | .wq => w.wq
  | .wk => w.wk
  | .wv => w.wv
  | .wo => w.wo
  | .rms_ffn_weight => w.rms_ffn_weight
  | .w1 => w.w1
  | .w2 => w.w2
  | .w3 => w.w3
  | .rms_final_weight => w.rms_final_weight
  | .freq_cis_real => w.freq_cis_real
  | .freq_cis_imag => w.freq_cis_imag

/-- Replacement of the buffer of a tensor. -/
def TransformerWeights.set (w : TransformerWeights) (t : Tensor) (b : List CFloat) :
    TransformerWeights :=
  match t with
  | .token_embedding_table => { w with token_embedding_table := b }
  | .rms_att_weight => { w with rms_att_weight := b }
  | .wq => { w with wq := b }
  | .wk => { w with wk := b }
  | .wv => { w with wv := b }
  | .wo => { w with wo := b }
  | .rms_ffn_weight => { w with rms_ffn_weight := b }
  | .w1 => { w with w1 := b }
  | .w2 => { w with w2 := b }
  | .w3 => { w with w3 := b }
  | .rms_final_weight => { w with rms_final_weight := b }
  | .freq_cis_real => { w with freq_cis_real := b }
  | .freq_cis_imag => { w with freq_cis_imag := b }

/-- The tensors `convert_weights` transfers before it computes `head_size`, each
with the value of the `int` expression the source gives as its count. -/
def firstEleven (p : Config) : List (Tensor × Int) :=
  [ (.token_embedding_table, imul p.vocab_size p.dim),
    (.rms_att_weight, imul p.n_layers p.dim),
    (.wq, imul (imul p.n_layers p.dim) p.dim),
    (.wk, imul (imul p.n_layers p.dim) p.dim),
    (.wv, imul (imul p.n_layers p.dim) p.dim),
    (.wo, imul (imul p.n_layers p.dim) p.dim),
    (.rms_ffn_weight, imul p.n_layers p.dim),
    (.w1, imul (imul p.n_layers p.dim) p.hidden_dim),
    (.w2, imul (imul p.n_layers p.hidden_dim) p.dim),
    (.w3, imul (imul p.n_layers p.dim) p.hidden_dim),
    (.rms_final_weight, p.dim) ]

/-- The two tensors transferred after `head_size` is known. -/
def lastTwo (p : Config) (head_size : Int) : List (Tensor × Int) :=
  [ (.freq_cis_real, Int.tdiv (imul p.seq_len head_size) 2),
    (.freq_cis_imag, Int.tdiv (imul p.seq_len head_size) 2) ]

/-- All thirteen transfers, in the order of the source. -/
def transfers (p : Config) (head_size : Int) : List (Tensor × Int) :=
  firstEleven p ++ lastTwo p head_size

/-- Transfer of the listed tensors one after the other, stopping at the first
`return 1` or fault. -/
def runTransfers (h : Host) : List (Tensor × Int) → TransformerWeights → World → Outcome
  | [], w, s => .ret 0 w s
  | (t, c) :: rest, w, s =>
    match xfer h t (w.get t) c s with
    | .fault f => .fault f
    | .ret1 b s => .ret 1 (w.set t b) s
    | .next b s => runTransfers h rest (w.set t b) s

/-- Continuation of an outcome that returned 0. -/
def Outcome.andThen (o : Outcome) (k : TransformerWeights → World → Outcome) : Outcome :=
  match o with
  | .ret code w s => if code = 0 then k w s else .ret code w s
  | .fault f => .fault f

/-- The state after a complete transfer of `n` elements of tensor `t`. -/
def World.afterTensor (s : World) (t : Tensor) (c : Int) (n : Nat) : World :=
  { src := s.src.drop (4 * n)
    dst := s.dst ++ swapWords (s.src.take (4 * n))
    cap := s.cap
    trace := s.trace ++ [.fread t n n, .fabyteswap t c, .fwrite t n n] }

/-- Number of elements of a list of transfers. -/
def totalCount (l : List (Tensor × Int)) : Nat := (l.map (fun x => x.2.toNat)).sum

/-- The library calls of a run in which every transfer is complete. -/
def planEvents (h : Host) : List (Tensor × Int) → List Event
  | [] => []
  | (t, c) :: rest =>
    .fread t (toSizeT h c) (toSizeT h c) :: .fabyteswap t c ::
      .fwrite t (toSizeT h c) (toSizeT h c) :: planEvents h rest

/-- The state after the complete transfer of the listed tensors. -/
def World.afterAll (s : World) (h : Host) (l : List (Tensor × Int)) : World :=
  { src := s.src.drop (4 * totalCount l)
    dst := s.dst ++ swapWords (s.src.take (4 * totalCount l))
    cap := s.cap
    trace := s.trace ++ planEvents h l }

/-- Every buffer respects the bound `calloc` puts on a request. -/
def TransformerWeights.Bounded (w : TransformerWeights) (h : Host) : Prop :=
  ∀ t, 4 * (w.get t).length < h.size_t.modulus

/-- The `int` expression that `malloc_weights` gives `calloc` for each tensor. -/
def allocCount (p : Config) : Tensor → Int
  | .token_embedding_table => imul p.vocab_size p.dim
  | .rms_att_weight => imul p.n_layers p.dim
  | .rms_ffn_weight => imul p.n_layers p.dim
  | .wq => imul (imul p.n_layers p.dim) p.dim
  | .wk => imul (imul p.n_layers p.dim) p.dim
  | .wv => imul (imul p.n_layers p.dim) p.dim
  | .wo => imul (imul p.n_layers p.dim) p.dim
  | .w1 => imul (imul p.n_layers p.hidden_dim) p.dim
  | .w2 => imul (imul p.n_layers p.dim) p.hidden_dim
  | .w3 => imul (imul p.n_layers p.hidden_dim) p.dim
  | .rms_final_weight => p.dim
  | .freq_cis_real => Int.tdiv (imul p.seq_len p.dim) 2
  | .freq_cis_imag => Int.tdiv (imul p.seq_len p.dim) 2

/-- The requests `malloc_weights` records, as the trace shows them. -/
def callocEvents (h : Host) (p : Config) : List Event :=
  [ .calloc .token_embedding_table (toSizeT h (allocCount p .token_embedding_table))
      (calloc h (toSizeT h (allocCount p .token_embedding_table))).isSome,
    .calloc .rms_att_weight (toSizeT h (allocCount p .rms_att_weight))
      (calloc h (toSizeT h (allocCount p .rms_att_weight))).isSome,
    .calloc .rms_ffn_weight (toSizeT h (allocCount p .rms_ffn_weight))
      (calloc h (toSizeT h (allocCount p .rms_ffn_weight))).isSome,
    .calloc .wq (toSizeT h (allocCount p .wq)) (calloc h (toSizeT h (allocCount p .wq))).isSome,
    .calloc .wk (toSizeT h (allocCount p .wk)) (calloc h (toSizeT h (allocCount p .wk))).isSome,
    .calloc .wv (toSizeT h (allocCount p .wv)) (calloc h (toSizeT h (allocCount p .wv))).isSome,
    .calloc .wo (toSizeT h (allocCount p .wo)) (calloc h (toSizeT h (allocCount p .wo))).isSome,
    .calloc .w1 (toSizeT h (allocCount p .w1)) (calloc h (toSizeT h (allocCount p .w1))).isSome,
    .calloc .w2 (toSizeT h (allocCount p .w2)) (calloc h (toSizeT h (allocCount p .w2))).isSome,
    .calloc .w3 (toSizeT h (allocCount p .w3)) (calloc h (toSizeT h (allocCount p .w3))).isSome,
    .calloc .rms_final_weight (toSizeT h (allocCount p .rms_final_weight))
      (calloc h (toSizeT h (allocCount p .rms_final_weight))).isSome,
    .calloc .freq_cis_real (toSizeT h (allocCount p .freq_cis_real))
      (calloc h (toSizeT h (allocCount p .freq_cis_real))).isSome,
    .calloc .freq_cis_imag (toSizeT h (allocCount p .freq_cis_imag))
      (calloc h (toSizeT h (allocCount p .freq_cis_imag))).isSome ]

/-- The state of `main` once the header has been read, converted and written. -/
def afterHeader (file : List Byte) (cap : Nat) : World :=
  { src := file.drop 28
    dst := swapWords (file.take 28)
    cap := cap
    trace := [.fread_config 1, .fwrite_config 1] }

/-- The header of a file, as the host reads it (the record `config` of `main`). -/
def headerOf (h : Host) (file : List Byte) : Option Config :=
  Config.ofBytes h.endian (file.take 28)

/-- The calls `free_weights` makes. -/
def freeEvents : List Event :=
  [ .free .token_embedding_table, .free .rms_att_weight, .free .rms_ffn_weight,
    .free .wq, .free .wk, .free .wv, .free .wo, .free .w1, .free .w2, .free .w3,
    .free .rms_final_weight, .free .freq_cis_real, .free .freq_cis_imag ]

/-- The library calls of a conversion that succeeds, in order. -/
def successTrace (h : Host) (cconfig : Config) (head_size : Int) : List Event :=
  [.fread_config 1, .fwrite_config 1] ++ callocEvents h cconfig ++
    planEvents h (transfers cconfig head_size) ++ freeEvents

/-- The state in which a conversion stops when the source runs out in the
tensor that follows the listed ones: these are written completely, nothing
else is, and the last call is the `fread` that came back short. -/
def World.afterShortRead (s : World) (h : Host) (l1 : List (Tensor × Int)) (t : Tensor)
    (c : Int) : World :=
  { src := []
    dst := s.dst ++ swapWords (s.src.take (4 * totalCount l1))
    cap := s.cap
    trace := s.trace ++ planEvents h l1 ++
      [.fread t (toSizeT h c) ((s.src.length - 4 * totalCount l1) / 4)] }

/-- Header fields of Scenario A of the specification. -/
def scenarioA : Config :=
  { dim := 4, hidden_dim := 8, n_layers := 1, n_heads := 2, n_kv_heads := 2, vocab_size := 2,
    seq_len := 2 }

/-- A sample host: little-endian, 64-bit `size_t`, memory for any request
below 2^40 elements (a request for 0 elements included). -/
def hostLE : Host :=
  { endian := .little, size_t := .w64, calloc_ok := fun n => decide (n < 1099511627776) }

/-- A sample host: as `hostLE`, but big-endian. -/
def hostBE : Host :=
  { endian := .big, size_t := .w64, calloc_ok := fun n => decide (n < 1099511627776) }

/-- A payload of `k` bytes with the values 0, 1, 2, ... (mod 256). -/
def payload (k : Nat) : List Byte := (List.range k).map (fun i => Fin.ofNat i)

/-- The exit status of a run (`none` for a fault). -/
def Run.status : Run → Option Int
  | .exit code _ => some code
  | .fault _ => none

/-- The bytes a run left in the destination file. -/
def Run.output : Run → List Byte
  | .exit _ s => s.dst
  | .fault _ => []

/-- The `int` expression that `convert_weights` gives `fread`, `fabyteswap` and
`fwrite` for each tensor, `head_size` being the value of `p->dim / p->n_heads`. -/
def readCount (p : Config) (head_size : Int) : Tensor → Int
  | .token_embedding_table => imul p.vocab_size p.dim
  | .rms_att_weight => imul p.n_layers p.dim
  | .wq => imul (imul p.n_layers p.dim) p.dim
  | .wk => imul (imul p.n_layers p.dim) p.dim
  | .wv => imul (imul p.n_layers p.dim) p.dim
  | .wo => imul (imul p.n_layers p.dim) p.dim
  | .rms_ffn_weight => imul p.n_layers p.dim
  | .w1 => imul (imul p.n_layers p.dim) p.hidden_dim
  | .w2 => imul (imul p.n_layers p.hidden_dim) p.dim
  | .w3 => imul (imul p.n_layers p.dim) p.hidden_dim
  | .rms_final_weight => p.dim
  | .freq_cis_real => Int.tdiv (imul p.seq_len head_size) 2
  | .freq_cis_imag => Int.tdiv (imul p.seq_len head_size) 2

/-- The thirteen tensors in the order of the file (section 3 of the specification). -/
def tensorOrder : List Tensor :=
  [ .token_embedding_table, .rms_att_weight, .wq, .wk, .wv, .wo, .rms_ffn_weight, .w1, .w2, .w3,
    .rms_final_weight, .freq_cis_real, .freq_cis_imag ]

/-- The file of Scenario A for a host of the byte order opposite to the file's:
the header whose fields are 4, 8, 1, 2, 2, 2, 2 once byte-swapped, followed by
184 four-byte elements (764 bytes). -/
def fileSwapped (h : Host) : List Byte :=
  (convert_config h.endian scenarioA).toBytes h.endian ++ payload 736

/-- The file of Scenario A in the byte order of the host: the header whose
fields the host reads as 4, 8, 1, 2, 2, 2, 2, followed by 184 four-byte
elements (764 bytes). -/
def fileNative (h : Host) : List Byte :=
  scenarioA.toBytes h.endian ++ payload 736

/-- A transfer call that returned a count different from the one requested. -/
def Event.mismatch : Event → Bool
  | .fread _ n r => decide (r ≠ n)
  | .fwrite _ n r => decide (r ≠ n)
  | _ => false

/-- The `fread` requests of a trace, in order: tensor and requested count. -/
def reads : List Event → List (Tensor × Nat)
  | [] => []
  | .fread t n _ :: rest => (t, n) :: reads rest
  | _ :: rest => reads rest

/-- The `fwrite` requests of a trace, in order: tensor and requested count. -/
def writes : List Event → List (Tensor × Nat)
  | [] => []
  | .fwrite t n _ :: rest => (t, n) :: writes rest
  | _ :: rest => writes rest

/-- The requests of a list of transfers: each count converted to `size_t`. -/
def requests (h : Host) (l : List (Tensor × Int)) : List (Tensor × Nat) :=
  l.map (fun x => (x.1, toSizeT h x.2))

/-- The element counts of section 3 of the specification, as exact integers
(`head_size = dim / n_heads` and the final `/ 2` are integer divisions). -/
def section3 (p : Config) : List (Tensor × Int) :=
  [ (.token_embedding_table, p.vocab_size * p.dim),
    (.rms_att_weight, p.n_layers * p.dim),
    (.wq, p.n_layers * p.dim * p.dim),
    (.wk, p.n_layers * p.dim * p.dim),
    (.wv, p.n_layers * p.dim * p.dim),
    (.wo, p.n_layers * p.dim * p.dim),
    (.rms_ffn_weight, p.n_layers * p.dim),
    (.w1, p.n_layers * p.dim * p.hidden_dim),
    (.w2, p.n_layers * p.hidden_dim * p.dim),
    (.w3, p.n_layers * p.dim * p.hidden_dim),
    (.rms_final_weight, p.dim),
    (.freq_cis_real, Int.tdiv (p.seq_len * Int.tdiv p.dim p.n_heads) 2),
    (.freq_cis_imag, Int.tdiv (p.seq_len * Int.tdiv p.dim p.n_heads) 2) ]

/-- No product of section 3 leaves the range of `int`. -/
def NoOverflow (p : Config) : Prop :=
  InInt32 (p.vocab_size * p.dim) ∧ InInt32 (p.n_layers * p.dim) ∧
  InInt32 (p.n_layers * p.dim * p.dim) ∧ InInt32 (p.n_layers * p.dim * p.hidden_dim) ∧
  InInt32 (p.n_layers * p.hidden_dim) ∧ InInt32 (p.n_layers * p.hidden_dim * p.dim) ∧
  InInt32 (p.seq_len * Int.tdiv p.dim p.n_heads)

/-- The buffers as `malloc_weights` leaves them for a header: each of the
requested size, zero-filled. -/
def zeroBuffers (h : Host) (p : Config) : TransformerWeights :=
  { token_embedding_table :=
      List.replicate (toSizeT h (allocCount p .token_embedding_table)) zeroFloat
    rms_att_weight := List.replicate (toSizeT h (allocCount p .rms_att_weight)) zeroFloat
    rms_ffn_weight := List.replicate (toSizeT h (allocCount p .rms_ffn_weight)) zeroFloat
    wq := List.replicate (toSizeT h (allocCount p .wq)) zeroFloat
    wk := List.replicate (toSizeT h (allocCount p .wk)) zeroFloat
    wv := List.replicate (toSizeT h (allocCount p .wv)) zeroFloat
    wo := List.replicate (toSizeT h (allocCount p .wo)) zeroFloat
    w1 := List.replicate (toSizeT h (allocCount p .w1)) zeroFloat
    w2 := List.replicate (toSizeT h (allocCount p .w2)) zeroFloat
    w3 := List.replicate (toSizeT h (allocCount p .w3)) zeroFloat
    rms_final_weight := List.replicate (toSizeT h (allocCount p .rms_final_weight)) zeroFloat
    freq_cis_real := List.replicate (toSizeT h (allocCount p .freq_cis_real)) zeroFloat
    freq_cis_imag := List.replicate (toSizeT h (allocCount p .freq_cis_imag)) zeroFloat }

/-- The buffers for the Scenario A header. -/
def buffersA (h : Host) : TransformerWeights := zeroBuffers h scenarioA

/-- Streams positioned after the header: a source with `k` payload bytes left
and a destination stream that has been given nothing yet, on a device that
accepts `cap` bytes. -/
def streamA (k cap : Nat) : World :=
  { src := payload k, dst := [], cap := cap, trace := [] }

/-- The fields that enter a count are positive. -/
def Config.Positive (p : Config) : Prop :=
  0 < p.dim ∧ 0 < p.hidden_dim ∧ 0 < p.n_layers ∧ 0 < p.n_heads ∧ 0 < p.vocab_size ∧
  0 < p.seq_len

/-- The products from which the counts and the buffer sizes are computed stay
below 2^31. -/
def Config.Small (p : Config) : Prop :=
  p.vocab_size * p.dim < 2147483648 ∧ p.n_layers * p.dim * p.dim < 2147483648 ∧
  p.n_layers * p.dim * p.hidden_dim < 2147483648 ∧ p.seq_len * p.dim < 2147483648

/-- A header that satisfies the invariants of section 3 and whose `w1` count
`40 * 5120 * 13824` exceeds the range of `int`. -/
def bigHeader : Config :=
  { dim := 5120, hidden_dim := 13824, n_layers := 40, n_heads := 40, n_kv_heads := 40,
    vocab_size := 32000, seq_len := 2048 }

/-- The invariants of section 3 of the specification: all fields positive,
`dim` divisible by `n_heads`, `n_heads` at least `n_kv_heads`. -/
def Config.Valid (p : Config) : Prop :=
  0 < p.dim ∧ 0 < p.hidden_dim ∧ 0 < p.n_layers ∧ 0 < p.n_heads ∧ 0 < p.n_kv_heads ∧
  0 < p.vocab_size ∧ 0 < p.seq_len ∧ p.dim % p.n_heads = 0 ∧ p.n_kv_heads ≤ p.n_heads

instance (p : Config) : Decidable p.Valid := by
  unfold Config.Valid; exact inferInstance

instance (p : Config) : Decidable p.Positive := by
  unfold Config.Positive; exact inferInstance

instance (p : Config) : Decidable p.Small := by
  unfold Config.Small; exact inferInstance

/-- A header with `dim = 0` and `hidden_dim = 0`: every tensor is empty,
whichever byte order the header is read in. -/
def emptyHeader : Config :=
  { dim := 0, hidden_dim := 0, n_layers := 1, n_heads := 2, n_kv_heads := 2, vocab_size := 2,
    seq_len := 2 }

/-- The count of a library call is the one computed from the header `cc`:
for `calloc` the expression of `malloc_weights`, for `fread`, `fabyteswap` and
`fwrite` the expression of `convert_weights`. -/
def Event.countsFrom (h : Host) (cc : Config) : Event → Prop
  | .calloc t n _ => n = toSizeT h (allocCount cc t)
  | .fread t n _ => n = toSizeT h (readCount cc (Int.tdiv cc.dim cc.n_heads) t)
  | .fabyteswap t c => c = readCount cc (Int.tdiv cc.dim cc.n_heads) t
  | .fwrite t n _ => n = toSizeT h (readCount cc (Int.tdiv cc.dim cc.n_heads) t)
  | _ => True

/-- The state with the bytes `d` put before what has been written. -/
def World.prepend (d : List Byte) (s : World) : World := { s with dst := d ++ s.dst }

/-- A step result with `d` put before what has been written. -/
def Step.prepend (d : List Byte) : Step → Step
  | .next b s => .next b (s.prepend d)
  | .ret1 b s => .ret1 b (s.prepend d)
  | .fault f => .fault f

/-- An outcome with `d` put before what has been written. -/
def Outcome.prepend (d : List Byte) : Outcome → Outcome
  | .ret code w s => .ret code w (s.prepend d)
  | .fault f => .fault f

/-- A run with `d` put before what has been written. -/
def Run.prepend (d : List Byte) : Run → Run
  | .exit code s => .exit code (s.prepend d)
  | .fault f => .fault f

/-- The part of `main` that follows the writing of the header:
`malloc_weights`, `convert_weights` and, on success, `free_weights`. -/
def convertBody (h : Host) (cconfig : Config) (s : World) : Run :=
  match malloc_weights h cconfig s with
  | (none, s) => .exit 1 s
  | (some weights, s) =>
    match convert_weights h weights cconfig s with
    | .fault f => .fault f
    | .ret code weights s => if code ≠ 0 then .exit 1 s else .exit 0 (free_weights weights s)

/-- A run whose destination stream is closed at the exit: the call
`fclose(cfile)` of `main`. -/
def Run.flush : Run → Run
  | .exit code s => .exit code (fclose s)
  | .fault f => .fault f

/-- The fault a run ended with, if any. -/
def Run.faulted : Run → Option Fault
  | .exit _ _ => none
  | .fault f => some f

/-- The library calls of a run that exits. -/
def Run.calls : Run → List Event
  | .exit _ s => s.trace
  | .fault _ => []

/-- A call of `calloc`. -/
def Event.isCalloc : Event → Bool
  | .calloc _ _ _ => true
  | _ => false

/-- A call of `free`. -/
def Event.isFree : Event → Bool
  | .free _ => true
  | _ => false

/-- A call that reads, swaps or writes a tensor. -/
def Event.isTransfer : Event → Bool
  | .fread _ _ _ => true
  | .fabyteswap _ _ => true
  | .fwrite _ _ _ => true
  | _ => false

/-- A library call that did not do what was asked: a header read or write that
did not transfer its one record, a `calloc` that returned `NULL`, a tensor read
or write that returned a count other than the one requested. -/
def Event.failed : Event → Bool
  | .fread_config r => decide (r ≠ 1)
  | .fwrite_config r => decide (r ≠ 1)
  | .calloc _ _ ok => !ok
  | .fread _ n r => decide (r ≠ n)
  | .fwrite _ n r => decide (r ≠ n)
  | _ => false

/-- A sample host whose `calloc` returns `NULL` for a request of zero elements,
as the C standard allows, and grants every other request below 2^40 elements. -/
def hostZeroNull : Host :=
  { endian := .little, size_t := .w64,
    calloc_ok := fun n => decide (0 < n ∧ n < 1099511627776) }

/-- The header of Scenario A with `seq_len = 0`: `freq_cis_real` and
`freq_cis_imag` are empty. -/
def seqZero : Config :=
  { dim := 4, hidden_dim := 8, n_layers := 1, n_heads := 2, n_kv_heads := 2, vocab_size := 2,
    seq_len := 0 }

/-- The file whose header the program computes the counts of `seqZero` from,
followed by the 180 elements of its eleven non-empty tensors (748 bytes). -/
def fileSeqZero (h : Host) : List Byte :=
  (convert_config h.endian seqZero).toBytes h.endian ++ payload 720

/-- The header of Scenario A with `n_heads = 0`. -/
def headsZero : Config :=
  { dim := 4, hidden_dim := 8, n_layers := 1, n_heads := 0, n_kv_heads := 2, vocab_size := 2,
    seq_len := 2 }

/-- The header of Scenario A with `hidden_dim = -1`. -/
def hiddenNegative : Config :=
  { dim := 4, hidden_dim := -1, n_layers := 1, n_heads := 2, n_kv_heads := 2, vocab_size := 2,
    seq_len := 2 }

/-- A header that reads the same in either byte order: `dim` and `n_heads` are
65792 (bytes 00 01 01 00), the other fields are 0.  `head_size` is 1 and only
`rms_final_weight` is non-empty, with 65792 elements. -/
def palindromeHeader : Config :=
  { dim := 65792, hidden_dim := 0, n_layers := 0, n_heads := 65792, n_kv_heads := 0,
    vocab_size := 0, seq_len := 0 }

/-- The file of `palindromeHeader` on a little-endian host: the header followed
by the 65792 elements of `rms_final_weight` (263196 bytes). -/
def filePalindrome : List Byte := palindromeHeader.toBytes .little ++ payload 263168

/-- Every write of the listed transfers is reported complete, when `k` bytes
have been given to the destination stream before the first of them. -/
def writesReported (h : Host) (cap : Nat) : Nat → List (Tensor × Int) → Prop
  | _, [] => True
  | k, (_, c) :: rest =>
    fwrite_count h k 4 c.toNat cap = c.toNat ∧ writesReported h cap (k + 4 * c.toNat) rest

/-- The number of bytes a library call reports as read from the source. -/
def Event.bytesRead : Event → Nat
  | .fread_config r => 28 * r
  | .fread _ _ r => 4 * r
  | _ => 0

/-- The number of bytes a library call reports as written to the destination
stream. -/
def Event.bytesWritten : Event → Nat
  | .fwrite_config r => 28 * r
  | .fwrite _ _ r => 4 * r
  | _ => 0

/-- The number of bytes the listed library calls report as read. -/
def bytesRead (es : List Event) : Nat := (es.map Event.bytesRead).sum

/-- The number of bytes the listed library calls report as written. -/
def bytesWritten (es : List Event) : Nat := (es.map Event.bytesWritten).sum

/-! ## Lemmas: words and bytes -/

theorem toU32_lt (i : Int) : toU32 i < 4294967296 := by
  unfold toU32; omega

theorem toU32_ofU32 (u : Nat) (hu : u < 4294967296) : toU32 (ofU32 u) = u := by
  unfold toU32 ofU32
  split <;> omega

theorem ofU32_toU32 (i : Int) (hi : InInt32 i) : ofU32 (toU32 i) = i := by
  unfold InInt32 at hi
  unfold toU32 ofU32
  split <;> omega

theorem ofU32_inInt32 (u : Nat) : InInt32 (ofU32 u) := by
  unfold InInt32 ofU32
  split <;> omega

theorem wrap32_inInt32 (x : Int) : InInt32 (wrap32 x) := by
  unfold InInt32 wrap32; omega

theorem wrap32_of_inInt32 (x : Int) (hx : InInt32 x) : wrap32 x = x := by
  unfold InInt32 at hx; unfold wrap32; omega

theorem byte_ofNat_val (n : Nat) : ((Fin.ofNat n : Byte)).val = n % 256 := rfl

theorem intToBytes_bytesToInt (e : Endian) (b : Bytes4) : intToBytes e (bytesToInt e b) = b := by
  obtain ⟨b0, b1, b2, b3⟩ := b
  have h0 := b0.isLt
  have h1 := b1.isLt
  have h2 := b2.isLt
  have h3 := b3.isLt
  cases e
  · have hu : toU32 (ofU32 (b0.val + 256 * b1.val + 65536 * b2.val + 16777216 * b3.val))
        = b0.val + 256 * b1.val + 65536 * b2.val + 16777216 * b3.val :=
      toU32_ofU32 _ (by omega)
    simp only [intToBytes, bytesToInt, hu, Bytes4.mk.injEq]
    refine ⟨?_, ?_, ?_, ?_⟩ <;> apply Fin.ext <;> rw [byte_ofNat_val] <;> omega
  · have hu : toU32 (ofU32 (b3.val + 256 * b2.val + 65536 * b1.val + 16777216 * b0.val))
        = b3.val + 256 * b2.val + 65536 * b1.val + 16777216 * b0.val :=
      toU32_ofU32 _ (by omega)
    simp only [intToBytes, bytesToInt, hu, Bytes4.mk.injEq]
    refine ⟨?_, ?_, ?_, ?_⟩ <;> apply Fin.ext <;> rw [byte_ofNat_val] <;> omega

theorem bytesToInt_intToBytes (e : Endian) (i : Int) (hi : InInt32 i) :
    bytesToInt e (intToBytes e i) = i := by
  have hlt := toU32_lt i
  have key : toU32 i % 256 % 256 + 256 * (toU32 i / 256 % 256 % 256)
      + 65536 * (toU32 i / 65536 % 256 % 256) + 16777216 * (toU32 i / 16777216 % 256 % 256)
      = toU32 i := by omega
  cases e <;>
    simp only [intToBytes, bytesToInt, byte_ofNat_val, key] <;>
    exact ofU32_toU32 i hi

theorem bytesToInt_inInt32 (e : Endian) (b : Bytes4) : InInt32 (bytesToInt e b) := by
  cases e <;> exact ofU32_inInt32 _

theorem ibyteswap_inInt32 (e : Endian) (i : Int) : InInt32 (ibyteswap e i) :=
  bytesToInt_inInt32 e _

theorem swapBytes4_swapBytes4 (b : Bytes4) : swapBytes4 (swapBytes4 b) = b := rfl

theorem intToBytes_ibyteswap (e : Endian) (i : Int) :
    intToBytes e (ibyteswap e i) = swapBytes4 (intToBytes e i) := by
  unfold ibyteswap
  exact intToBytes_bytesToInt e _

theorem ibyteswap_ibyteswap (e : Endian) (i : Int) (hi : InInt32 i) :
    ibyteswap e (ibyteswap e i) = i := by
  have h1 : ibyteswap e (ibyteswap e i) = bytesToInt e (swapBytes4 (intToBytes e (ibyteswap e i))) := rfl
  rw [h1, intToBytes_ibyteswap, swapBytes4_swapBytes4, bytesToInt_intToBytes e i hi]

theorem fbyteswap_fbyteswap (f : CFloat) : fbyteswap (fbyteswap f) = f := rfl

/-- The value computed by `ibyteswap` does not depend on the byte order of the host. -/
theorem ibyteswap_endian (i : Int) : ibyteswap .big i = ibyteswap .little i := by
  simp only [ibyteswap, intToBytes, bytesToInt, swapBytes4]

/-! ## Lemmas: runs of bytes and floats -/

theorem swapWords_short (l : List Byte)
    (h : ∀ (a b c d : Byte) (rest : List Byte), l = a :: b :: c :: d :: rest → False) :
    swapWords l = l := by
  unfold swapWords; split
  · exact absurd rfl (h _ _ _ _ _)
  · rfl

theorem swapWords_length (l : List Byte) : (swapWords l).length = l.length := by
  induction l using swapWords.induct with
  | case1 a b c d rest ih => simp [swapWords, ih]
  | case2 l h => rw [swapWords_short l h]

theorem swapWords_swapWords (l : List Byte) : swapWords (swapWords l) = l := by
  induction l using swapWords.induct with
  | case1 a b c d rest ih => simp [swapWords, ih]
  | case2 l h =>
    rw [swapWords_short l h, swapWords_short l h]

theorem encodeFloats_length (fs : List CFloat) : (encodeFloats fs).length = 4 * fs.length := by
  induction fs with
  | nil => rfl
  | cons f fs ih => simp [encodeFloats, ih]; omega

theorem encodeFloats_append (a b : List CFloat) :
    encodeFloats (a ++ b) = encodeFloats a ++ encodeFloats b := by
  induction a with
  | nil => rfl
  | cons f fs ih => simp [encodeFloats, ih]

theorem decodeFloats_encodeFloats (fs : List CFloat) : decodeFloats (encodeFloats fs) = fs := by
  induction fs with
  | nil => rfl
  | cons f fs ih => simp [encodeFloats, decodeFloats, ih]

theorem encodeFloats_map_fbyteswap (fs : List CFloat) :
    encodeFloats (fs.map fbyteswap) = swapWords (encodeFloats fs) := by
  induction fs with
  | nil => rfl
  | cons f fs ih => simp [encodeFloats, swapWords, fbyteswap, swapBytes4, ih]

theorem encodeFloats_take (fs : List CFloat) (k : Nat) :
    (encodeFloats fs).take (4 * k) = encodeFloats (fs.take k) := by
  induction fs generalizing k with
  | nil => simp [encodeFloats]
  | cons f fs ih =>
    cases k with
    | zero => simp [encodeFloats]
    | succ k =>
      have : 4 * (k + 1) = 4 * k + 1 + 1 + 1 + 1 := by omega
      rw [this]
      simp [encodeFloats, ih]

theorem encodeFloats_drop (fs : List CFloat) (k : Nat) :
    (encodeFloats fs).drop (4 * k) = encodeFloats (fs.drop k) := by
  induction fs generalizing k with
  | nil => simp [encodeFloats]
  | cons f fs ih =>
    cases k with
    | zero => simp [encodeFloats]
    | succ k =>
      have : 4 * (k + 1) = 4 * k + 1 + 1 + 1 + 1 := by omega
      rw [this]
      simp [encodeFloats, ih]

theorem decodeFloats_length (l : List Byte) : (decodeFloats l).length = l.length / 4 := by
  induction l using decodeFloats.induct with
  | case1 a b c d rest ih => simp [decodeFloats, ih]; omega
  | case2 l h =>
    have hd : decodeFloats l = [] := by
      unfold decodeFloats; split
      · exact absurd rfl (h _ _ _ _ _)
      · rfl
    have hl : l.length < 4 := by
      match l, h with
      | [], _ => simp
      | [_], _ => simp
      | [_, _], _ => simp
      | [_, _, _], _ => simp
      | a :: b :: c :: d :: rest, h => exact absurd rfl (h a b c d rest)
    rw [hd]; simp; omega

/-- Every run of bytes whose length is a multiple of 4 encodes some floats. -/
theorem encodeFloats_decodeFloats (l : List Byte) (hl : 4 ∣ l.length) :
    encodeFloats (decodeFloats l) = l := by
  induction l using decodeFloats.induct with
  | case1 a b c d rest ih =>
    have : 4 ∣ rest.length := by
      simp only [List.length_cons] at hl; omega
    simp [decodeFloats, encodeFloats, ih this]
  | case2 l h =>
    match l, h with
    | [], _ => rfl
    | [_], _ => simp only [List.length_cons, List.length_nil] at hl; omega
    | [_, _], _ => simp only [List.length_cons, List.length_nil] at hl; omega
    | [_, _, _], _ => simp only [List.length_cons, List.length_nil] at hl; omega
    | a :: b :: c :: d :: rest, h => exact absurd rfl (h a b c d rest)

theorem swapWords_append (l1 l2 : List Byte) (hl : 4 ∣ l1.length) :
    swapWords (l1 ++ l2) = swapWords l1 ++ swapWords l2 := by
  have h1 := encodeFloats_decodeFloats l1 hl
  generalize decodeFloats l1 = fs at h1
  subst h1
  induction fs with
  | nil => rfl
  | cons f fs ih =>
    have : 4 ∣ (encodeFloats fs).length := by rw [encodeFloats_length]; exact Dvd.intro _ rfl
    simp [encodeFloats, swapWords, ih this]

/-! ## Lemmas: `fabyteswap` -/

theorem fabyteswap_loop_spec (k : Nat) : ∀ (idx : Nat) (f : List CFloat), idx + k ≤ f.length →
    ∃ g, fabyteswap_loop k idx f = .ok g ∧ g.length = f.length ∧
      ∀ j, g[j]? = if idx ≤ j ∧ j < idx + k then f[j]?.map fbyteswap else f[j]? := by
  induction k with
  | zero =>
    intro idx f _
    refine ⟨f, rfl, rfl, ?_⟩
    intro j
    have : ¬ (idx ≤ j ∧ j < idx + 0) := by omega
    rw [if_neg this]
  | succ k ih =>
    intro idx f h
    have hidx : idx < f.length := by omega
    have hget : f[idx]? = some f[idx] := List.getElem?_eq_getElem hidx
    obtain ⟨g, hg, hlen, hpt⟩ := ih (idx + 1) (f.set idx (fbyteswap f[idx]))
      (by rw [List.length_set]; omega)
    refine ⟨g, ?_, ?_, ?_⟩
    · rw [fabyteswap_loop, hget]
      exact hg
    · rw [hlen, List.length_set]
    · intro j
      rw [hpt j, List.getElem?_set]
      by_cases hj : idx = j
      · subst hj
        have h1 : ¬ (idx + 1 ≤ idx ∧ idx < idx + 1 + k) := by omega
        have h2 : idx ≤ idx ∧ idx < idx + (k + 1) := by omega
        rw [if_neg h1, if_pos h2, if_pos rfl, if_pos hidx, hget]
        rfl
      · rw [if_neg hj]
        by_cases hin : idx + 1 ≤ j ∧ j < idx + 1 + k
        · have h2 : idx ≤ j ∧ j < idx + (k + 1) := by omega
          rw [if_pos hin, if_pos h2]
        · have h2 : ¬ (idx ≤ j ∧ j < idx + (k + 1)) := by omega
          rw [if_neg hin, if_neg h2]

theorem fabyteswap_loop_err (k : Nat) : ∀ (idx : Nat) (f : List CFloat), idx ≤ f.length →
    f.length < idx + k → fabyteswap_loop k idx f = .error .out_of_bounds := by
  induction k with
  | zero => intro idx f h1 h2; omega
  | succ k ih =>
    intro idx f h1 h2
    by_cases hidx : idx < f.length
    · have hget : f[idx]? = some f[idx] := List.getElem?_eq_getElem hidx
      rw [fabyteswap_loop, hget]
      exact ih (idx + 1) _ (by rw [List.length_set]; omega) (by rw [List.length_set]; omega)
    · have hget : f[idx]? = none := List.getElem?_eq_none (by omega)
      rw [fabyteswap_loop, hget]

/-- Closed form of `fabyteswap` on a buffer that holds at least `size` elements. -/
theorem fabyteswap_ok (f : List CFloat) (size : Int) (h : size.toNat ≤ f.length) :
    fabyteswap f size = .ok ((f.take size.toNat).map fbyteswap ++ f.drop size.toNat) := by
  obtain ⟨g, hg, hlen, hpt⟩ := fabyteswap_loop_spec size.toNat 0 f (by omega)
  unfold fabyteswap
  rw [hg]
  congr 1
  apply List.ext_getElem?
  intro j
  rw [hpt j]
  by_cases hj : j < size.toNat
  · have h2 : 0 ≤ j ∧ j < 0 + size.toNat := by omega
    rw [if_pos h2, List.getElem?_append_left (by simp; omega), List.getElem?_map,
      List.getElem?_take_of_lt hj]
  · have h2 : ¬ (0 ≤ j ∧ j < 0 + size.toNat) := by omega
    rw [if_neg h2, List.getElem?_append_right (by simp; omega), List.getElem?_drop]
    congr 1
    simp
    omega

theorem fabyteswap_err (f : List CFloat) (size : Int) (h : f.length < size.toNat) :
    fabyteswap f size = .error .out_of_bounds :=
  fabyteswap_loop_err size.toNat 0 f (by omega) (by omega)

/-! ## `convert_weights` as a run over the list of its transfers -/

theorem runTransfers_append (h : Host) (l1 l2 : List (Tensor × Int)) :
    ∀ (w : TransformerWeights) (s : World),
      runTransfers h (l1 ++ l2) w s = (runTransfers h l1 w s).andThen (runTransfers h l2) := by
  induction l1 with
  | nil => intro w s; simp [runTransfers, Outcome.andThen]
  | cons x l1 ih =>
    intro w s
    obtain ⟨t, c⟩ := x
    simp only [List.cons_append, runTransfers]
    cases hx : xfer h t (w.get t) c s with
    | fault f => simp [Outcome.andThen]
    | ret1 b s1 => simp [Outcome.andThen]
    | next b s1 => simp only; exact ih _ _

theorem andThen_nil (h : Host) (w : TransformerWeights) (s : World)
    (k : TransformerWeights → World → Outcome) :
    (runTransfers h [] w s).andThen k = k w s := by
  simp [runTransfers, Outcome.andThen]

theorem andThen_cons (h : Host) (t : Tensor) (c : Int) (rest : List (Tensor × Int))
    (w : TransformerWeights) (s : World) (k : TransformerWeights → World → Outcome) :
    (runTransfers h ((t, c) :: rest) w s).andThen k
      = match xfer h t (w.get t) c s with
        | .fault f => .fault f
        | .ret1 b s => .ret 1 (w.set t b) s
        | .next b s => (runTransfers h rest (w.set t b) s).andThen k := by
  simp only [runTransfers]
  cases xfer h t (w.get t) c s with
  | fault f => rfl
  | ret1 b s1 => simp [Outcome.andThen]
  | next b s1 => rfl

theorem convert_weights_eq (h : Host) (w : TransformerWeights) (p : Config) (s : World) :
    convert_weights h w p s
      = (runTransfers h (firstEleven p) w s).andThen (fun w s =>
          match cdiv p.dim p.n_heads with
          | .error f => .fault f
          | .ok head_size => runTransfers h (lastTwo p head_size) w s) := by
  unfold firstEleven
  simp only [andThen_cons, andThen_nil]
  cases hd : cdiv p.dim p.n_heads with
  | error f => simp only [convert_weights, hd]; rfl
  | ok hs => simp only [convert_weights, hd]; rfl

/-! ## Lemmas: conversion to `size_t` -/

theorem modulus_ge (h : Host) : 4294967296 ≤ h.size_t.modulus := by
  cases hs : h.size_t <;> simp [SizeWidth.modulus]

theorem toSizeT_of_nonneg (h : Host) (c : Int) (h0 : 0 ≤ c) (h1 : c < 2147483648) :
    toSizeT h c = c.toNat := by
  unfold toSizeT
  cases hs : h.size_t <;> simp only [SizeWidth.modulus] <;> omega

theorem toSizeT_of_neg (h : Host) (c : Int) (h0 : c < 0) (h1 : -2147483648 ≤ c) :
    h.size_t.modulus ≤ toSizeT h c + 2147483648 := by
  unfold toSizeT
  cases hs : h.size_t <;> simp only [SizeWidth.modulus] <;> omega

theorem toSizeT_lt (h : Host) (c : Int) : toSizeT h c < h.size_t.modulus := by
  unfold toSizeT
  cases hs : h.size_t <;> simp only [SizeWidth.modulus] <;> omega

/-! ## Lemmas: `fread` and `fwrite` -/

theorem fread_full (t : Tensor) (buf : List CFloat) (n : Nat) (s : World)
    (hsrc : 4 * n ≤ s.src.length) (hbuf : n ≤ buf.length) :
    fread t buf n s = .ok (decodeFloats (s.src.take (4 * n)) ++ buf.drop n, n,
      { s with src := s.src.drop (4 * n), trace := s.trace ++ [.fread t n n] }) := by
  unfold fread
  have hmin : min (4 * n) s.src.length = 4 * n := by omega
  have hdiv : 4 * n / 4 = n := by omega
  simp only [hmin, hdiv]
  rw [if_neg (by omega)]

theorem fread_short (t : Tensor) (buf : List CFloat) (n : Nat) (s : World)
    (hsrc : s.src.length < 4 * n) (hbuf : s.src.length ≤ 4 * buf.length) :
    fread t buf n s = .ok (decodeFloats (s.src.take (4 * (s.src.length / 4)))
        ++ buf.drop (s.src.length / 4), s.src.length / 4,
      { s with src := [], trace := s.trace ++ [.fread t n (s.src.length / 4)] }) := by
  unfold fread
  have hmin : min (4 * n) s.src.length = s.src.length := by omega
  simp only [hmin]
  rw [if_neg (by omega), List.drop_length]

theorem fread_fault (t : Tensor) (buf : List CFloat) (n : Nat) (s : World)
    (h1 : 4 * buf.length < 4 * n) (h2 : 4 * buf.length < s.src.length) :
    fread t buf n s = .error .out_of_bounds := by
  unfold fread
  simp only
  rw [if_pos (by omega)]

theorem fclose_trace (s : World) : (fclose s).trace = s.trace := rfl

theorem fwrite_count_le (h : Host) (handed size n room : Nat) :
    fwrite_count h handed size n room ≤ n := by
  unfold fwrite_count
  split
  · exact le_refl _
  · exact Nat.min_le_left _ _

/-- A request that the device has room for is reported complete. -/
theorem fwrite_count_of_le (h : Host) (handed size n room : Nat)
    (hroom : handed + size * n ≤ room) : fwrite_count h handed size n room = n := by
  unfold fwrite_count
  rw [if_pos hroom]

theorem fwrite_count_zero (h : Host) (handed size room : Nat) :
    fwrite_count h handed size 0 room = 0 :=
  Nat.le_zero.mp (fwrite_count_le h handed size 0 room)

/-- A call of `fwrite` from a buffer that holds the elements: all the bytes
are given to the stream, whatever count is reported. -/
theorem fwrite_ok (h : Host) (t : Tensor) (buf : List CFloat) (n : Nat) (s : World)
    (hbuf : n ≤ buf.length) :
    fwrite h t buf n s = .ok (fwrite_count h s.dst.length 4 n s.cap,
      { s with dst := s.dst ++ encodeFloats (buf.take n),
               trace := s.trace ++ [.fwrite t n (fwrite_count h s.dst.length 4 n s.cap)] }) := by
  unfold fwrite
  rw [if_neg (by omega), encodeFloats_take]

theorem fwrite_full (h : Host) (t : Tensor) (buf : List CFloat) (n : Nat) (s : World)
    (hcap : s.dst.length + 4 * n ≤ s.cap) (hbuf : n ≤ buf.length) :
    fwrite h t buf n s = .ok (n,
      { s with dst := s.dst ++ encodeFloats (buf.take n),
               trace := s.trace ++ [.fwrite t n n] }) := by
  rw [fwrite_ok h t buf n s hbuf, fwrite_count_of_le h _ 4 n _ hcap]

/-! ## Lemmas: one tensor -/

theorem take_four_mul_dvd (l : List Byte) (n : Nat) (h : 4 * n ≤ l.length) :
    4 ∣ (l.take (4 * n)).length := by
  rw [List.length_take]
  exact ⟨n, by omega⟩

/-- The buffer after the swap of a completely read tensor holds the
byte-reversed elements of the source. -/
theorem encode_swapped (src : List Byte) (buf : List CFloat) (n : Nat)
    (hsrc : 4 * n ≤ src.length) :
    encodeFloats ((((decodeFloats (src.take (4 * n)) ++ buf.drop n).take n).map fbyteswap
        ++ (decodeFloats (src.take (4 * n)) ++ buf.drop n).drop n).take n)
      = swapWords (src.take (4 * n)) := by
  have hlen : (decodeFloats (src.take (4 * n))).length = n := by
    rw [decodeFloats_length, List.length_take]; omega
  have h1 : (decodeFloats (src.take (4 * n)) ++ buf.drop n).take n
      = decodeFloats (src.take (4 * n)) := by
    rw [List.take_append_of_le_length (by omega), List.take_of_length_le (by omega)]
  rw [h1]
  have h2 : ((decodeFloats (src.take (4 * n))).map fbyteswap
      ++ (decodeFloats (src.take (4 * n)) ++ buf.drop n).drop n).take n
      = (decodeFloats (src.take (4 * n))).map fbyteswap := by
    rw [List.take_append_of_le_length (by rw [List.length_map]; omega),
      List.take_of_length_le (by rw [List.length_map]; omega)]
  rw [h2, encodeFloats_map_fbyteswap, encodeFloats_decodeFloats _ (take_four_mul_dvd src n hsrc)]

/-- A tensor whose count is non-negative, fits its buffer and is supplied by
the source is read, swapped and given to the destination stream; the transfer
completes when the write is reported complete, and ends the conversion
otherwise. -/
theorem xfer_written (h : Host) (t : Tensor) (buf : List CFloat) (c : Int) (s : World)
    (h0 : 0 ≤ c) (h1 : c < 2147483648) (hbuf : c.toNat ≤ buf.length)
    (hsrc : 4 * c.toNat ≤ s.src.length) :
    ∃ b, b.length = buf.length ∧
      xfer h t buf c s
        = if fwrite_count h s.dst.length 4 c.toNat s.cap ≠ c.toNat then
            .ret1 b
              { src := s.src.drop (4 * c.toNat)
                dst := s.dst ++ swapWords (s.src.take (4 * c.toNat))
                cap := s.cap
                trace := s.trace ++ [.fread t c.toNat c.toNat, .fabyteswap t c,
                  .fwrite t c.toNat (fwrite_count h s.dst.length 4 c.toNat s.cap)] }
          else .next b (s.afterTensor t c c.toNat) := by
  have hn := toSizeT_of_nonneg h c h0 h1
  have hlen : (decodeFloats (s.src.take (4 * c.toNat))).length = c.toNat := by
    rw [decodeFloats_length, List.length_take]; omega
  have hb1 : (decodeFloats (s.src.take (4 * c.toNat)) ++ buf.drop c.toNat).length = buf.length := by
    rw [List.length_append, hlen, List.length_drop]; omega
  refine ⟨((decodeFloats (s.src.take (4 * c.toNat)) ++ buf.drop c.toNat).take c.toNat).map fbyteswap
      ++ (decodeFloats (s.src.take (4 * c.toNat)) ++ buf.drop c.toNat).drop c.toNat, ?_, ?_⟩
  · rw [List.length_append, List.length_map, List.length_take, List.length_drop, hb1]; omega
  · unfold xfer
    rw [hn, fread_full t buf c.toNat s hsrc hbuf]
    simp only [ne_eq, not_true_eq_false, if_false]
    rw [fabyteswap_ok _ c (by rw [hb1]; exact hbuf)]
    simp only
    rw [fwrite_ok h _ _ _ _
      (by rw [List.length_append, List.length_map, List.length_take, List.length_drop, hb1]; omega)]
    simp only
    rw [encode_swapped s.src buf c.toNat hsrc]
    by_cases hr : fwrite_count h s.dst.length 4 c.toNat s.cap = c.toNat
    · rw [if_neg (by simpa using hr), if_neg (by simpa using hr), hr]
      simp [World.afterTensor]
    · rw [if_pos (by simpa using hr), if_pos (by simpa using hr)]
      simp

/-- A tensor whose count is non-negative, fits its buffer, is supplied by the
source and accepted by the destination is transferred completely. -/
theorem xfer_next (h : Host) (t : Tensor) (buf : List CFloat) (c : Int) (s : World)
    (h0 : 0 ≤ c) (h1 : c < 2147483648) (hbuf : c.toNat ≤ buf.length)
    (hsrc : 4 * c.toNat ≤ s.src.length) (hcap : s.dst.length + 4 * c.toNat ≤ s.cap) :
    ∃ b, b.length = buf.length ∧ xfer h t buf c s = .next b (s.afterTensor t c c.toNat) := by
  obtain ⟨b, hl, hx⟩ := xfer_written h t buf c s h0 h1 hbuf hsrc
  rw [fwrite_count_of_le h _ 4 _ _ hcap, if_neg (by simp)] at hx
  exact ⟨b, hl, hx⟩

/-- A read that would store past the end of the buffer is a fault. -/
theorem xfer_read_fault (h : Host) (t : Tensor) (buf : List CFloat) (c : Int) (s : World)
    (h1 : 4 * buf.length < 4 * toSizeT h c) (h2 : 4 * buf.length < s.src.length) :
    xfer h t buf c s = .fault .out_of_bounds := by
  unfold xfer
  rw [fread_fault t buf _ s h1 h2]

/-- A short read ends the conversion before anything of the tensor is written. -/
theorem xfer_read_short (h : Host) (t : Tensor) (buf : List CFloat) (c : Int) (s : World)
    (hsrc : s.src.length < 4 * toSizeT h c) (hbuf : s.src.length ≤ 4 * buf.length) :
    ∃ b, xfer h t buf c s = .ret1 b
      { s with src := [], trace := s.trace ++ [.fread t (toSizeT h c) (s.src.length / 4)] } := by
  refine ⟨decodeFloats (s.src.take (4 * (s.src.length / 4))) ++ buf.drop (s.src.length / 4), ?_⟩
  unfold xfer
  rw [fread_short t buf _ s hsrc hbuf]
  simp only
  rw [if_pos (by omega)]

/-- Under the bound that `calloc` puts on a buffer, a transfer that completes
had a non-negative count that fits the buffer and the source. -/
theorem xfer_next_inv (h : Host) (t : Tensor) (buf : List CFloat) (c : Int) (s : World)
    (b : List CFloat) (s' : World) (hc : InInt32 c) (hbuf : 4 * buf.length < h.size_t.modulus)
    (hx : xfer h t buf c s = .next b s') :
    0 ≤ c ∧ c.toNat ≤ buf.length ∧ 4 * c.toNat ≤ s.src.length := by
  have hM := modulus_ge h
  unfold InInt32 at hc
  by_cases hneg : c < 0
  · exfalso
    have hbig := toSizeT_of_neg h c hneg hc.1
    by_cases hov : 4 * buf.length < s.src.length
    · rw [xfer_read_fault h t buf c s (by omega) hov] at hx
      cases hx
    · obtain ⟨b1, hb1⟩ := xfer_read_short h t buf c s (by omega) (by omega)
      rw [hb1] at hx
      cases hx
  · have hn := toSizeT_of_nonneg h c (by omega) hc.2
    by_cases hsrc : 4 * c.toNat ≤ s.src.length
    · by_cases hfit : c.toNat ≤ buf.length
      · exact ⟨by omega, hfit, hsrc⟩
      · exfalso
        rw [xfer_read_fault h t buf c s (by rw [hn]; omega) (by omega)] at hx
        cases hx
    · exfalso
      by_cases hov : 4 * buf.length < s.src.length
      · rw [xfer_read_fault h t buf c s (by rw [hn]; omega) hov] at hx
        cases hx
      · obtain ⟨b1, hb1⟩ := xfer_read_short h t buf c s (by rw [hn]; omega) (by omega)
        rw [hb1] at hx
        cases hx

/-- The state after a transfer that completes. -/
theorem xfer_next_state (h : Host) (t : Tensor) (buf : List CFloat) (c : Int) (s : World)
    (b : List CFloat) (s' : World) (hc : InInt32 c) (hbuf : 4 * buf.length < h.size_t.modulus)
    (hx : xfer h t buf c s = .next b s') :
    s' = s.afterTensor t c c.toNat ∧ b.length = buf.length := by
  obtain ⟨h0, hfit, hsrc⟩ := xfer_next_inv h t buf c s b s' hc hbuf hx
  obtain ⟨b1, hl, hb1⟩ := xfer_written h t buf c s h0 hc.2 hfit hsrc
  rw [hb1] at hx
  split at hx
  · cases hx
  · injection hx with e1 e2
    subst e1 e2
    exact ⟨rfl, hl⟩

/-! ## Lemmas: the library calls a transfer makes -/

theorem fread_trace (t : Tensor) (buf : List CFloat) (n : Nat) (s : World)
    (b : List CFloat) (r : Nat) (s' : World) (hx : fread t buf n s = .ok (b, r, s')) :
    s'.trace = s.trace ++ [.fread t n r] ∧ s'.dst = s.dst ∧ s'.cap = s.cap := by
  unfold fread at hx
  simp only at hx
  split at hx
  · cases hx
  · injection hx with hx
    injection hx with e1 e2
    injection e2 with e2 e3
    subst e1 e2 e3
    exact ⟨rfl, rfl, rfl⟩

theorem fwrite_trace (h : Host) (t : Tensor) (buf : List CFloat) (n : Nat) (s : World)
    (r : Nat) (s' : World) (hx : fwrite h t buf n s = .ok (r, s')) :
    s'.trace = s.trace ++ [.fwrite t n r] ∧ s'.src = s.src := by
  unfold fwrite at hx
  simp only at hx
  split at hx
  · cases hx
  · injection hx with hx
    injection hx with e1 e2
    subst e1 e2
    exact ⟨rfl, rfl⟩

/-- A transfer that completes made exactly three calls, all with the full count. -/
theorem xfer_next_trace (h : Host) (t : Tensor) (buf : List CFloat) (c : Int) (s : World)
    (b : List CFloat) (s' : World) (hx : xfer h t buf c s = .next b s') :
    s'.trace = s.trace ++ [.fread t (toSizeT h c) (toSizeT h c), .fabyteswap t c,
                           .fwrite t (toSizeT h c) (toSizeT h c)] := by
  unfold xfer at hx
  cases hr : fread t buf (toSizeT h c) s with
  | error f => rw [hr] at hx; cases hx
  | ok x =>
    obtain ⟨b1, r, s1⟩ := x
    rw [hr] at hx
    simp only at hx
    have htr := (fread_trace t buf _ s b1 r s1 hr).1
    split at hx
    · cases hx
    · rename_i hrn
      have hrn' : r = toSizeT h c := by simpa using hrn
      cases hs : fabyteswap b1 c with
      | error f => rw [hs] at hx; cases hx
      | ok b2 =>
        rw [hs] at hx
        simp only at hx
        cases hw : fwrite h t b2 (toSizeT h c)
            { s1 with trace := s1.trace ++ [.fabyteswap t c] } with
        | error f => rw [hw] at hx; cases hx
        | ok y =>
          obtain ⟨r2, s3⟩ := y
          rw [hw] at hx
          simp only at hx
          have htw := (fwrite_trace h t b2 _ _ r2 s3 hw).1
          split at hx
          · cases hx
          · rename_i hrn2
            have hrn2' : r2 = toSizeT h c := by simpa using hrn2
            injection hx with e1 e2
            subst e2
            rw [htw, htr, hrn', hrn2']
            simp

/-- A transfer that ends in `return 1` stopped at a call that returned a count
different from the one requested, and made no call after it. -/
theorem xfer_ret1_trace (h : Host) (t : Tensor) (buf : List CFloat) (c : Int) (s : World)
    (b : List CFloat) (s' : World) (hx : xfer h t buf c s = .ret1 b s') :
    ∃ r, r ≠ toSizeT h c ∧
      (s'.trace = s.trace ++ [.fread t (toSizeT h c) r] ∨
       s'.trace = s.trace ++ [.fread t (toSizeT h c) (toSizeT h c), .fabyteswap t c,
                              .fwrite t (toSizeT h c) r]) := by
  unfold xfer at hx
  cases hr : fread t buf (toSizeT h c) s with
  | error f => rw [hr] at hx; cases hx
  | ok x =>
    obtain ⟨b1, r, s1⟩ := x
    rw [hr] at hx
    simp only at hx
    have htr := (fread_trace t buf _ s b1 r s1 hr).1
    split at hx
    · rename_i hrn
      injection hx with e1 e2
      subst e2
      exact ⟨r, hrn, Or.inl htr⟩
    · rename_i hrn
      have hrn' : r = toSizeT h c := by simpa using hrn
      cases hs : fabyteswap b1 c with
      | error f => rw [hs] at hx; cases hx
      | ok b2 =>
        rw [hs] at hx
        simp only at hx
        cases hw : fwrite h t b2 (toSizeT h c)
            { s1 with trace := s1.trace ++ [.fabyteswap t c] } with
        | error f => rw [hw] at hx; cases hx
        | ok y =>
          obtain ⟨r2, s3⟩ := y
          rw [hw] at hx
          simp only at hx
          have htw := (fwrite_trace h t b2 _ _ r2 s3 hw).1
          split at hx
          · rename_i hrn2
            injection hx with e1 e2
            subst e2
            refine ⟨r2, hrn2, Or.inr ?_⟩
            rw [htw, htr, hrn']
            simp
          · cases hx

/-! ## Lemmas: runs of transfers -/

theorem totalCount_cons (t : Tensor) (c : Int) (l : List (Tensor × Int)) :
    totalCount ((t, c) :: l) = c.toNat + totalCount l := by
  simp [totalCount]

theorem totalCount_append (l1 l2 : List (Tensor × Int)) :
    totalCount (l1 ++ l2) = totalCount l1 + totalCount l2 := by
  simp [totalCount]

theorem planEvents_append (h : Host) (l1 l2 : List (Tensor × Int)) :
    planEvents h (l1 ++ l2) = planEvents h l1 ++ planEvents h l2 := by
  induction l1 with
  | nil => rfl
  | cons x l1 ih => obtain ⟨t, c⟩ := x; simp [planEvents, ih]

theorem get_set (w : TransformerWeights) (t t' : Tensor) (b : List CFloat) :
    (w.set t b).get t' = if t = t' then b else w.get t' := by
  cases t <;> cases t' <;> rfl

theorem length_get_set (w : TransformerWeights) (t t' : Tensor) (b : List CFloat)
    (hb : b.length = (w.get t).length) :
    ((w.set t b).get t').length = (w.get t').length := by
  rw [get_set]
  split
  · rename_i e; subst e; exact hb
  · rfl

theorem swapWords_take_add (l : List Byte) (a b : Nat) (ha : 4 ∣ a) (hl : a ≤ l.length) :
    swapWords (l.take (a + b)) = swapWords (l.take a) ++ swapWords ((l.drop a).take b) := by
  rw [List.take_add, swapWords_append _ _ (by rw [List.length_take]; rwa [Nat.min_eq_left hl])]

theorem afterTensor_afterAll (s : World) (h : Host) (t : Tensor) (c : Int)
    (l : List (Tensor × Int)) (h0 : 0 ≤ c) (h1 : c < 2147483648)
    (hsrc : 4 * c.toNat ≤ s.src.length) :
    (s.afterTensor t c c.toNat).afterAll h l = s.afterAll h ((t, c) :: l) := by
  have hn := toSizeT_of_nonneg h c h0 h1
  simp only [World.afterTensor, World.afterAll, totalCount_cons, planEvents, hn]
  have e1 : 4 * (c.toNat + totalCount l) = 4 * c.toNat + 4 * totalCount l := by omega
  rw [e1, swapWords_take_add _ _ _ ⟨c.toNat, rfl⟩ hsrc, List.drop_drop]
  have e2 : 4 * totalCount l + 4 * c.toNat = 4 * c.toNat + 4 * totalCount l := by omega
  simp [e2, List.append_assoc]

theorem afterAll_nil (s : World) (h : Host) : s.afterAll h [] = s := by
  simp [World.afterAll, totalCount, planEvents, swapWords]

/-- A run that returns 0 transferred every listed tensor completely. -/
theorem run_ret0_inv (h : Host) (l : List (Tensor × Int)) :
    ∀ (w : TransformerWeights) (s : World) (code : Int) (w' : TransformerWeights) (s' : World),
      (∀ x ∈ l, InInt32 x.2) → w.Bounded h →
      runTransfers h l w s = .ret code w' s' → code = 0 →
      (∀ x ∈ l, 0 ≤ x.2 ∧ x.2.toNat ≤ (w.get x.1).length) ∧
      4 * totalCount l ≤ s.src.length ∧
      s' = s.afterAll h l ∧ (∀ t, (w'.get t).length = (w.get t).length) := by
  induction l with
  | nil =>
    intro w s code w' s' _ _ hr _
    simp only [runTransfers] at hr
    injection hr with e1 e2 e3
    subst e2 e3
    refine ⟨by simp, by simp [totalCount], (afterAll_nil s h).symm, fun _ => rfl⟩
  | cons x l ih =>
    intro w s code w' s' hin hb hr hcode
    obtain ⟨t, c⟩ := x
    have hc : InInt32 c := hin (t, c) (List.mem_cons_self _ _)
    simp only [runTransfers] at hr
    cases hx : xfer h t (w.get t) c s with
    | fault f => rw [hx] at hr; cases hr
    | ret1 b s1 =>
      rw [hx] at hr
      injection hr with e1 e2 e3
      omega
    | next b s1 =>
      rw [hx] at hr
      simp only at hr
      obtain ⟨h0, hfit, hsrc⟩ := xfer_next_inv h t _ c s b s1 hc (hb t) hx
      obtain ⟨hs1, hlen⟩ := xfer_next_state h t _ c s b s1 hc (hb t) hx
      have hb' : (w.set t b).Bounded h := by
        intro t'
        rw [length_get_set w t t' b hlen]
        exact hb t'
      obtain ⟨i1, i2, i4, i5⟩ := ih (w.set t b) s1 code w' s'
        (fun x hx => hin x (List.mem_cons_of_mem _ hx)) hb' hr hcode
      rw [hs1] at i2 i4
      simp only [World.afterTensor, List.length_drop] at i2
      refine ⟨?_, ?_, ?_, ?_⟩
      · intro x hx
        rcases List.mem_cons.mp hx with e | hx
        · subst e; exact ⟨h0, hfit⟩
        · have := i1 x hx
          rw [length_get_set w t x.1 b hlen] at this
          exact this
      · rw [totalCount_cons]; omega
      · rw [i4, afterTensor_afterAll s h t c l h0 hc.2 hsrc]
      · intro t'
        rw [i5 t', length_get_set w t t' b hlen]

/-- A run whose counts are non-negative and fit the buffers, on a source that
supplies every element and a destination that accepts them, returns 0. -/
theorem run_ok (h : Host) (l : List (Tensor × Int)) :
    ∀ (w : TransformerWeights) (s : World),
      (∀ x ∈ l, 0 ≤ x.2 ∧ x.2 < 2147483648 ∧ x.2.toNat ≤ (w.get x.1).length) →
      4 * totalCount l ≤ s.src.length → s.dst.length + 4 * totalCount l ≤ s.cap →
      ∃ w', (∀ t, (w'.get t).length = (w.get t).length) ∧
        runTransfers h l w s = .ret 0 w' (s.afterAll h l) := by
  induction l with
  | nil =>
    intro w s _ _ _
    exact ⟨w, fun _ => rfl, by simp [runTransfers, afterAll_nil]⟩
  | cons x l ih =>
    intro w s hin hsrc hcap
    obtain ⟨t, c⟩ := x
    obtain ⟨h0, h1, hfit⟩ := hin (t, c) (List.mem_cons_self _ _)
    rw [totalCount_cons] at hsrc hcap
    obtain ⟨b, hlen, hx⟩ := xfer_next h t (w.get t) c s h0 h1 hfit (by omega) (by omega)
    obtain ⟨w', hw', hr⟩ := ih (w.set t b) (s.afterTensor t c c.toNat)
      (by
        intro x hx
        obtain ⟨a1, a2, a3⟩ := hin x (List.mem_cons_of_mem _ hx)
        refine ⟨a1, a2, ?_⟩
        rw [length_get_set w t x.1 b hlen]
        exact a3)
      (by simp only [World.afterTensor, List.length_drop]; omega)
      (by
        simp only [World.afterTensor, List.length_append, swapWords_length, List.length_take]
        omega)
    refine ⟨w', ?_, ?_⟩
    · intro t'
      rw [hw' t', length_get_set w t t' b hlen]
    · simp only [runTransfers, hx]
      rw [hr, afterTensor_afterAll s h t c l h0 h1 (by omega)]

/-- The library calls of a run that returned: either every transfer was
complete, or the run stopped at the first call that returned a count different
from the one requested. -/
theorem run_trace (h : Host) (l : List (Tensor × Int)) :
    ∀ (w : TransformerWeights) (s : World) (code : Int) (w' : TransformerWeights) (s' : World),
      runTransfers h l w s = .ret code w' s' →
      (code = 0 ∧ s'.trace = s.trace ++ planEvents h l) ∨
      (code = 1 ∧ ∃ l1 t c l2 r, l = l1 ++ (t, c) :: l2 ∧ r ≠ toSizeT h c ∧
        (s'.trace = s.trace ++ planEvents h l1 ++ [.fread t (toSizeT h c) r] ∨
         s'.trace = s.trace ++ planEvents h l1 ++
           [.fread t (toSizeT h c) (toSizeT h c), .fabyteswap t c, .fwrite t (toSizeT h c) r])) := by
  induction l with
  | nil =>
    intro w s code w' s' hr
    simp only [runTransfers] at hr
    injection hr with e1 e2 e3
    subst e1 e3
    exact Or.inl ⟨rfl, by simp [planEvents]⟩
  | cons x l ih =>
    intro w s code w' s' hr
    obtain ⟨t, c⟩ := x
    simp only [runTransfers] at hr
    cases hx : xfer h t (w.get t) c s with
    | fault f => rw [hx] at hr; cases hr
    | ret1 b s1 =>
      rw [hx] at hr
      injection hr with e1 e2 e3
      subst e1 e3
      obtain ⟨r, hr1, hr2⟩ := xfer_ret1_trace h t _ c s b s1 hx
      refine Or.inr ⟨rfl, [], t, c, l, r, rfl, hr1, ?_⟩
      simpa [planEvents] using hr2
    | next b s1 =>
      rw [hx] at hr
      simp only at hr
      have ht := xfer_next_trace h t _ c s b s1 hx
      rcases ih (w.set t b) s1 code w' s' hr with ⟨hc, htr⟩ | ⟨hc, l1, t2, c2, l2, r, hl, hr1, hr2⟩
      · refine Or.inl ⟨hc, ?_⟩
        rw [htr, ht]
        simp [planEvents]
      · refine Or.inr ⟨hc, (t, c) :: l1, t2, c2, l2, r, by rw [hl]; rfl, hr1, ?_⟩
        rw [ht] at hr2
        simpa [planEvents] using hr2

/-! ## Lemmas: integer expressions -/

theorem tdiv_two (x : Int) : Int.tdiv x 2 = if 0 ≤ x then x / 2 else -((-x) / 2) := by
  split
  · rename_i hx
    exact Int.tdiv_eq_ediv hx (by decide)
  · rename_i hx
    have h1 : x = -(-x) := by omega
    rw [h1, Int.neg_tdiv, Int.tdiv_eq_ediv (by omega) (by decide)]
    simp

theorem tdiv_two_inInt32 (x : Int) (hx : InInt32 x) : InInt32 (Int.tdiv x 2) := by
  unfold InInt32 at *
  rw [tdiv_two]
  split <;> omega

theorem imul_inInt32 (a b : Int) : InInt32 (imul a b) := wrap32_inInt32 _

theorem cdiv_ok (a b hs : Int) (hd : cdiv a b = .ok hs) : hs = Int.tdiv a b := by
  unfold cdiv at hd
  split at hd
  · cases hd
  · split at hd
    · cases hd
    · injection hd with e; exact e.symm

/-! ## Lemmas: the header -/

theorem cons_of_length_succ (l : List Byte) (n : Nat) (hl : l.length = n + 1) :
    ∃ a t, l = a :: t ∧ t.length = n := by
  cases l with
  | nil => simp at hl
  | cons a t => exact ⟨a, t, rfl, by simpa using hl⟩

theorem convert_config_inRange (e : Endian) (p : Config) : (convert_config e p).InRange :=
  ⟨ibyteswap_inInt32 e _, ibyteswap_inInt32 e _, ibyteswap_inInt32 e _, ibyteswap_inInt32 e _,
   ibyteswap_inInt32 e _, ibyteswap_inInt32 e _, ibyteswap_inInt32 e _⟩

theorem toList_intToBytes_ibyteswap (e : Endian) (i : Int) :
    (intToBytes e (ibyteswap e i)).toList = swapWords (intToBytes e i).toList := by
  rw [intToBytes_ibyteswap]
  rfl

theorem toBytes_length (e : Endian) (p : Config) : (p.toBytes e).length = 28 := rfl

/-- The header that `convert_config` produces is, in memory, the header it was
given with each 4-byte field reversed. -/
theorem toBytes_convert_config (e : Endian) (p : Config) :
    (convert_config e p).toBytes e = swapWords (p.toBytes e) := by
  simp only [Config.toBytes, convert_config, intToBytes_ibyteswap]
  rfl

/-- A run of 28 bytes is the object representation of exactly one header. -/
theorem ofBytes_of_length (e : Endian) (l : List Byte) (hl : l.length = 28) :
    ∃ config, Config.ofBytes e l = some config ∧ config.toBytes e = l ∧ config.InRange := by
  obtain ⟨a0, l1, rfl, hl1⟩ := cons_of_length_succ l 27 hl
  obtain ⟨a1, l2, rfl, hl2⟩ := cons_of_length_succ l1 26 hl1
  obtain ⟨a2, l3, rfl, hl3⟩ := cons_of_length_succ l2 25 hl2
  obtain ⟨a3, l4, rfl, hl4⟩ := cons_of_length_succ l3 24 hl3
  obtain ⟨a4, l5, rfl, hl5⟩ := cons_of_length_succ l4 23 hl4
  obtain ⟨a5, l6, rfl, hl6⟩ := cons_of_length_succ l5 22 hl5
  obtain ⟨a6, l7, rfl, hl7⟩ := cons_of_length_succ l6 21 hl6
  obtain ⟨a7, l8, rfl, hl8⟩ := cons_of_length_succ l7 20 hl7
  obtain ⟨a8, l9, rfl, hl9⟩ := cons_of_length_succ l8 19 hl8
  obtain ⟨a9, l10, rfl, hl10⟩ := cons_of_length_succ l9 18 hl9
  obtain ⟨a10, l11, rfl, hl11⟩ := cons_of_length_succ l10 17 hl10
  obtain ⟨a11, l12, rfl, hl12⟩ := cons_of_length_succ l11 16 hl11
  obtain ⟨a12, l13, rfl, hl13⟩ := cons_of_length_succ l12 15 hl12
  obtain ⟨a13, l14, rfl, hl14⟩ := cons_of_length_succ l13 14 hl13
  obtain ⟨a14, l15, rfl, hl15⟩ := cons_of_length_succ l14 13 hl14
  obtain ⟨a15, l16, rfl, hl16⟩ := cons_of_length_succ l15 12 hl15
  obtain ⟨a16, l17, rfl, hl17⟩ := cons_of_length_succ l16 11 hl16
  obtain ⟨a17, l18, rfl, hl18⟩ := cons_of_length_succ l17 10 hl17
  obtain ⟨a18, l19, rfl, hl19⟩ := cons_of_length_succ l18 9 hl18
  obtain ⟨a19, l20, rfl, hl20⟩ := cons_of_length_succ l19 8 hl19
  obtain ⟨a20, l21, rfl, hl21⟩ := cons_of_length_succ l20 7 hl20
  obtain ⟨a21, l22, rfl, hl22⟩ := cons_of_length_succ l21 6 hl21
  obtain ⟨a22, l23, rfl, hl23⟩ := cons_of_length_succ l22 5 hl22
  obtain ⟨a23, l24, rfl, hl24⟩ := cons_of_length_succ l23 4 hl23
  obtain ⟨a24, l25, rfl, hl25⟩ := cons_of_length_succ l24 3 hl24
  obtain ⟨a25, l26, rfl, hl26⟩ := cons_of_length_succ l25 2 hl25
  obtain ⟨a26, l27, rfl, hl27⟩ := cons_of_length_succ l26 1 hl26
  obtain ⟨a27, l28, rfl, hl28⟩ := cons_of_length_succ l27 0 hl27
  have hnil : l28 = [] := List.length_eq_zero.mp hl28
  subst hnil
  refine ⟨_, rfl, ?_, ?_⟩
  · simp only [Config.toBytes, intToBytes_bytesToInt]
    rfl
  · exact ⟨bytesToInt_inInt32 e _, bytesToInt_inInt32 e _, bytesToInt_inInt32 e _,
      bytesToInt_inInt32 e _, bytesToInt_inInt32 e _, bytesToInt_inInt32 e _,
      bytesToInt_inInt32 e _⟩

theorem ofBytes_none (e : Endian) (l : List Byte) (hl : l.length ≠ 28) :
    Config.ofBytes e l = none := by
  unfold Config.ofBytes
  split
  · simp at hl
  · rfl

theorem ofBytes_toBytes (e : Endian) (p : Config) (hp : p.InRange) :
    Config.ofBytes e (p.toBytes e) = some p := by
  obtain ⟨h1, h2, h3, h4, h5, h6, h7⟩ := hp
  obtain ⟨d, hd, nl, nh, nk, v, sl⟩ := p
  simp only [Config.toBytes, Bytes4.toList, List.cons_append, List.nil_append, Config.ofBytes]
  have e1 := bytesToInt_intToBytes e d h1
  have e2 := bytesToInt_intToBytes e hd h2
  have e3 := bytesToInt_intToBytes e nl h3
  have e4 := bytesToInt_intToBytes e nh h4
  have e5 := bytesToInt_intToBytes e nk h5
  have e6 := bytesToInt_intToBytes e v h6
  have e7 := bytesToInt_intToBytes e sl h7
  change some (Config.mk (bytesToInt e (intToBytes e d)) (bytesToInt e (intToBytes e hd))
    (bytesToInt e (intToBytes e nl)) (bytesToInt e (intToBytes e nh))
    (bytesToInt e (intToBytes e nk)) (bytesToInt e (intToBytes e v))
    (bytesToInt e (intToBytes e sl))) = _
  rw [e1, e2, e3, e4, e5, e6, e7]

theorem convert_config_convert_config (e : Endian) (p : Config) (hp : p.InRange) :
    convert_config e (convert_config e p) = p := by
  obtain ⟨h1, h2, h3, h4, h5, h6, h7⟩ := hp
  obtain ⟨d, hd, nl, nh, nk, v, sl⟩ := p
  simp only [convert_config, Config.mk.injEq]
  exact ⟨ibyteswap_ibyteswap e d h1, ibyteswap_ibyteswap e hd h2, ibyteswap_ibyteswap e nl h3,
    ibyteswap_ibyteswap e nh h4, ibyteswap_ibyteswap e nk h5, ibyteswap_ibyteswap e v h6,
    ibyteswap_ibyteswap e sl h7⟩

/-! ## Lemmas: `malloc_weights` -/

theorem calloc_some (h : Host) (n : Nat) (b : List CFloat) (hc : calloc h n = some b) :
    b.length = n ∧ 4 * n < h.size_t.modulus ∧ h.calloc_ok n = true := by
  unfold calloc at hc
  split at hc
  · rename_i hok
    injection hc with e
    subst e
    exact ⟨List.length_replicate _ _, hok.1, hok.2⟩
  · cases hc

theorem calloc_of_ok (h : Host) (n : Nat) (h1 : 4 * n < h.size_t.modulus)
    (h2 : h.calloc_ok n = true) : calloc h n = some (List.replicate n zeroFloat) := by
  unfold calloc
  rw [if_pos ⟨h1, h2⟩]

theorem malloc_weights_world (h : Host) (p : Config) (s : World) :
    (malloc_weights h p s).2 = { s with trace := s.trace ++ callocEvents h p } := by
  unfold malloc_weights
  simp only
  split <;> rfl

theorem malloc_weights_some (h : Host) (p : Config) (s : World) (w : TransformerWeights)
    (s' : World) (hm : malloc_weights h p s = (some w, s')) :
    ∀ t, calloc h (toSizeT h (allocCount p t)) = some (w.get t) := by
  unfold malloc_weights at hm
  simp only at hm
  split at hm
  · injection hm with e1 e2
    injection e1 with e1
    subst e1
    intro t
    cases t <;> assumption
  · injection hm with e1 e2
    cases e1

theorem malloc_weights_ok (h : Host) (p : Config) (s : World)
    (hok : ∀ t, ∃ b, calloc h (toSizeT h (allocCount p t)) = some b) :
    ∃ w, malloc_weights h p s = (some w, { s with trace := s.trace ++ callocEvents h p }) := by
  have hw := malloc_weights_world h p s
  cases hm : malloc_weights h p s with
  | mk o s' =>
    rw [hm] at hw
    simp only at hw
    subst hw
    cases o with
    | some w => exact ⟨w, rfl⟩
    | none =>
      exfalso
      unfold malloc_weights at hm
      simp only at hm
      split at hm
      · injection hm with e1 e2
        cases e1
      · rename_i hne
        obtain ⟨b1, h1⟩ := hok .token_embedding_table
        obtain ⟨b2, h2⟩ := hok .rms_att_weight
        obtain ⟨b3, h3⟩ := hok .rms_ffn_weight
        obtain ⟨b4, h4⟩ := hok .wq
        obtain ⟨b5, h5⟩ := hok .wk
        obtain ⟨b6, h6⟩ := hok .wv
        obtain ⟨b7, h7⟩ := hok .wo
        obtain ⟨b8, h8⟩ := hok .w1
        obtain ⟨b9, h9⟩ := hok .w2
        obtain ⟨b10, h10⟩ := hok .w3
        obtain ⟨b11, h11⟩ := hok .rms_final_weight
        obtain ⟨b12, h12⟩ := hok .freq_cis_real
        obtain ⟨b13, h13⟩ := hok .freq_cis_imag
        exact hne b1 b2 b3 b4 b5 b6 b7 b8 b9 b10 b11 b12 b13 h1 h2 h3 h4 h5 h6 h7 h8 h9 h10 h11
          h12 h13

theorem malloc_weights_none (h : Host) (p : Config) (s : World) (t : Tensor)
    (hnone : calloc h (toSizeT h (allocCount p t)) = none) :
    malloc_weights h p s = (none, { s with trace := s.trace ++ callocEvents h p }) := by
  have hw := malloc_weights_world h p s
  cases hm : malloc_weights h p s with
  | mk o s' =>
    rw [hm] at hw
    simp only at hw
    subst hw
    cases o with
    | none => rfl
    | some w =>
      have := malloc_weights_some h p s w _ hm t
      rw [hnone] at this
      cases this

theorem malloc_weights_bounded (h : Host) (p : Config) (s : World) (w : TransformerWeights)
    (s' : World) (hm : malloc_weights h p s = (some w, s')) : w.Bounded h := by
  intro t
  obtain ⟨h1, h2, _⟩ := calloc_some h _ _ (malloc_weights_some h p s w s' hm t)
  rw [h1]
  exact h2

theorem malloc_weights_length (h : Host) (p : Config) (s : World) (w : TransformerWeights)
    (s' : World) (hm : malloc_weights h p s = (some w, s')) (t : Tensor) :
    (w.get t).length = toSizeT h (allocCount p t) :=
  (calloc_some h _ _ (malloc_weights_some h p s w s' hm t)).1

/-! ## Lemmas: `main` -/

theorem headerOf_some (h : Host) (file : List Byte) (hl : 28 ≤ file.length) :
    ∃ config, headerOf h file = some config ∧ config.toBytes h.endian = file.take 28 ∧
      config.InRange :=
  ofBytes_of_length h.endian (file.take 28) (by rw [List.length_take]; omega)

theorem headerOf_none (h : Host) (file : List Byte) (hl : file.length < 28) :
    headerOf h file = none :=
  ofBytes_none h.endian (file.take 28) (by rw [List.length_take]; omega)

theorem headerOf_length (h : Host) (file : List Byte) (config : Config)
    (hc : headerOf h file = some config) : 28 ≤ file.length := by
  by_contra hl
  rw [headerOf_none h file (by omega)] at hc
  cases hc

/-- A file shorter than a header: `main` returns 1 when the header cannot be read. -/
theorem main_no_header (h : Host) (file : List Byte) (cap : Nat) (hl : file.length < 28) :
    main h file cap = .exit 1 { src := [], dst := [], cap := cap, trace := [.fread_config 0] } := by
  have hn : Config.ofBytes h.endian (file.take 28) = none := headerOf_none h file hl
  simp only [main, fread_config, hn, List.nil_append, fclose, List.take_nil]

/-- The count that the `fwrite` of the header reports is 0 or 1. -/
theorem header_count_cases (h : Host) (cap : Nat) :
    fwrite_count h 0 28 1 cap = 0 ∨ fwrite_count h 0 28 1 cap = 1 := by
  have := fwrite_count_le h 0 28 1 cap
  omega

/-- The header write of `main`, for the count it reports. -/
theorem fwrite_config_first (h : Host) (cc : Config) (src : List Byte) (cap r : Nat)
    (tr : List Event) (hr : fwrite_count h 0 28 1 cap = r) :
    fwrite_config h cc { src := src, dst := [], cap := cap, trace := tr }
      = (r, { src := src, dst := cc.toBytes h.endian, cap := cap,
              trace := tr ++ [.fwrite_config r] }) := by
  unfold fwrite_config
  simp only [List.length_nil, hr, List.nil_append]

/-- A write of the header that is reported short: `main` returns 1, and the
destination holds the header as far as the device accepts it. -/
theorem main_header_reported (h : Host) (file : List Byte) (cap : Nat) (config : Config)
    (hc : headerOf h file = some config) (hr : fwrite_count h 0 28 1 cap ≠ 1) :
    main h file cap = .exit 1
      { src := file.drop 28
        dst := ((convert_config h.endian config).toBytes h.endian).take cap
        cap := cap
        trace := [.fread_config 1, .fwrite_config 0] } := by
  have hc' : Config.ofBytes h.endian (file.take 28) = some config := hc
  have h0 : fwrite_count h 0 28 1 cap = 0 := by
    rcases header_count_cases h cap with e | e
    · exact e
    · exact absurd e hr
  unfold main
  simp only [fread_config, hc', List.nil_append]
  rw [fwrite_config_first h _ _ cap 0 _ h0]
  simp only
  rw [if_pos (by decide)]
  rfl

/-- From the point where the header is written and the write reported
complete, `main` is `malloc_weights` followed by `convert_weights`, both on the
converted header, and the flush of the destination stream. -/
theorem main_eq_of_count (h : Host) (file : List Byte) (cap : Nat) (config : Config)
    (hc : headerOf h file = some config) (hr : fwrite_count h 0 28 1 cap = 1) :
    main h file cap
      = match malloc_weights h (convert_config h.endian config) (afterHeader file cap) with
        | (none, s) => .exit 1 (fclose s)
        | (some weights, s) =>
          match convert_weights h weights (convert_config h.endian config) s with
          | .fault f => .fault f
          | .ret code weights s =>
            if code ≠ 0 then .exit 1 (fclose s) else .exit 0 (free_weights weights (fclose s)) := by
  have hc' : Config.ofBytes h.endian (file.take 28) = some config := hc
  have hl := headerOf_length h file config hc
  obtain ⟨c2, hc2, hb, _⟩ := headerOf_some h file hl
  rw [hc] at hc2
  injection hc2 with hc2
  subst hc2
  have htake : (convert_config h.endian config).toBytes h.endian = swapWords (file.take 28) := by
    rw [toBytes_convert_config, hb]
  unfold main
  simp only [fread_config, hc', List.nil_append]
  rw [fwrite_config_first h _ _ cap 1 _ hr]
  simp only
  rw [if_neg (by decide), htake]
  rfl

/-- The same, for a destination that accepts the header. -/
theorem main_eq (h : Host) (file : List Byte) (cap : Nat) (config : Config)
    (hc : headerOf h file = some config) (hcap : 28 ≤ cap) :
    main h file cap
      = match malloc_weights h (convert_config h.endian config) (afterHeader file cap) with
        | (none, s) => .exit 1 (fclose s)
        | (some weights, s) =>
          match convert_weights h weights (convert_config h.endian config) s with
          | .fault f => .fault f
          | .ret code weights s =>
            if code ≠ 0 then .exit 1 (fclose s) else .exit 0 (free_weights weights (fclose s)) :=
  main_eq_of_count h file cap config hc (fwrite_count_of_le h 0 28 1 cap (by omega))

theorem transfers_inInt32 (p : Config) (hp : p.InRange) (hs : Int) :
    ∀ x ∈ transfers p hs, InInt32 x.2 := by
  intro x hx
  simp only [transfers, firstEleven, lastTwo, List.cons_append, List.nil_append,
    List.mem_cons, List.mem_singleton, List.not_mem_nil, or_false] at hx
  rcases hx with e | e | e | e | e | e | e | e | e | e | e | e | e <;> subst e <;>
    first
    | exact imul_inInt32 _ _
    | exact hp.1
    | exact tdiv_two_inInt32 _ (imul_inInt32 _ _)

/-- A call of `convert_weights` that returns 0 is a complete run over all
thirteen transfers, with `head_size` computed without fault. -/
theorem convert_weights_ret0 (h : Host) (w : TransformerWeights) (p : Config) (s : World)
    (w' : TransformerWeights) (s' : World) (hr : convert_weights h w p s = .ret 0 w' s') :
    ∃ hs, cdiv p.dim p.n_heads = .ok hs ∧
      runTransfers h (transfers p hs) w s = .ret 0 w' s' := by
  rw [convert_weights_eq] at hr
  cases hd : cdiv p.dim p.n_heads with
  | error f =>
    rw [hd] at hr
    cases h1 : runTransfers h (firstEleven p) w s with
    | fault f1 => rw [h1] at hr; cases hr
    | ret code w1 s1 =>
      rw [h1] at hr
      simp only [Outcome.andThen] at hr
      split at hr
      · cases hr
      · rename_i hne
        injection hr with e1 e2 e3
        exact absurd e1 hne
  | ok hs =>
    rw [hd] at hr
    refine ⟨hs, rfl, ?_⟩
    unfold transfers
    rw [runTransfers_append]
    exact hr

/-- When `head_size` is computed without fault, `convert_weights` is the run
over all thirteen transfers. -/
theorem convert_weights_of_cdiv (h : Host) (w : TransformerWeights) (p : Config) (s : World)
    (hs : Int) (hd : cdiv p.dim p.n_heads = .ok hs) :
    convert_weights h w p s = runTransfers h (transfers p hs) w s := by
  rw [convert_weights_eq, hd]
  unfold transfers
  rw [runTransfers_append]

theorem free_weights_fields (w : TransformerWeights) (s : World) :
    (free_weights w s).src = s.src ∧ (free_weights w s).dst = s.dst ∧
      (free_weights w s).cap = s.cap :=
  ⟨rfl, rfl, rfl⟩

theorem malloc_weights_eq (h : Host) (p : Config) (s : World) (o : Option TransformerWeights)
    (s' : World) (hm : malloc_weights h p s = (o, s')) :
    s' = { s with trace := s.trace ++ callocEvents h p } := by
  have := malloc_weights_world h p s
  rw [hm] at this
  exact this

/-- A successful conversion (exit status 0): the header was read, `head_size`
was computed without fault, every count is non-negative, every write was
reported complete, and the destination holds the byte-reversed words of the
part of the file that was read, as far as the device accepted them. -/
theorem main_exit0_inv (h : Host) (file : List Byte) (cap : Nat) (s' : World)
    (hrun : main h file cap = .exit 0 s') :
    ∃ config hs, headerOf h file = some config ∧
      cdiv (convert_config h.endian config).dim (convert_config h.endian config).n_heads = .ok hs ∧
      (∀ x ∈ transfers (convert_config h.endian config) hs, 0 ≤ x.2) ∧
      28 + 4 * totalCount (transfers (convert_config h.endian config) hs) ≤ file.length ∧
      s'.src = file.drop (28 + 4 * totalCount (transfers (convert_config h.endian config) hs)) ∧
      s'.dst = (swapWords
        (file.take (28 + 4 * totalCount (transfers (convert_config h.endian config) hs)))).take
          cap ∧
      s'.trace = successTrace h (convert_config h.endian config) hs := by
  by_cases hl : file.length < 28
  · rw [main_no_header h file cap hl] at hrun
    injection hrun with e1 e2
    omega
  obtain ⟨config, hc, _, _⟩ := headerOf_some h file (by omega)
  rcases header_count_cases h cap with hcount | hcount
  · rw [main_header_reported h file cap config hc (by omega)] at hrun
    injection hrun with e1 e2
    omega
  rw [main_eq_of_count h file cap config hc hcount] at hrun
  cases hm : malloc_weights h (convert_config h.endian config) (afterHeader file cap) with
  | mk o s3 =>
    rw [hm] at hrun
    cases o with
    | none =>
      simp only at hrun
      injection hrun with e1 e2
      omega
    | some w =>
      simp only at hrun
      have hs3 := malloc_weights_eq h _ _ _ _ hm
      cases hcw : convert_weights h w (convert_config h.endian config) s3 with
      | fault f => rw [hcw] at hrun; cases hrun
      | ret code w' s4 =>
        rw [hcw] at hrun
        simp only at hrun
        split at hrun
        · injection hrun with e1 e2
          omega
        · rename_i hcode
          have hcode0 : code = 0 := by simpa using hcode
          subst hcode0
          injection hrun with e1 e2
          obtain ⟨hs, hd, hr⟩ := convert_weights_ret0 h w _ s3 w' s4 hcw
          obtain ⟨i1, i2, i4, _⟩ := run_ret0_inv h _ w s3 0 w' s4
            (transfers_inInt32 _ (convert_config_inRange _ _) hs)
            (malloc_weights_bounded h _ _ w s3 hm) hr rfl
          have hsrc3 : s3.src = file.drop 28 := by rw [hs3]; rfl
          have hdst3 : s3.dst = swapWords (file.take 28) := by rw [hs3]; rfl
          have hcap3 : s3.cap = cap := by rw [hs3]; rfl
          rw [hsrc3, List.length_drop] at i2
          have htr3 : s3.trace = [.fread_config 1, .fwrite_config 1]
              ++ callocEvents h (convert_config h.endian config) := by rw [hs3]; rfl
          refine ⟨config, hs, hc, hd, fun x hx => (i1 x hx).1, by omega, ?_, ?_, ?_⟩
          · rw [← e2, (free_weights_fields w' _).1, i4]
            simp only [fclose, World.afterAll, hsrc3, List.drop_drop]
          · rw [← e2, (free_weights_fields w' _).2.1, i4]
            simp only [fclose, World.afterAll, hsrc3, hdst3, hcap3]
            rw [swapWords_take_add file 28 _ ⟨7, rfl⟩ (by omega)]
          · rw [← e2, i4]
            simp only [free_weights, fclose, World.afterAll, htr3, successTrace, freeEvents]

/-- A conversion in which the buffers can be allocated, every count is
non-negative and fits its buffer, the file supplies header and tensors and the
destination accepts them, exits with status 0. -/
theorem main_ok (h : Host) (file : List Byte) (cap : Nat) (config : Config) (hs : Int)
    (w : TransformerWeights)
    (hc : headerOf h file = some config)
    (hd : cdiv (convert_config h.endian config).dim (convert_config h.endian config).n_heads
      = .ok hs)
    (hm : (malloc_weights h (convert_config h.endian config) (afterHeader file cap)).1 = some w)
    (hin : ∀ x ∈ transfers (convert_config h.endian config) hs,
      0 ≤ x.2 ∧ x.2.toNat ≤ (w.get x.1).length)
    (hsrc : 28 + 4 * totalCount (transfers (convert_config h.endian config) hs) ≤ file.length)
    (hcap : 28 + 4 * totalCount (transfers (convert_config h.endian config) hs) ≤ cap) :
    ∃ s', main h file cap = .exit 0 s' ∧
      s'.src = file.drop (28 + 4 * totalCount (transfers (convert_config h.endian config) hs)) ∧
      s'.dst = swapWords
        (file.take (28 + 4 * totalCount (transfers (convert_config h.endian config) hs))) ∧
      s'.trace = successTrace h (convert_config h.endian config) hs := by
  rw [main_eq h file cap config hc (by omega)]
  cases hm' : malloc_weights h (convert_config h.endian config) (afterHeader file cap) with
  | mk o s3 =>
    rw [hm'] at hm
    simp only at hm
    subst hm
    have hs3 := malloc_weights_eq h _ _ _ _ hm'
    have hsrc3 : s3.src = file.drop 28 := by rw [hs3]; rfl
    have hdst3 : s3.dst = swapWords (file.take 28) := by rw [hs3]; rfl
    have hcap3 : s3.cap = cap := by rw [hs3]; rfl
    have hrange := transfers_inInt32 _ (convert_config_inRange h.endian config) hs
    have hl28 := headerOf_length h file config hc
    obtain ⟨w', _, hr⟩ := run_ok h (transfers (convert_config h.endian config) hs) w s3
      (fun x hx => ⟨(hin x hx).1, (hrange x hx).2, (hin x hx).2⟩)
      (by rw [hsrc3, List.length_drop]; omega)
      (by rw [hcap3, hdst3, swapWords_length, List.length_take]; omega)
    simp only
    rw [convert_weights_of_cdiv h w _ s3 hs hd, hr]
    simp only [ne_eq, not_true_eq_false, if_false]
    have htr3 : s3.trace = [.fread_config 1, .fwrite_config 1]
        ++ callocEvents h (convert_config h.endian config) := by rw [hs3]; rfl
    have hall : swapWords (file.take 28) ++ swapWords ((file.drop 28).take
        (4 * totalCount (transfers (convert_config h.endian config) hs)))
        = swapWords (file.take
          (28 + 4 * totalCount (transfers (convert_config h.endian config) hs))) :=
      (swapWords_take_add file 28 _ ⟨7, rfl⟩ (by omega)).symm
    refine ⟨_, rfl, ?_, ?_, ?_⟩
    · rw [(free_weights_fields _ _).1]
      simp only [fclose, World.afterAll, hsrc3, List.drop_drop]
    · rw [(free_weights_fields _ _).2.1]
      simp only [fclose, World.afterAll, hsrc3, hdst3, hcap3]
      rw [hall, List.take_of_length_le (by rw [swapWords_length, List.length_take]; omega)]
    · simp only [free_weights, fclose, World.afterAll, htr3, successTrace, freeEvents]

/-! ## Lemmas: a short read at one tensor -/

theorem run_short_read (h : Host) (l1 l2 : List (Tensor × Int)) (t : Tensor) (c : Int)
    (w : TransformerWeights) (s : World)
    (hin : ∀ x ∈ l1, 0 ≤ x.2 ∧ x.2 < 2147483648 ∧ x.2.toNat ≤ (w.get x.1).length)
    (h0 : 0 ≤ c) (h1 : c < 2147483648)
    (hsrc1 : 4 * totalCount l1 ≤ s.src.length)
    (hsrc2 : s.src.length < 4 * totalCount l1 + 4 * c.toNat)
    (hfit : s.src.length - 4 * totalCount l1 ≤ 4 * (w.get t).length)
    (hcap : s.dst.length + 4 * totalCount l1 ≤ s.cap) :
    ∃ w', runTransfers h (l1 ++ (t, c) :: l2) w s = .ret 1 w' (s.afterShortRead h l1 t c) := by
  obtain ⟨w1, hlen, hr⟩ := run_ok h l1 w s hin hsrc1 hcap
  have hn := toSizeT_of_nonneg h c h0 h1
  have hsl : (s.afterAll h l1).src.length = s.src.length - 4 * totalCount l1 := by
    simp [World.afterAll]
  obtain ⟨b, hx⟩ := xfer_read_short h t (w1.get t) c (s.afterAll h l1)
    (by rw [hsl, hn]; omega) (by rw [hsl, hlen t]; exact hfit)
  refine ⟨w1.set t b, ?_⟩
  rw [runTransfers_append, hr]
  simp only [Outcome.andThen, if_true, runTransfers, hx]
  rw [hsl]
  rfl

/-- A `return 1` among the first eleven tensors is the result of `convert_weights`. -/
theorem convert_weights_ret1_first (h : Host) (w : TransformerWeights) (p : Config) (s : World)
    (w' : TransformerWeights) (s' : World)
    (hr : runTransfers h (firstEleven p) w s = .ret 1 w' s') :
    convert_weights h w p s = .ret 1 w' s' := by
  rw [convert_weights_eq, hr]
  simp [Outcome.andThen]

theorem firstEleven_length (p : Config) : (firstEleven p).length = 11 := rfl

/-- A position among the first eleven transfers is a position in `firstEleven`. -/
theorem firstEleven_split (p : Config) (hs : Int) (l1 l2 : List (Tensor × Int)) (t : Tensor)
    (c : Int) (hplan : transfers p hs = l1 ++ (t, c) :: l2) (hk : l1.length < 11) :
    firstEleven p = l1 ++ (t, c) :: l2.take (10 - l1.length) := by
  have h1 : firstEleven p = (transfers p hs).take 11 := by
    unfold transfers
    rw [List.take_append_of_le_length (by rw [firstEleven_length]),
      List.take_of_length_le (by rw [firstEleven_length])]
  rw [h1, hplan, List.take_append_eq_append_take, List.take_of_length_le (by omega)]
  have h2 : 11 - l1.length = (10 - l1.length) + 1 := by omega
  rw [h2, List.take_succ_cons]

/-- The conversion of a file whose source runs out in tensor `t`, the tensors
before it being supplied completely. -/
theorem main_short_read (h : Host) (file : List Byte) (cap : Nat) (config : Config)
    (w : TransformerWeights) (l1 l2 : List (Tensor × Int)) (t : Tensor) (c : Int)
    (hc : headerOf h file = some config)
    (hm : (malloc_weights h (convert_config h.endian config) (afterHeader file cap)).1 = some w)
    (hplan : transfers (convert_config h.endian config)
      (Int.tdiv (convert_config h.endian config).dim (convert_config h.endian config).n_heads)
        = l1 ++ (t, c) :: l2)
    (hdiv : 11 ≤ l1.length → ∃ hs,
      cdiv (convert_config h.endian config).dim (convert_config h.endian config).n_heads = .ok hs)
    (hin : ∀ x ∈ l1, 0 ≤ x.2 ∧ x.2.toNat ≤ (w.get x.1).length)
    (h0 : 0 < c)
    (hsrc1 : 28 + 4 * totalCount l1 ≤ file.length)
    (hsrc2 : file.length < 28 + 4 * totalCount l1 + 4 * c.toNat)
    (hfit : file.length - (28 + 4 * totalCount l1) ≤ 4 * (w.get t).length)
    (hcap : 28 + 4 * totalCount l1 ≤ cap) :
    ∃ s', main h file cap = .exit 1 s' ∧ s'.src = [] ∧
      s'.dst = swapWords (file.take (28 + 4 * totalCount l1)) ∧
      s'.trace.getLast? = some (.fread t (toSizeT h c) ((file.length - (28 + 4 * totalCount l1)) / 4)) := by
  rw [main_eq h file cap config hc (by omega)]
  cases hm' : malloc_weights h (convert_config h.endian config) (afterHeader file cap) with
  | mk o s3 =>
    rw [hm'] at hm
    simp only at hm
    subst hm
    have hs3 := malloc_weights_eq h _ _ _ _ hm'
    have hsrc3 : s3.src = file.drop 28 := by rw [hs3]; rfl
    have hdst3 : s3.dst = swapWords (file.take 28) := by rw [hs3]; rfl
    have hcap3 : s3.cap = cap := by rw [hs3]; rfl
    have hl28 := headerOf_length h file config hc
    have hdl3 : s3.dst.length = 28 := by
      rw [hdst3, swapWords_length, List.length_take]; omega
    have hrange := transfers_inInt32 _ (convert_config_inRange h.endian config)
      (Int.tdiv (convert_config h.endian config).dim (convert_config h.endian config).n_heads)
    rw [hplan] at hrange
    have hcr : InInt32 c := hrange (t, c) (by simp)
    have hlen3 : s3.src.length = file.length - 28 := by rw [hsrc3, List.length_drop]
    have hfinal : ∀ (w' : TransformerWeights),
        convert_weights h w (convert_config h.endian config) s3
          = .ret 1 w' (s3.afterShortRead h l1 t c) →
        ∃ s', (match convert_weights h w (convert_config h.endian config) s3 with
            | .fault f => Run.fault f
            | .ret code weights s =>
              if code ≠ 0 then Run.exit 1 (fclose s)
              else Run.exit 0 (free_weights weights (fclose s)))
            = .exit 1 s' ∧ s'.src = [] ∧
          s'.dst = swapWords (file.take (28 + 4 * totalCount l1)) ∧
          s'.trace.getLast? = some (.fread t (toSizeT h c)
            ((file.length - (28 + 4 * totalCount l1)) / 4)) := by
      intro w' hcw
      rw [hcw]
      refine ⟨fclose (s3.afterShortRead h l1 t c), by simp, rfl, ?_, ?_⟩
      · simp only [fclose, World.afterShortRead, hsrc3, hdst3, hcap3]
        rw [← swapWords_take_add file 28 _ ⟨7, rfl⟩ (by omega),
          List.take_of_length_le (by rw [swapWords_length, List.length_take]; omega)]
      · have e : file.length - 28 - 4 * totalCount l1 = file.length - (28 + 4 * totalCount l1) := by
          omega
        simp only [fclose, World.afterShortRead, hlen3, e]
        exact List.getLast?_concat _
    simp only
    by_cases hk : l1.length < 11
    · have hfe := firstEleven_split _ _ l1 l2 t c hplan hk
      obtain ⟨w', hr⟩ := run_short_read h l1 (l2.take (10 - l1.length)) t c w s3
        (fun x hx => ⟨(hin x hx).1, (hrange x (by simp [hx])).2, (hin x hx).2⟩)
        (by omega) hcr.2 (by rw [hlen3]; omega) (by rw [hlen3]; omega)
        (by rw [hlen3]; omega) (by rw [hcap3, hdl3]; omega)
      rw [← hfe] at hr
      exact hfinal w' (convert_weights_ret1_first h w _ s3 w' _ hr)
    · obtain ⟨hs, hd⟩ := hdiv (by omega)
      have hhs := cdiv_ok _ _ _ hd
      obtain ⟨w', hr⟩ := run_short_read h l1 l2 t c w s3
        (fun x hx => ⟨(hin x hx).1, (hrange x (by simp [hx])).2, (hin x hx).2⟩)
        (by omega) hcr.2 (by rw [hlen3]; omega) (by rw [hlen3]; omega)
        (by rw [hlen3]; omega) (by rw [hcap3, hdl3]; omega)
      rw [← hplan, ← hhs] at hr
      exact hfinal w' (by rw [convert_weights_of_cdiv h w _ s3 hs hd]; exact hr)

/-! ## Lemmas: positions in a byte-reversed run -/

/-- Byte `i` of the byte-reversed run is byte `3 - i % 4` of the same 4-byte group. -/
theorem swapWords_getElem? (l : List Byte) (hl : 4 ∣ l.length) :
    ∀ i, (swapWords l)[i]? = l[4 * (i / 4) + (3 - i % 4)]? := by
  induction l using swapWords.induct with
  | case1 a b c d rest ih =>
    have hrest : 4 ∣ rest.length := by
      simp only [List.length_cons] at hl; omega
    intro i
    rcases i with _ | _ | _ | _ | j
    · simp [swapWords]
    · simp [swapWords]
    · simp [swapWords]
    · simp [swapWords]
    · have e1 : 4 * ((j + 1 + 1 + 1 + 1) / 4) + (3 - (j + 1 + 1 + 1 + 1) % 4)
          = (4 * (j / 4) + (3 - j % 4)) + 1 + 1 + 1 + 1 := by omega
      rw [e1]
      simp only [swapWords, List.getElem?_cons_succ]
      exact ih hrest j
  | case2 l h =>
    intro i
    match l, h with
    | [], _ => simp [swapWords]
    | [_], _ => simp only [List.length_cons, List.length_nil] at hl; omega
    | [_, _], _ => simp only [List.length_cons, List.length_nil] at hl; omega
    | [_, _, _], _ => simp only [List.length_cons, List.length_nil] at hl; omega
    | a :: b :: c :: d :: rest, h => exact absurd rfl (h a b c d rest)

theorem payload_length (k : Nat) : (payload k).length = k := by
  simp [payload]

/-! ## Lemmas: counts -/

theorem transfers_eq_map (p : Config) (hs : Int) :
    transfers p hs = tensorOrder.map (fun t => (t, readCount p hs t)) := rfl

theorem mem_transfers (p : Config) (hs : Int) (x : Tensor × Int) (hx : x ∈ transfers p hs) :
    x.2 = readCount p hs x.1 := by
  rw [transfers_eq_map] at hx
  obtain ⟨t, _, rfl⟩ := List.mem_map.mp hx
  rfl

theorem wrap32_sub_mul (y m : Int) : wrap32 (y - 4294967296 * m) = wrap32 y := by
  unfold wrap32
  omega

theorem wrap32_eq_sub (x : Int) : ∃ k, wrap32 x = x - 4294967296 * k :=
  ⟨(x + 2147483648) / 4294967296, by unfold wrap32; omega⟩

theorem wrap32_mul_left (x c : Int) : wrap32 (wrap32 x * c) = wrap32 (x * c) := by
  obtain ⟨k, hk⟩ := wrap32_eq_sub x
  rw [hk]
  have e : (x - 4294967296 * k) * c = x * c - 4294967296 * (k * c) := by ring
  rw [e, wrap32_sub_mul]

/-- The products `n_layers * hidden_dim * dim` (allocation of `w1` and `w3`) and
`n_layers * dim * hidden_dim` (their transfers) are the same `int`. -/
theorem imul_right_comm (a b c : Int) : imul (imul a b) c = imul (imul a c) b := by
  unfold imul
  rw [wrap32_mul_left, wrap32_mul_left]
  congr 1
  ring

/-- For the first eleven tensors the buffer is requested with the count that is
transferred. -/
theorem allocCount_eq_readCount (p : Config) (hs : Int) (t : Tensor)
    (ht : t ≠ .freq_cis_real ∧ t ≠ .freq_cis_imag) : allocCount p t = readCount p hs t := by
  cases t <;> first
    | rfl
    | exact imul_right_comm _ _ _
    | exact absurd rfl ht.1
    | exact absurd rfl ht.2

/-- The conversion exits with status 0 when the host grants the thirteen
buffers, `head_size` is computed without fault, every count is non-negative and
no larger than the request for its buffer, the file supplies header and
tensors, and the destination accepts them. -/
theorem main_ok_of_counts (h : Host) (file : List Byte) (cap : Nat) (config : Config) (hs : Int)
    (hc : headerOf h file = some config)
    (hd : cdiv (convert_config h.endian config).dim (convert_config h.endian config).n_heads
      = .ok hs)
    (hmem : ∀ t, ∃ b, calloc h (toSizeT h (allocCount (convert_config h.endian config) t)) = some b)
    (hin : ∀ x ∈ transfers (convert_config h.endian config) hs,
      0 ≤ x.2 ∧ x.2.toNat ≤ toSizeT h (allocCount (convert_config h.endian config) x.1))
    (hsrc : 28 + 4 * totalCount (transfers (convert_config h.endian config) hs) ≤ file.length)
    (hcap : 28 + 4 * totalCount (transfers (convert_config h.endian config) hs) ≤ cap) :
    ∃ s', main h file cap = .exit 0 s' ∧
      s'.src = file.drop (28 + 4 * totalCount (transfers (convert_config h.endian config) hs)) ∧
      s'.dst = swapWords
        (file.take (28 + 4 * totalCount (transfers (convert_config h.endian config) hs))) ∧
      s'.trace = successTrace h (convert_config h.endian config) hs := by
  obtain ⟨w, hw⟩ := malloc_weights_ok h (convert_config h.endian config) (afterHeader file cap) hmem
  have hm : (malloc_weights h (convert_config h.endian config) (afterHeader file cap)).1 = some w := by
    rw [hw]
  refine main_ok h file cap config hs w hc hd hm ?_ hsrc hcap
  intro x hx
  rw [malloc_weights_length h _ _ w _ hw x.1]
  exact hin x hx

theorem fileSwapped_length (h : Host) : (fileSwapped h).length = 764 := by
  simp [fileSwapped, toBytes_length, payload_length]

theorem fileNative_length (h : Host) : (fileNative h).length = 764 := by
  simp [fileNative, toBytes_length, payload_length]

theorem headerOf_append (h : Host) (p : Config) (hp : p.InRange) (rest : List Byte) :
    headerOf h (p.toBytes h.endian ++ rest) = some p := by
  unfold headerOf
  rw [List.take_append_of_le_length (by rw [toBytes_length]),
    List.take_of_length_le (by rw [toBytes_length])]
  exact ofBytes_toBytes h.endian p hp

theorem headerOf_fileSwapped (h : Host) :
    headerOf h (fileSwapped h) = some (convert_config h.endian scenarioA) :=
  headerOf_append h _ (convert_config_inRange _ _) _

theorem headerOf_fileNative (h : Host) : headerOf h (fileNative h) = some scenarioA :=
  headerOf_append h _ (by decide) _

theorem convert_config_scenarioA (e : Endian) :
    convert_config e (convert_config e scenarioA) = scenarioA :=
  convert_config_convert_config e scenarioA (by decide)

/-- The conversion of the Scenario A file on the sample host succeeds. -/
theorem main_fileSwapped :
    ∃ s', main hostLE (fileSwapped hostLE) 764 = .exit 0 s' ∧ s'.src = [] ∧
      s'.dst = swapWords (fileSwapped hostLE) ∧ s'.trace = successTrace hostLE scenarioA 2 := by
  have hcc : convert_config hostLE.endian (convert_config hostLE.endian scenarioA) = scenarioA :=
    convert_config_scenarioA _
  obtain ⟨s', h1, h2, h3, h4⟩ := main_ok_of_counts hostLE (fileSwapped hostLE) 764
    (convert_config hostLE.endian scenarioA) 2 (headerOf_fileSwapped hostLE)
    (by rw [hcc]; rfl)
    (by
      rw [hcc]
      intro t
      exact ⟨_, calloc_of_ok _ _ (by cases t <;> decide) (by cases t <;> decide)⟩)
    (by rw [hcc]; decide)
    (by rw [hcc, fileSwapped_length]; decide)
    (by rw [hcc]; decide)
  rw [hcc] at h2 h3 h4
  have ht : 28 + 4 * totalCount (transfers scenarioA 2) = 764 := by decide
  rw [ht] at h2 h3
  refine ⟨s', h1, ?_, ?_, h4⟩
  · rw [h2, List.drop_of_length_le (by rw [fileSwapped_length])]
  · rw [h3, List.take_of_length_le (by rw [fileSwapped_length])]

/-! ## Lemmas: the calls of `convert_weights` -/

theorem planEvents_no_mismatch (h : Host) (l : List (Tensor × Int)) :
    ∀ e ∈ planEvents h l, e.mismatch = false := by
  induction l with
  | nil => intro e he; simp [planEvents] at he
  | cons x l ih =>
    obtain ⟨t, c⟩ := x
    intro e he
    simp only [planEvents, List.mem_cons] at he
    rcases he with rfl | rfl | rfl | he
    · simp [Event.mismatch]
    · rfl
    · simp [Event.mismatch]
    · exact ih e he

theorem reads_append (a b : List Event) : reads (a ++ b) = reads a ++ reads b := by
  induction a with
  | nil => rfl
  | cons e a ih => cases e <;> simp [reads, ih]

theorem writes_append (a b : List Event) : writes (a ++ b) = writes a ++ writes b := by
  induction a with
  | nil => rfl
  | cons e a ih => cases e <;> simp [writes, ih]

theorem reads_planEvents (h : Host) (l : List (Tensor × Int)) :
    reads (planEvents h l) = requests h l := by
  induction l with
  | nil => rfl
  | cons x l ih => obtain ⟨t, c⟩ := x; simp [planEvents, reads, requests, ih]

theorem writes_planEvents (h : Host) (l : List (Tensor × Int)) :
    writes (planEvents h l) = requests h l := by
  induction l with
  | nil => rfl
  | cons x l ih => obtain ⟨t, c⟩ := x; simp [planEvents, writes, requests, ih]

theorem requests_append (h : Host) (a b : List (Tensor × Int)) :
    requests h (a ++ b) = requests h a ++ requests h b := by
  simp [requests]

/-- An element that differs from all but the last element of a list can only
be found at its end. -/
theorem last_of_split {α : Type} (P : α → Prop) (A : List α) (x : α) (pre post : List α) (e : α)
    (hA : ∀ a ∈ A, ¬ P a) (he : P e) (heq : A ++ [x] = pre ++ e :: post) : post = [] := by
  rcases List.eq_nil_or_concat post with hp | ⟨post', y, hp⟩
  · exact hp
  · exfalso
    subst hp
    have h1 : A ++ [x] = (pre ++ e :: post') ++ [y] := by
      rw [heq]; simp
    have h2 := (List.append_inj' h1 rfl).1
    exact hA e (by rw [h2]; simp) he

/-- The calls made by a call of `convert_weights` that returns: all thirteen
transfers complete and the result is 0, or the result is 1 and the last call is
the first one that returned a count different from the one requested. -/
theorem convert_weights_trace (h : Host) (w : TransformerWeights) (p : Config) (s : World)
    (code : Int) (w' : TransformerWeights) (s' : World)
    (hr : convert_weights h w p s = .ret code w' s') :
    (code = 0 ∧ s'.trace = s.trace ++ planEvents h (transfers p (Int.tdiv p.dim p.n_heads))) ∨
    (code = 1 ∧ ∃ l1 t c l2 r, transfers p (Int.tdiv p.dim p.n_heads) = l1 ++ (t, c) :: l2 ∧
      r ≠ toSizeT h c ∧
      (s'.trace = s.trace ++ planEvents h l1 ++ [.fread t (toSizeT h c) r] ∨
       s'.trace = s.trace ++ planEvents h l1 ++
         [.fread t (toSizeT h c) (toSizeT h c), .fabyteswap t c, .fwrite t (toSizeT h c) r])) := by
  cases hd : cdiv p.dim p.n_heads with
  | ok hs =>
    rw [convert_weights_of_cdiv h w p s hs hd] at hr
    rw [← cdiv_ok _ _ _ hd]
    exact run_trace h _ w s code w' s' hr
  | error f =>
    rw [convert_weights_eq, hd] at hr
    cases h1 : runTransfers h (firstEleven p) w s with
    | fault f1 => rw [h1] at hr; cases hr
    | ret code1 w1 s1 =>
      rw [h1] at hr
      simp only [Outcome.andThen] at hr
      split at hr
      · cases hr
      · rename_i hne
        injection hr with e1 e2 e3
        subst e1 e2 e3
        rcases run_trace h _ w s code1 w1 s1 h1 with ⟨hc, _⟩ | ⟨hc, l1, t, c, l2, r, hl, hr1, hr2⟩
        · exact absurd hc hne
        · refine Or.inr ⟨hc, l1, t, c, l2 ++ lastTwo p (Int.tdiv p.dim p.n_heads), r, ?_, hr1, hr2⟩
          unfold transfers
          rw [hl]
          simp

/-- Without overflow the counts the program computes are those of section 3. -/
theorem transfers_eq_section3 (p : Config) (hp : NoOverflow p) :
    transfers p (Int.tdiv p.dim p.n_heads) = section3 p := by
  obtain ⟨h1, h2, h3, h4, h5, h6, h7⟩ := hp
  simp only [transfers, firstEleven, lastTwo, section3, imul, List.cons_append, List.nil_append,
    wrap32_of_inInt32 _ h1, wrap32_of_inInt32 _ h2, wrap32_of_inInt32 _ h3, wrap32_of_inInt32 _ h4,
    wrap32_of_inInt32 _ h5, wrap32_of_inInt32 _ h6, wrap32_of_inInt32 _ h7]

/-! ## Lemmas: absence of faults -/

theorem toNat_le_toSizeT (h : Host) (c : Int) (hc : InInt32 c) : c.toNat ≤ toSizeT h c := by
  unfold InInt32 at hc
  by_cases h0 : 0 ≤ c
  · rw [toSizeT_of_nonneg h c h0 hc.2]
  · have : c.toNat = 0 := by omega
    omega

/-- A transfer into a buffer that holds the requested count does not fault. -/
theorem xfer_no_fault (h : Host) (t : Tensor) (buf : List CFloat) (c : Int) (s : World)
    (hc : InInt32 c) (hbuf : toSizeT h c ≤ buf.length) :
    ∃ b s', b.length = buf.length ∧
      (xfer h t buf c s = .next b s' ∨ xfer h t buf c s = .ret1 b s') := by
  have hcn := toNat_le_toSizeT h c hc
  by_cases hsrc : 4 * toSizeT h c ≤ s.src.length
  · have hlen : (decodeFloats (s.src.take (4 * toSizeT h c))).length = toSizeT h c := by
      rw [decodeFloats_length, List.length_take]; omega
    have hb1 : (decodeFloats (s.src.take (4 * toSizeT h c)) ++ buf.drop (toSizeT h c)).length
        = buf.length := by
      rw [List.length_append, hlen, List.length_drop]; omega
    have hb2 : (((decodeFloats (s.src.take (4 * toSizeT h c)) ++ buf.drop (toSizeT h c)).take
        c.toNat).map fbyteswap ++ (decodeFloats (s.src.take (4 * toSizeT h c))
          ++ buf.drop (toSizeT h c)).drop c.toNat).length = buf.length := by
      rw [List.length_append, List.length_map, List.length_take, List.length_drop, hb1]; omega
    have hx : ∃ S, xfer h t buf c s = .next (((decodeFloats (s.src.take (4 * toSizeT h c))
          ++ buf.drop (toSizeT h c)).take c.toNat).map fbyteswap
          ++ (decodeFloats (s.src.take (4 * toSizeT h c))
            ++ buf.drop (toSizeT h c)).drop c.toNat) S ∨
        xfer h t buf c s = .ret1 (((decodeFloats (s.src.take (4 * toSizeT h c))
          ++ buf.drop (toSizeT h c)).take c.toNat).map fbyteswap
          ++ (decodeFloats (s.src.take (4 * toSizeT h c))
            ++ buf.drop (toSizeT h c)).drop c.toNat) S := by
      unfold xfer
      rw [fread_full t buf _ s hsrc hbuf]
      simp only [ne_eq, not_true_eq_false, if_false]
      rw [fabyteswap_ok _ c (by rw [hb1]; omega)]
      simp only
      rw [fwrite_ok h _ _ _ _ (by rw [hb2]; exact hbuf)]
      simp only
      split
      · exact ⟨_, Or.inr rfl⟩
      · exact ⟨_, Or.inl rfl⟩
    obtain ⟨S, hS⟩ := hx
    exact ⟨_, S, hb2, hS⟩
  · have hx : xfer h t buf c s = .ret1
        (decodeFloats (s.src.take (4 * (s.src.length / 4))) ++ buf.drop (s.src.length / 4))
        { s with src := [], trace := s.trace ++ [.fread t (toSizeT h c) (s.src.length / 4)] } := by
      unfold xfer
      rw [fread_short t buf _ s (by omega) (by omega)]
      simp only
      rw [if_pos (by omega)]
    refine ⟨_, _, ?_, Or.inr hx⟩
    rw [List.length_append, decodeFloats_length, List.length_take, List.length_drop]
    omega

/-- A run over transfers whose buffers hold the requested counts returns. -/
theorem run_returns (h : Host) (l : List (Tensor × Int)) :
    ∀ (w : TransformerWeights) (s : World),
      (∀ x ∈ l, InInt32 x.2 ∧ toSizeT h x.2 ≤ (w.get x.1).length) →
      ∃ code w' s', runTransfers h l w s = .ret code w' s' ∧
        (∀ t, (w'.get t).length = (w.get t).length) := by
  induction l with
  | nil => intro w s _; exact ⟨0, w, s, rfl, fun _ => rfl⟩
  | cons x l ih =>
    intro w s hin
    obtain ⟨t, c⟩ := x
    obtain ⟨hc, hb⟩ := hin (t, c) (List.mem_cons_self _ _)
    obtain ⟨b, s1, hlen, hx | hx⟩ := xfer_no_fault h t (w.get t) c s hc hb
    · obtain ⟨code, w', s', hr, hw'⟩ := ih (w.set t b) s1 (by
        intro x hx
        obtain ⟨a1, a2⟩ := hin x (List.mem_cons_of_mem _ hx)
        refine ⟨a1, ?_⟩
        rw [length_get_set w t x.1 b hlen]
        exact a2)
      refine ⟨code, w', s', ?_, ?_⟩
      · simp only [runTransfers, hx]; exact hr
      · intro t'; rw [hw' t', length_get_set w t t' b hlen]
    · refine ⟨1, w.set t b, s1, ?_, ?_⟩
      · simp only [runTransfers, hx]
      · intro t'; rw [length_get_set w t t' b hlen]

/-- `convert_weights` returns (it does not fault) when `head_size` can be
computed and every buffer holds the count requested for its tensor. -/
theorem convert_weights_returns (h : Host) (w : TransformerWeights) (p : Config) (s : World)
    (hs : Int) (hp : p.InRange) (hd : cdiv p.dim p.n_heads = .ok hs)
    (hbuf : ∀ x ∈ transfers p hs, toSizeT h x.2 ≤ (w.get x.1).length) :
    ∃ code w' s', convert_weights h w p s = .ret code w' s' := by
  rw [convert_weights_of_cdiv h w p s hs hd]
  obtain ⟨code, w', s', hr, _⟩ := run_returns h (transfers p hs) w s
    (fun x hx => ⟨transfers_inInt32 p hp hs x hx, hbuf x hx⟩)
  exact ⟨code, w', s', hr⟩

theorem zeroBuffers_length (h : Host) (p : Config) (t : Tensor) :
    ((zeroBuffers h p).get t).length = toSizeT h (allocCount p t) := by
  cases t <;> simp [zeroBuffers, TransformerWeights.get]

/-- `convert_weights` on the Scenario A header and its full payload returns 0. -/
theorem convert_weights_scenarioA :
    ∃ w' s', convert_weights hostLE (buffersA hostLE) scenarioA (streamA 736 736)
      = .ret 0 w' s' := by
  rw [convert_weights_of_cdiv hostLE _ scenarioA _ 2 rfl]
  obtain ⟨w', _, hr⟩ := run_ok hostLE (transfers scenarioA 2) (buffersA hostLE) (streamA 736 736)
    (by
      intro x hx
      rw [buffersA, zeroBuffers_length]
      revert x
      decide)
    (by simp only [streamA, payload_length]; decide)
    (by simp only [streamA]; decide)
  exact ⟨w', _, hr⟩

/-! ## Lemmas: conversions that fail -/

/-- The conversion of a file whose source runs out in tensor `t`, stated with
the requests for the buffers. -/
theorem main_short_read_of_counts (h : Host) (file : List Byte) (cap : Nat) (config : Config)
    (l1 l2 : List (Tensor × Int)) (t : Tensor) (c : Int)
    (hc : headerOf h file = some config)
    (hmem : ∀ t, ∃ b, calloc h (toSizeT h (allocCount (convert_config h.endian config) t)) = some b)
    (hplan : transfers (convert_config h.endian config)
      (Int.tdiv (convert_config h.endian config).dim (convert_config h.endian config).n_heads)
        = l1 ++ (t, c) :: l2)
    (hdiv : 11 ≤ l1.length → ∃ hs,
      cdiv (convert_config h.endian config).dim (convert_config h.endian config).n_heads = .ok hs)
    (hin : ∀ x ∈ l1,
      0 ≤ x.2 ∧ x.2.toNat ≤ toSizeT h (allocCount (convert_config h.endian config) x.1))
    (h0 : 0 < c)
    (hsrc1 : 28 + 4 * totalCount l1 ≤ file.length)
    (hsrc2 : file.length < 28 + 4 * totalCount l1 + 4 * c.toNat)
    (hfit : file.length - (28 + 4 * totalCount l1)
      ≤ 4 * toSizeT h (allocCount (convert_config h.endian config) t))
    (hcap : 28 + 4 * totalCount l1 ≤ cap) :
    ∃ s', main h file cap = .exit 1 s' ∧ s'.src = [] ∧
      s'.dst = swapWords (file.take (28 + 4 * totalCount l1)) ∧
      s'.trace.getLast?
        = some (.fread t (toSizeT h c) ((file.length - (28 + 4 * totalCount l1)) / 4)) := by
  obtain ⟨w, hw⟩ := malloc_weights_ok h (convert_config h.endian config) (afterHeader file cap) hmem
  have hm : (malloc_weights h (convert_config h.endian config) (afterHeader file cap)).1 = some w := by
    rw [hw]
  refine main_short_read h file cap config w l1 l2 t c hc hm hplan hdiv ?_ h0 hsrc1 hsrc2 ?_ hcap
  · intro x hx
    rw [malloc_weights_length h _ _ w _ hw x.1]
    exact hin x hx
  · rw [malloc_weights_length h _ _ w _ hw t]
    exact hfit

/-- When `calloc` refuses one of the thirteen requests the conversion ends with
status 1 right after the header: no tensor is read or written. -/
theorem main_malloc_fail (h : Host) (file : List Byte) (cap : Nat) (config : Config) (t : Tensor)
    (hc : headerOf h file = some config) (hcap : 28 ≤ cap)
    (hnone : calloc h (toSizeT h (allocCount (convert_config h.endian config) t)) = none) :
    main h file cap = .exit 1
      { src := file.drop 28
        dst := swapWords (file.take 28)
        cap := cap
        trace := [.fread_config 1, .fwrite_config 1]
          ++ callocEvents h (convert_config h.endian config) } := by
  rw [main_eq h file cap config hc hcap, malloc_weights_none h _ _ t hnone]
  simp only [fclose, afterHeader]
  rw [List.take_of_length_le (by rw [swapWords_length, List.length_take]; omega)]

/-- A negative count cannot be allocated: its conversion to `size_t` times
`sizeof(float)` does not fit `size_t`. -/
theorem calloc_negative (h : Host) (c : Int) (hc : InInt32 c) (hneg : c < 0) :
    calloc h (toSizeT h c) = none := by
  have hM := modulus_ge h
  have hb := toSizeT_of_neg h c hneg hc.1
  unfold calloc
  rw [if_neg (by intro hh; have := hh.1; omega)]

/-- The values of the Scenario A header once byte-swapped. -/
theorem convert_config_scenarioA_values (e : Endian) :
    convert_config e scenarioA
      = ⟨67108864, 134217728, 16777216, 33554432, 33554432, 33554432, 33554432⟩ := by
  cases e <;> decide

/-- The Scenario A header in the byte order of the host, followed by any 736
bytes: the conversion fails in `rms_final_weight`, for which the byte-swapped
`dim` asks 67108864 elements, and writes the header only. -/
theorem main_native (h : Host) (pl : List Byte) (hl : pl.length = 736)
    (h0 : h.calloc_ok 0 = true) (h1 : h.calloc_ok 67108864 = true) :
    ∃ s', main h (scenarioA.toBytes h.endian ++ pl) 764 = .exit 1 s' ∧
      s'.dst = swapWords (scenarioA.toBytes h.endian) ∧
      s'.trace.getLast? = some (.fread .rms_final_weight 67108864 184) := by
  have hM := modulus_ge h
  have hcc := convert_config_scenarioA_values h.endian
  have hz : toSizeT h 0 = 0 := toSizeT_of_nonneg h 0 (by decide) (by decide)
  have hd : toSizeT h 67108864 = 67108864 := toSizeT_of_nonneg h _ (by decide) (by decide)
  have hlen : (scenarioA.toBytes h.endian ++ pl).length = 764 := by
    rw [List.length_append, toBytes_length, hl]
  have halloc : ∀ t, allocCount ⟨67108864, 134217728, 16777216, 33554432, 33554432, 33554432,
      33554432⟩ t = 0 ∨ allocCount ⟨67108864, 134217728, 16777216, 33554432, 33554432, 33554432,
      33554432⟩ t = 67108864 := by
    intro t; cases t <;> decide
  obtain ⟨s', hs1, _, hs3, hs4⟩ := main_short_read_of_counts h (scenarioA.toBytes h.endian ++ pl)
    764 scenarioA
    [ (.token_embedding_table, 0), (.rms_att_weight, 0), (.wq, 0), (.wk, 0), (.wv, 0), (.wo, 0),
      (.rms_ffn_weight, 0), (.w1, 0), (.w2, 0), (.w3, 0) ]
    [ (.freq_cis_real, 33554432), (.freq_cis_imag, 33554432) ] .rms_final_weight 67108864
    (headerOf_append h scenarioA (by decide) pl)
    (by
      rw [hcc]
      intro t
      rcases halloc t with e | e <;> rw [e]
      · exact ⟨_, calloc_of_ok h _ (by rw [hz]; omega) (by rw [hz]; exact h0)⟩
      · exact ⟨_, calloc_of_ok h _ (by rw [hd]; omega) (by rw [hd]; exact h1)⟩)
    (by rw [hcc]; decide)
    (by intro hh; simp at hh)
    (by
      intro x hx
      have hx0 : x.2 = 0 := by
        revert x; decide
      rw [hx0]
      exact ⟨le_refl _, Nat.zero_le _⟩)
    (by decide)
    (by rw [hlen]; decide)
    (by rw [hlen]; decide)
    (by
      rw [hcc, hlen]
      have : allocCount ⟨67108864, 134217728, 16777216, 33554432, 33554432, 33554432,
          33554432⟩ .rms_final_weight = 67108864 := rfl
      rw [this, hd]
      decide)
    (by decide)
  have ht : totalCount [ ((.token_embedding_table : Tensor), (0 : Int)), (.rms_att_weight, 0),
      (.wq, 0), (.wk, 0), (.wv, 0), (.wo, 0), (.rms_ffn_weight, 0), (.w1, 0), (.w2, 0),
      (.w3, 0) ] = 0 := by decide
  rw [ht] at hs3 hs4
  refine ⟨s', hs1, ?_, ?_⟩
  · rw [hs3]
    simp only [Nat.mul_zero, Nat.add_zero]
    rw [List.take_append_of_le_length (by rw [toBytes_length]),
      List.take_of_length_le (by rw [toBytes_length])]
  · rw [hs4, hlen, hd]

/-! ## Lemmas: headers without overflow -/

theorem tdiv_nonneg_le (a b : Int) (ha : 0 ≤ a) (hb : 0 < b) :
    0 ≤ Int.tdiv a b ∧ Int.tdiv a b ≤ a := by
  rw [Int.tdiv_eq_ediv ha (le_of_lt hb)]
  exact ⟨Int.ediv_nonneg ha (le_of_lt hb), Int.ediv_le_self b ha⟩

theorem noOverflow_of_small (p : Config) (hpos : p.Positive) (hsmall : p.Small) :
    NoOverflow p := by
  obtain ⟨hD, hH, hL, hN, hV, hS⟩ := hpos
  obtain ⟨h1, h2, h3, h4⟩ := hsmall
  obtain ⟨hs0, hs1⟩ := tdiv_nonneg_le p.dim p.n_heads (le_of_lt hD) hN
  have hLD : 0 < p.n_layers * p.dim := mul_pos hL hD
  have hLH : 0 < p.n_layers * p.hidden_dim := mul_pos hL hH
  have e1 : p.n_layers * p.dim ≤ p.n_layers * p.dim * p.dim :=
    le_mul_of_one_le_right (le_of_lt hLD) hD
  have e2 : p.n_layers * p.hidden_dim * p.dim = p.n_layers * p.dim * p.hidden_dim := by ring
  have e3 : p.n_layers * p.hidden_dim ≤ p.n_layers * p.hidden_dim * p.dim :=
    le_mul_of_one_le_right (le_of_lt hLH) hD
  have e4 : p.seq_len * Int.tdiv p.dim p.n_heads ≤ p.seq_len * p.dim :=
    mul_le_mul_of_nonneg_left hs1 (le_of_lt hS)
  have e5 : 0 ≤ p.seq_len * Int.tdiv p.dim p.n_heads := mul_nonneg (le_of_lt hS) hs0
  have e6 : 0 < p.vocab_size * p.dim := mul_pos hV hD
  have e7 : 0 < p.n_layers * p.dim * p.hidden_dim := mul_pos hLD hH
  have e8 : 0 < p.n_layers * p.dim * p.dim := mul_pos hLD hD
  unfold NoOverflow InInt32
  refine ⟨⟨by omega, h1⟩, ⟨by omega, by omega⟩, ⟨by omega, h2⟩, ⟨by omega, h3⟩,
    ⟨by omega, by omega⟩, ⟨by omega, by omega⟩, ⟨by omega, by omega⟩⟩

/-- For a positive header without overflow every count is non-negative and no
larger than the request for its buffer. -/
theorem counts_fit (h : Host) (p : Config) (hpos : p.Positive) (hsmall : p.Small) :
    ∀ x ∈ transfers p (Int.tdiv p.dim p.n_heads),
      0 ≤ x.2 ∧ x.2.toNat ≤ toSizeT h (allocCount p x.1) := by
  have hno := noOverflow_of_small p hpos hsmall
  obtain ⟨hD, hH, hL, hN, hV, hS⟩ := hpos
  obtain ⟨h1, h2, h3, h4⟩ := hsmall
  obtain ⟨hs0, hs1⟩ := tdiv_nonneg_le p.dim p.n_heads (le_of_lt hD) hN
  obtain ⟨n1, n2, n3, n4, n5, n6, n7⟩ := hno
  have hSD0 : 0 < p.seq_len * p.dim := mul_pos hS hD
  have e4 : p.seq_len * Int.tdiv p.dim p.n_heads ≤ p.seq_len * p.dim :=
    mul_le_mul_of_nonneg_left hs1 (le_of_lt hS)
  have e5 : 0 ≤ p.seq_len * Int.tdiv p.dim p.n_heads := mul_nonneg (le_of_lt hS) hs0
  have nSD : InInt32 (p.seq_len * p.dim) := ⟨by omega, h4⟩
  have hfreq : 0 ≤ Int.tdiv (imul p.seq_len (Int.tdiv p.dim p.n_heads)) 2 ∧
      (Int.tdiv (imul p.seq_len (Int.tdiv p.dim p.n_heads)) 2).toNat
        ≤ toSizeT h (Int.tdiv (imul p.seq_len p.dim) 2) := by
    unfold imul
    rw [wrap32_of_inInt32 _ n7, wrap32_of_inInt32 _ nSD, tdiv_two, tdiv_two,
      if_pos e5, if_pos (le_of_lt hSD0)]
    rw [toSizeT_of_nonneg h _ (by omega) (by omega)]
    omega
  have hsame : ∀ c : Int, 0 ≤ c → c < 2147483648 → 0 ≤ c ∧ c.toNat ≤ toSizeT h c := by
    intro c hc0 hc1
    rw [toSizeT_of_nonneg h c hc0 hc1]
    exact ⟨hc0, le_refl _⟩
  have p1 : 0 ≤ imul p.vocab_size p.dim ∧ imul p.vocab_size p.dim < 2147483648 := by
    unfold imul; rw [wrap32_of_inInt32 _ n1]
    have := mul_pos hV hD
    exact ⟨by omega, h1⟩
  have p2 : 0 ≤ imul p.n_layers p.dim ∧ imul p.n_layers p.dim < 2147483648 := by
    unfold imul; rw [wrap32_of_inInt32 _ n2]
    have := mul_pos hL hD
    exact ⟨by omega, n2.2⟩
  have p3 : 0 ≤ imul (imul p.n_layers p.dim) p.dim ∧
      imul (imul p.n_layers p.dim) p.dim < 2147483648 := by
    unfold imul; rw [wrap32_of_inInt32 _ n2, wrap32_of_inInt32 _ n3]
    have := mul_pos (mul_pos hL hD) hD
    exact ⟨by omega, h2⟩
  have p4 : 0 ≤ imul (imul p.n_layers p.dim) p.hidden_dim ∧
      imul (imul p.n_layers p.dim) p.hidden_dim < 2147483648 := by
    unfold imul; rw [wrap32_of_inInt32 _ n2, wrap32_of_inInt32 _ n4]
    have := mul_pos (mul_pos hL hD) hH
    exact ⟨by omega, h3⟩
  have p5 : 0 ≤ imul (imul p.n_layers p.hidden_dim) p.dim ∧
      imul (imul p.n_layers p.hidden_dim) p.dim < 2147483648 := by
    rw [imul_right_comm]; exact p4
  intro x hx
  have hx2 := mem_transfers p _ x hx
  rw [transfers_eq_map] at hx
  obtain ⟨t, _, rfl⟩ := List.mem_map.mp hx
  cases t
  · exact hsame _ p1.1 p1.2
  · exact hsame _ p2.1 p2.2
  · exact hsame _ p3.1 p3.2
  · exact hsame _ p3.1 p3.2
  · exact hsame _ p3.1 p3.2
  · exact hsame _ p3.1 p3.2
  · exact hsame _ p2.1 p2.2
  · show 0 ≤ imul (imul p.n_layers p.dim) p.hidden_dim ∧ _ ≤ toSizeT h
      (imul (imul p.n_layers p.hidden_dim) p.dim)
    rw [imul_right_comm p.n_layers p.hidden_dim p.dim]
    exact hsame _ p4.1 p4.2
  · show 0 ≤ imul (imul p.n_layers p.hidden_dim) p.dim ∧ _ ≤ toSizeT h
      (imul (imul p.n_layers p.dim) p.hidden_dim)
    rw [imul_right_comm p.n_layers p.dim p.hidden_dim]
    exact hsame _ p5.1 p5.2
  · show 0 ≤ imul (imul p.n_layers p.dim) p.hidden_dim ∧ _ ≤ toSizeT h
      (imul (imul p.n_layers p.hidden_dim) p.dim)
    rw [imul_right_comm p.n_layers p.hidden_dim p.dim]
    exact hsame _ p4.1 p4.2
  · have hDV : p.dim ≤ p.vocab_size * p.dim := le_mul_of_one_le_left (le_of_lt hD) hV
    have hD31 : p.dim < 2147483648 := by omega
    exact hsame p.dim (le_of_lt hD) hD31
  · exact hfreq
  · exact hfreq

theorem cdiv_of_pos (a b : Int) (hb : 0 < b) : cdiv a b = .ok (Int.tdiv a b) := by
  unfold cdiv
  rw [if_neg (by omega), if_neg (by omega)]

/-! ## Lemmas: a second conversion -/

theorem swapWords_take (l : List Byte) (n : Nat) (hn : 4 ∣ n) (hl : 4 ∣ l.length) :
    (swapWords l).take n = swapWords (l.take n) := by
  by_cases hle : n ≤ l.length
  · have h1 : l = l.take n ++ l.drop n := (List.take_append_drop n l).symm
    have hlt : (l.take n).length = n := by rw [List.length_take]; omega
    conv_lhs => rw [h1, swapWords_append _ _ (by rw [hlt]; exact hn)]
    rw [List.take_append_of_le_length (by rw [swapWords_length, hlt]),
      List.take_of_length_le (by rw [swapWords_length, hlt])]
  · rw [List.take_of_length_le (by rw [swapWords_length]; omega),
      List.take_of_length_le (by omega)]

theorem status_of_exit (r : Run) (code : Int) (s : World) (hr : r = .exit code s) :
    r.status = some code := by
  rw [hr]; rfl

theorem output_of_exit (r : Run) (code : Int) (s : World) (hr : r = .exit code s) :
    r.output = s.dst := by
  rw [hr]; rfl

theorem swapWords_fileSwapped (h : Host) :
    swapWords (fileSwapped h) = scenarioA.toBytes h.endian ++ swapWords (payload 736) := by
  unfold fileSwapped
  rw [swapWords_append _ _ (by rw [toBytes_length]; exact ⟨7, rfl⟩), toBytes_convert_config,
    swapWords_swapWords]

/-- The conversion of a file that consists of a header all of whose counts
and buffer sizes are 0. -/
theorem main_empty (h : Host) (config : Config) (hp : config.InRange)
    (h0 : h.calloc_ok 0 = true)
    (halloc : ∀ t, allocCount (convert_config h.endian config) t = 0)
    (hread : ∀ x ∈ transfers (convert_config h.endian config)
      (Int.tdiv (convert_config h.endian config).dim (convert_config h.endian config).n_heads),
        x.2 = 0)
    (hnh : (convert_config h.endian config).n_heads ≠ 0)
    (hnh1 : (convert_config h.endian config).n_heads ≠ -1) :
    ∃ s', main h (config.toBytes h.endian) 28 = .exit 0 s' ∧ s'.src = [] ∧
      s'.dst = (convert_config h.endian config).toBytes h.endian := by
  have hM := modulus_ge h
  have hz : toSizeT h 0 = 0 := toSizeT_of_nonneg h 0 (by decide) (by decide)
  have hc : headerOf h (config.toBytes h.endian) = some config := by
    have := headerOf_append h config hp []
    rwa [List.append_nil] at this
  have hd : cdiv (convert_config h.endian config).dim (convert_config h.endian config).n_heads
      = .ok (Int.tdiv (convert_config h.endian config).dim
          (convert_config h.endian config).n_heads) := by
    unfold cdiv
    rw [if_neg hnh, if_neg (by intro hh; exact hnh1 hh.2)]
  have htot : totalCount (transfers (convert_config h.endian config)
      (Int.tdiv (convert_config h.endian config).dim (convert_config h.endian config).n_heads))
      = 0 := by
    unfold totalCount
    apply List.sum_eq_zero
    intro n hn
    obtain ⟨x, hx, rfl⟩ := List.mem_map.mp hn
    rw [hread x hx]
    rfl
  obtain ⟨s', h1, h2, h3, _⟩ := main_ok_of_counts h (config.toBytes h.endian) 28 config _ hc hd
    (by
      intro t
      rw [halloc t]
      exact ⟨_, calloc_of_ok h _ (by rw [hz]; omega) (by rw [hz]; exact h0)⟩)
    (by
      intro x hx
      rw [hread x hx]
      exact ⟨le_refl _, Nat.zero_le _⟩)
    (by rw [htot, toBytes_length])
    (by rw [htot])
  rw [htot] at h2 h3
  refine ⟨s', h1, ?_, ?_⟩
  · rw [h2, List.drop_of_length_le (by rw [toBytes_length])]
  · rw [h3, List.take_of_length_le (by rw [toBytes_length]), toBytes_convert_config]

/-! ## Lemmas: where the counts come from -/

theorem callocEvents_counts (h : Host) (p : Config) :
    ∀ e ∈ callocEvents h p, e.countsFrom h p := by
  intro e he
  simp only [callocEvents, List.mem_cons, List.mem_singleton, List.not_mem_nil, or_false] at he
  rcases he with e | e | e | e | e | e | e | e | e | e | e | e | e <;> subst e <;> rfl

theorem planEvents_counts (h : Host) (p : Config) (l : List (Tensor × Int))
    (hl : ∀ x ∈ l, x.2 = readCount p (Int.tdiv p.dim p.n_heads) x.1) :
    ∀ e ∈ planEvents h l, e.countsFrom h p := by
  induction l with
  | nil => intro e he; simp [planEvents] at he
  | cons x l ih =>
    obtain ⟨t, c⟩ := x
    have hc : c = readCount p (Int.tdiv p.dim p.n_heads) t := hl (t, c) (List.mem_cons_self _ _)
    intro e he
    simp only [planEvents, List.mem_cons] at he
    rcases he with rfl | rfl | rfl | he
    · show toSizeT h c = _; rw [hc]
    · exact hc
    · show toSizeT h c = _; rw [hc]
    · exact ih (fun x hx => hl x (List.mem_cons_of_mem _ hx)) e he

theorem convert_weights_counts (h : Host) (w : TransformerWeights) (p : Config) (s : World)
    (code : Int) (w' : TransformerWeights) (s' : World)
    (hr : convert_weights h w p s = .ret code w' s') :
    ∃ calls, s'.trace = s.trace ++ calls ∧ ∀ e ∈ calls, e.countsFrom h p := by
  have hmem := mem_transfers p (Int.tdiv p.dim p.n_heads)
  rcases convert_weights_trace h w p s code w' s' hr with
    ⟨_, htr⟩ | ⟨_, l1, t, c, l2, r, hl, _, htr | htr⟩
  · exact ⟨_, htr, planEvents_counts h p _ hmem⟩
  · have h1 : ∀ x ∈ l1, x.2 = readCount p (Int.tdiv p.dim p.n_heads) x.1 :=
      fun x hx => hmem x (by rw [hl]; simp [hx])
    have hc : c = readCount p (Int.tdiv p.dim p.n_heads) t := hmem (t, c) (by rw [hl]; simp)
    refine ⟨planEvents h l1 ++ [.fread t (toSizeT h c) r], by rw [htr, List.append_assoc], ?_⟩
    intro e he
    rcases List.mem_append.mp he with he | he
    · exact planEvents_counts h p l1 h1 e he
    · simp only [List.mem_singleton] at he
      subst he
      show toSizeT h c = _; rw [hc]
  · have h1 : ∀ x ∈ l1, x.2 = readCount p (Int.tdiv p.dim p.n_heads) x.1 :=
      fun x hx => hmem x (by rw [hl]; simp [hx])
    have hc : c = readCount p (Int.tdiv p.dim p.n_heads) t := hmem (t, c) (by rw [hl]; simp)
    refine ⟨planEvents h l1 ++ [.fread t (toSizeT h c) (toSizeT h c), .fabyteswap t c,
      .fwrite t (toSizeT h c) r], by rw [htr, List.append_assoc], ?_⟩
    intro e he
    rcases List.mem_append.mp he with he | he
    · exact planEvents_counts h p l1 h1 e he
    · simp only [List.mem_cons, List.mem_singleton, List.not_mem_nil, or_false] at he
      rcases he with rfl | rfl | rfl
      · show toSizeT h c = _; rw [hc]
      · exact hc
      · show toSizeT h c = _; rw [hc]

/-- Every count of every library call of a run of `main` that exits is
computed from the byte-swapped header. -/
theorem main_counts (h : Host) (file : List Byte) (cap : Nat) (config : Config) (code : Int)
    (s' : World) (hc : headerOf h file = some config) (hrun : main h file cap = .exit code s') :
    ∀ e ∈ s'.trace, e.countsFrom h (convert_config h.endian config) := by
  by_cases hcount : fwrite_count h 0 28 1 cap = 1
  swap
  · rw [main_header_reported h file cap config hc hcount] at hrun
    injection hrun with _ e2
    subst e2
    intro e he
    simp only [List.mem_cons, List.mem_singleton, List.not_mem_nil, or_false] at he
    rcases he with rfl | rfl <;> trivial
  rw [main_eq_of_count h file cap config hc hcount] at hrun
  have hhdr : ∀ e ∈ (afterHeader file cap).trace,
      e.countsFrom h (convert_config h.endian config) := by
    intro e he
    simp only [afterHeader, List.mem_cons, List.mem_singleton, List.not_mem_nil, or_false] at he
    rcases he with rfl | rfl <;> trivial
  cases hm : malloc_weights h (convert_config h.endian config) (afterHeader file cap) with
  | mk o s3 =>
    rw [hm] at hrun
    have hs3 := malloc_weights_eq h _ _ _ _ hm
    have h3 : ∀ e ∈ s3.trace, e.countsFrom h (convert_config h.endian config) := by
      rw [hs3]
      intro e he
      rcases List.mem_append.mp he with he | he
      · exact hhdr e he
      · exact callocEvents_counts h _ e he
    cases o with
    | none =>
      simp only at hrun
      injection hrun with _ e2
      subst e2
      exact h3
    | some w =>
      simp only at hrun
      cases hcw : convert_weights h w (convert_config h.endian config) s3 with
      | fault f => rw [hcw] at hrun; cases hrun
      | ret code2 w' s4 =>
        rw [hcw] at hrun
        simp only at hrun
        obtain ⟨calls, htr, hcalls⟩ := convert_weights_counts h w _ s3 code2 w' s4 hcw
        have h4 : ∀ e ∈ s4.trace, e.countsFrom h (convert_config h.endian config) := by
          rw [htr]
          intro e he
          rcases List.mem_append.mp he with he | he
          · exact h3 e he
          · exact hcalls e he
        split at hrun
        · injection hrun with _ e2
          subst e2
          exact h4
        · injection hrun with _ e2
          subst e2
          intro e he
          simp only [free_weights] at he
          rcases List.mem_append.mp he with he | he
          · exact h4 e he
          · simp only [List.mem_cons, List.mem_singleton, List.not_mem_nil, or_false] at he
            rcases he with e | e | e | e | e | e | e | e | e | e | e | e | e <;> subst e <;> trivial

/-! ## Lemmas: the first eleven tensors -/

theorem allocCount_inInt32 (p : Config) (hp : p.InRange) (t : Tensor) :
    InInt32 (allocCount p t) := by
  cases t <;> first
    | exact imul_inInt32 _ _
    | exact hp.1
    | exact tdiv_two_inInt32 _ (imul_inInt32 _ _)

theorem mem_firstEleven (p : Config) (hs : Int) (x : Tensor × Int) (hx : x ∈ firstEleven p) :
    x.2 = allocCount p x.1 ∧ x ∈ transfers p hs := by
  refine ⟨?_, by unfold transfers; exact List.mem_append_left _ hx⟩
  simp only [firstEleven, List.mem_cons, List.mem_singleton, List.not_mem_nil, or_false] at hx
  rcases hx with e | e | e | e | e | e | e | e | e | e | e <;> subst e <;> first
    | rfl
    | exact imul_right_comm _ _ _

/-- A request that `calloc` grants has a non-negative count. -/
theorem alloc_nonneg_of_calloc (h : Host) (p : Config) (hp : p.InRange) (t : Tensor)
    (b : List CFloat) (hb : calloc h (toSizeT h (allocCount p t)) = some b) :
    0 ≤ allocCount p t ∧ (allocCount p t).toNat = toSizeT h (allocCount p t) := by
  have hr := allocCount_inInt32 p hp t
  by_cases hneg : allocCount p t < 0
  · rw [calloc_negative h _ hr hneg] at hb
    cases hb
  · exact ⟨by omega, (toSizeT_of_nonneg h _ (by omega) hr.2).symm⟩

/-- When the buffers are granted, each of the first eleven counts is
non-negative and equal to the size of its buffer. -/
theorem firstEleven_fit (h : Host) (p : Config) (hp : p.InRange)
    (hmem : ∀ t, ∃ b, calloc h (toSizeT h (allocCount p t)) = some b) :
    ∀ x ∈ firstEleven p, 0 ≤ x.2 ∧ x.2.toNat = toSizeT h (allocCount p x.1) := by
  intro x hx
  obtain ⟨b, hb⟩ := hmem x.1
  have h1 := (mem_firstEleven p 0 x hx).1
  rw [h1]
  exact alloc_nonneg_of_calloc h p hp x.1 b hb

/-- The value of `ibyteswap` on an `int` below 2^16. -/
theorem ibyteswap_small (e : Endian) (x : Int) (h0 : 0 < x) (h1 : x < 65536) :
    ibyteswap e x = wrap32 (x % 256 * 16777216 + x / 256 * 65536) := by
  have hle : ibyteswap e x = ibyteswap .little x := by
    cases e
    · rfl
    · exact ibyteswap_endian x
  rw [hle]
  obtain ⟨n, rfl⟩ : ∃ n : Nat, x = n := ⟨x.toNat, by omega⟩
  have hu : toU32 (n : Int) = n := by unfold toU32; omega
  have a : n / 65536 % 256 = 0 := by omega
  have b : n / 16777216 % 256 = 0 := by omega
  have c : n / 256 % 256 = n / 256 := by omega
  unfold ibyteswap intToBytes
  rw [hu]
  simp only [swapBytes4, bytesToInt, byte_ofNat_val, a, b, c]
  unfold ofU32 wrap32
  split <;> omega

/-- A product of three positive factors that stays below 2^31 is computed
exactly, in either order of the last two factors. -/
theorem imul_imul_exact (a b c : Int) (ha : 0 < a) (hb : 0 < b) (hc : 0 < c)
    (hlt : a * b * c < 2147483648) :
    imul (imul a b) c = a * b * c ∧ imul (imul a c) b = a * b * c := by
  have hab : 0 < a * b := mul_pos ha hb
  have habc : 0 < a * b * c := mul_pos hab hc
  have h1 : a * b ≤ a * b * c := le_mul_of_one_le_right (le_of_lt hab) hc
  have e1 : imul (imul a b) c = a * b * c := by
    unfold imul
    rw [wrap32_of_inInt32 (a * b) ⟨by omega, by omega⟩,
      wrap32_of_inInt32 (a * b * c) ⟨by omega, hlt⟩]
  exact ⟨e1, by rw [imul_right_comm, e1]⟩

/-! ## Lemmas: what a successful run shows about the buffers -/

/-- A successful conversion: every buffer was granted and every count is
non-negative and within its buffer. -/
theorem main_exit0_alloc (h : Host) (file : List Byte) (cap : Nat) (s' : World)
    (hrun : main h file cap = .exit 0 s') :
    ∃ config hs, headerOf h file = some config ∧
      cdiv (convert_config h.endian config).dim (convert_config h.endian config).n_heads = .ok hs ∧
      (∀ t, ∃ b, calloc h (toSizeT h (allocCount (convert_config h.endian config) t)) = some b) ∧
      (∀ x ∈ transfers (convert_config h.endian config) hs,
        0 ≤ x.2 ∧ x.2.toNat ≤ toSizeT h (allocCount (convert_config h.endian config) x.1)) := by
  by_cases hl : file.length < 28
  · rw [main_no_header h file cap hl] at hrun
    injection hrun with e1 e2
    omega
  obtain ⟨config, hc, _, _⟩ := headerOf_some h file (by omega)
  by_cases hcount : fwrite_count h 0 28 1 cap = 1
  swap
  · rw [main_header_reported h file cap config hc hcount] at hrun
    injection hrun with e1 e2
    omega
  rw [main_eq_of_count h file cap config hc hcount] at hrun
  cases hm : malloc_weights h (convert_config h.endian config) (afterHeader file cap) with
  | mk o s3 =>
    rw [hm] at hrun
    cases o with
    | none =>
      simp only at hrun
      injection hrun with e1 e2
      omega
    | some w =>
      simp only at hrun
      cases hcw : convert_weights h w (convert_config h.endian config) s3 with
      | fault f => rw [hcw] at hrun; cases hrun
      | ret code w' s4 =>
        rw [hcw] at hrun
        simp only at hrun
        split at hrun
        · injection hrun with e1 e2
          omega
        · rename_i hcode
          have hcode0 : code = 0 := by simpa using hcode
          subst hcode0
          obtain ⟨hs, hd, hr⟩ := convert_weights_ret0 h w _ s3 w' s4 hcw
          obtain ⟨i1, _⟩ := run_ret0_inv h _ w s3 0 w' s4
            (transfers_inInt32 _ (convert_config_inRange _ _) hs)
            (malloc_weights_bounded h _ _ w s3 hm) hr rfl
          refine ⟨config, hs, hc, hd, fun t => ⟨_, malloc_weights_some h _ _ w s3 hm t⟩, ?_⟩
          intro x hx
          rw [← malloc_weights_length h _ _ w s3 hm x.1]
          exact i1 x hx

theorem headerOf_append_of_le (h : Host) (file extra : List Byte) (hl : 28 ≤ file.length) :
    headerOf h (file ++ extra) = headerOf h file := by
  unfold headerOf
  rw [List.take_append_of_le_length hl]

/-! ## Lemmas: the destination is only appended to -/

theorem fread_prepend (t : Tensor) (buf : List CFloat) (n : Nat) (s : World) (d : List Byte) :
    fread t buf n (s.prepend d)
      = match fread t buf n s with
        | .error f => .error f
        | .ok (b, r, s') => .ok (b, r, s'.prepend d) := by
  unfold fread
  by_cases hc : 4 * buf.length < min (4 * n) s.src.length
  · simp only [World.prepend, hc, if_true]
  · simp only [World.prepend, hc, if_false]

/-- A write after two already written runs of the same length reports the
same count and adds the same bytes. -/
theorem fwrite_prepend (h : Host) (t : Tensor) (buf : List CFloat) (n : Nat) (s : World)
    (d1 d2 : List Byte) (hl : d1.length = d2.length) :
    ∃ r : Except Fault (Nat × World),
      fwrite h t buf n (s.prepend d1)
        = (match r with
          | .error f => .error f
          | .ok (k, s') => .ok (k, s'.prepend d1)) ∧
      fwrite h t buf n (s.prepend d2)
        = (match r with
          | .error f => .error f
          | .ok (k, s') => .ok (k, s'.prepend d2)) := by
  unfold fwrite
  by_cases hc : buf.length < n
  · refine ⟨.error .out_of_bounds, ?_, ?_⟩
    · rw [if_pos hc]
    · rw [if_pos hc]
  · refine ⟨.ok (fwrite_count h (d1.length + s.dst.length) 4 n s.cap,
      { s with dst := s.dst ++ (encodeFloats buf).take (4 * n),
               trace := s.trace ++ [.fwrite t n
                 (fwrite_count h (d1.length + s.dst.length) 4 n s.cap)] }), ?_, ?_⟩
    · rw [if_neg hc]
      simp only [World.prepend, List.length_append, List.append_assoc]
    · rw [if_neg hc]
      simp only [World.prepend, List.length_append, List.append_assoc, hl]

theorem xfer_prepend (h : Host) (t : Tensor) (buf : List CFloat) (c : Int) (s : World)
    (d1 d2 : List Byte) (hl : d1.length = d2.length) :
    ∃ r : Step, xfer h t buf c (s.prepend d1) = r.prepend d1 ∧
      xfer h t buf c (s.prepend d2) = r.prepend d2 := by
  unfold xfer
  rw [fread_prepend, fread_prepend]
  cases fread t buf (toSizeT h c) s with
  | error f => exact ⟨.fault f, rfl, rfl⟩
  | ok x =>
    obtain ⟨b1, r, s1⟩ := x
    simp only
    by_cases hr : r ≠ toSizeT h c
    · rw [if_pos hr, if_pos hr]
      exact ⟨.ret1 b1 s1, rfl, rfl⟩
    · rw [if_neg hr, if_neg hr]
      cases fabyteswap b1 c with
      | error f => exact ⟨.fault f, rfl, rfl⟩
      | ok b2 =>
        simp only
        obtain ⟨o, hw1, hw2⟩ := fwrite_prepend h t b2 (toSizeT h c)
          { s1 with trace := s1.trace ++ [.fabyteswap t c] } d1 d2 hl
        have hs1 : ({ s1 with trace := s1.trace ++ [.fabyteswap t c] } : World).prepend d1
            = { s1.prepend d1 with trace := (s1.prepend d1).trace ++ [.fabyteswap t c] } := rfl
        have hs2 : ({ s1 with trace := s1.trace ++ [.fabyteswap t c] } : World).prepend d2
            = { s1.prepend d2 with trace := (s1.prepend d2).trace ++ [.fabyteswap t c] } := rfl
        rw [hs1] at hw1
        rw [hs2] at hw2
        rw [hw1, hw2]
        cases o with
        | error f => exact ⟨.fault f, rfl, rfl⟩
        | ok y =>
          obtain ⟨wr, s3⟩ := y
          simp only
          by_cases hwr : wr ≠ toSizeT h c
          · rw [if_pos hwr, if_pos hwr]
            exact ⟨.ret1 b2 s3, rfl, rfl⟩
          · rw [if_neg hwr, if_neg hwr]
            exact ⟨.next b2 s3, rfl, rfl⟩

theorem runTransfers_prepend (h : Host) (d1 d2 : List Byte) (hl : d1.length = d2.length)
    (l : List (Tensor × Int)) :
    ∀ (w : TransformerWeights) (s : World),
      ∃ r : Outcome, runTransfers h l w (s.prepend d1) = r.prepend d1 ∧
        runTransfers h l w (s.prepend d2) = r.prepend d2 := by
  induction l with
  | nil => intro w s; exact ⟨.ret 0 w s, rfl, rfl⟩
  | cons x l ih =>
    obtain ⟨t, c⟩ := x
    intro w s
    simp only [runTransfers]
    obtain ⟨r, h1, h2⟩ := xfer_prepend h t (w.get t) c s d1 d2 hl
    rw [h1, h2]
    cases r with
    | fault f => exact ⟨.fault f, rfl, rfl⟩
    | ret1 b s1 => exact ⟨.ret 1 (w.set t b) s1, rfl, rfl⟩
    | next b s1 =>
      simp only [Step.prepend]
      exact ih _ _

theorem convert_weights_prepend (h : Host) (w : TransformerWeights) (p : Config) (s : World)
    (d1 d2 : List Byte) (hl : d1.length = d2.length) :
    ∃ r : Outcome, convert_weights h w p (s.prepend d1) = r.prepend d1 ∧
      convert_weights h w p (s.prepend d2) = r.prepend d2 := by
  rw [convert_weights_eq, convert_weights_eq]
  obtain ⟨r, h1, h2⟩ := runTransfers_prepend h d1 d2 hl (firstEleven p) w s
  rw [h1, h2]
  cases r with
  | fault f => exact ⟨.fault f, rfl, rfl⟩
  | ret code w1 s1 =>
    simp only [Outcome.prepend, Outcome.andThen]
    by_cases hcode : code = 0
    · simp only [hcode, if_true]
      cases cdiv p.dim p.n_heads with
      | error f => exact ⟨.fault f, rfl, rfl⟩
      | ok hs => exact runTransfers_prepend h d1 d2 hl _ _ _
    · simp only [hcode, if_false]
      exact ⟨.ret code w1 s1, rfl, rfl⟩

theorem malloc_weights_prepend (h : Host) (p : Config) (s : World) (d : List Byte) :
    malloc_weights h p (s.prepend d)
      = ((malloc_weights h p s).1, (malloc_weights h p s).2.prepend d) := by
  unfold malloc_weights
  simp only [World.prepend]
  split <;> rfl

theorem convertBody_prepend (h : Host) (p : Config) (s : World) (d1 d2 : List Byte)
    (hl : d1.length = d2.length) :
    ∃ r : Run, convertBody h p (s.prepend d1) = r.prepend d1 ∧
      convertBody h p (s.prepend d2) = r.prepend d2 := by
  unfold convertBody
  rw [malloc_weights_prepend, malloc_weights_prepend]
  cases malloc_weights h p s with
  | mk o s1 =>
    cases o with
    | none => exact ⟨.exit 1 s1, rfl, rfl⟩
    | some w =>
      simp only
      obtain ⟨r, h1, h2⟩ := convert_weights_prepend h w p s1 d1 d2 hl
      rw [h1, h2]
      cases r with
      | fault f => exact ⟨.fault f, rfl, rfl⟩
      | ret code w2 s2 =>
        simp only [Outcome.prepend]
        by_cases hcode : code ≠ 0
        · rw [if_pos hcode, if_pos hcode]
          exact ⟨.exit 1 s2, rfl, rfl⟩
        · rw [if_neg hcode, if_neg hcode]
          exact ⟨.exit 0 (free_weights w2 s2), rfl, rfl⟩

/-- The body of `main` does not read `n_kv_heads`. -/
theorem convertBody_congr (h : Host) (p q : Config) (s : World)
    (h1 : p.dim = q.dim) (h2 : p.hidden_dim = q.hidden_dim) (h3 : p.n_layers = q.n_layers)
    (h4 : p.n_heads = q.n_heads) (h5 : p.vocab_size = q.vocab_size)
    (h6 : p.seq_len = q.seq_len) : convertBody h p s = convertBody h q s := by
  cases p
  cases q
  simp only at h1 h2 h3 h4 h5 h6
  subst h1 h2 h3 h4 h5 h6
  rfl

theorem main_eq_body (h : Host) (file : List Byte) (cap : Nat) (config : Config)
    (hc : headerOf h file = some config) (hr : fwrite_count h 0 28 1 cap = 1) :
    main h file cap = (convertBody h (convert_config h.endian config)
      (World.prepend (swapWords (file.take 28))
        { src := file.drop 28, dst := [], cap := cap,
          trace := [.fread_config 1, .fwrite_config 1] })).flush := by
  have key : afterHeader file cap
      = World.prepend (swapWords (file.take 28))
          { src := file.drop 28, dst := [], cap := cap,
            trace := [.fread_config 1, .fwrite_config 1] } := by
    simp only [afterHeader, World.prepend, List.append_nil]
  rw [main_eq_of_count h file cap config hc hr, ← key]
  unfold convertBody
  cases malloc_weights h (convert_config h.endian config) (afterHeader file cap) with
  | mk o s1 =>
    cases o with
    | none => rfl
    | some w =>
      simp only
      cases convert_weights h w (convert_config h.endian config) s1 with
      | fault f => rfl
      | ret code w2 s2 =>
        simp only
        by_cases hcode : code ≠ 0
        · rw [if_pos hcode, if_pos hcode]
          rfl
        · rw [if_neg hcode, if_neg hcode]
          rfl

/-! ## Lemmas: two headers that differ in `n_kv_heads` -/

theorem status_prepend (r : Run) (d : List Byte) :
    (r.prepend d).flush.status = r.status := by
  cases r <;> rfl

theorem faulted_prepend (r : Run) (d : List Byte) :
    (r.prepend d).flush.faulted = r.faulted := by
  cases r <;> rfl

theorem calls_prepend (r : Run) (d : List Byte) : (r.prepend d).flush.calls = r.calls := by
  cases r <;> rfl

theorem faulted_of_exit (r : Run) (code : Int) (s : World) (hr : r = .exit code s) :
    r.faulted = none := by
  rw [hr]; rfl

theorem calls_of_exit (r : Run) (code : Int) (s : World) (hr : r = .exit code s) :
    r.calls = s.trace := by
  rw [hr]; rfl

theorem transfers_kv (p : Config) (k hs : Int) :
    transfers { p with n_kv_heads := k } hs = transfers p hs := rfl

theorem allocCount_kv (p : Config) (k : Int) (t : Tensor) :
    allocCount { p with n_kv_heads := k } t = allocCount p t := by
  cases t <;> rfl

theorem convert_config_kv (e : Endian) (c : Config) (k : Int) :
    convert_config e { c with n_kv_heads := k }
      = { convert_config e c with n_kv_heads := ibyteswap e k } := rfl

theorem convertBody_kv (h : Host) (p : Config) (k : Int) (s : World) :
    convertBody h { p with n_kv_heads := k } s = convertBody h p s :=
  convertBody_congr h _ _ _ rfl rfl rfl rfl rfl rfl

theorem mem_transfers_wk_wv (p : Config) (hs : Int) :
    (Tensor.wk, imul (imul p.n_layers p.dim) p.dim) ∈ transfers p hs ∧
    (Tensor.wv, imul (imul p.n_layers p.dim) p.dim) ∈ transfers p hs := by
  constructor <;> simp [transfers, firstEleven]

/-- The words of a header other than `n_kv_heads`: bytes 0 to 15 and 20 to 27. -/
theorem toBytes_kv (e : Endian) (p : Config) (k : Int) :
    (({ p with n_kv_heads := k } : Config).toBytes e).take 16 = (p.toBytes e).take 16 ∧
    (({ p with n_kv_heads := k } : Config).toBytes e).drop 20 = (p.toBytes e).drop 20 := by
  simp [Config.toBytes, Bytes4.toList]

/-- Two outputs that begin with headers which differ in the word of
`n_kv_heads` only, and continue alike, once the stream is closed. -/
theorem output_prepend_kv (r : Run) (d1 d2 : List Byte) (hl1 : d1.length = 28)
    (hl2 : d2.length = 28) (ht : d1.take 16 = d2.take 16) (hd : d1.drop 20 = d2.drop 20) :
    (r.prepend d1).flush.output.length = (r.prepend d2).flush.output.length ∧
    (r.prepend d1).flush.output.take 16 = (r.prepend d2).flush.output.take 16 ∧
    (r.prepend d1).flush.output.drop 20 = (r.prepend d2).flush.output.drop 20 := by
  cases r with
  | fault f => exact ⟨rfl, rfl, rfl⟩
  | exit code s =>
    simp only [Run.prepend, Run.flush, Run.output, World.prepend, fclose]
    refine ⟨?_, ?_, ?_⟩
    · rw [List.length_take, List.length_take, List.length_append, List.length_append, hl1, hl2]
    · rw [List.take_take, List.take_take, Nat.min_comm, ← List.take_take, ← List.take_take,
        List.take_append_of_le_length (by omega), List.take_append_of_le_length (by omega), ht]
    · rw [List.drop_take, List.drop_take, List.drop_append_of_le_length (by omega),
        List.drop_append_of_le_length (by omega), hd]

/-! ## Lemmas: the order of the library calls -/

theorem planEvents_isTransfer (h : Host) (l : List (Tensor × Int)) :
    ∀ e ∈ planEvents h l, e.isTransfer = true := by
  induction l with
  | nil => intro e he; simp [planEvents] at he
  | cons x l ih =>
    obtain ⟨t, c⟩ := x
    intro e he
    simp only [planEvents, List.mem_cons] at he
    rcases he with rfl | rfl | rfl | he
    · rfl
    · rfl
    · rfl
    · exact ih e he

theorem isTransfer_kind (e : Event) (he : e.isTransfer = true) :
    e.isCalloc = false ∧ e.isFree = false := by
  cases e <;> simp [Event.isTransfer] at he <;> exact ⟨rfl, rfl⟩

theorem mem_callocEvents (h : Host) (p : Config) (t : Tensor) :
    Event.calloc t (toSizeT h (allocCount p t)) (calloc h (toSizeT h (allocCount p t))).isSome
      ∈ callocEvents h p := by
  cases t <;> simp [callocEvents]

/-- When `malloc_weights` fails, one of its thirteen requests was refused. -/
theorem malloc_weights_none_inv (h : Host) (p : Config) (s s' : World)
    (hm : malloc_weights h p s = (none, s')) :
    ∃ t, calloc h (toSizeT h (allocCount p t)) = none := by
  by_contra hcon
  have hmem : ∀ t, ∃ b, calloc h (toSizeT h (allocCount p t)) = some b := by
    intro t
    cases hcal : calloc h (toSizeT h (allocCount p t)) with
    | none => exact absurd ⟨t, hcal⟩ hcon
    | some b => exact ⟨b, rfl⟩
  obtain ⟨w, hw⟩ := malloc_weights_ok h p s hmem
  rw [hw] at hm
  injection hm with e1 _
  cases e1

/-- The library calls of a run that got past the header: the two header
calls, the thirteen calls of `calloc`, then calls none of which is a `calloc`;
a run that ends with status 1 has released no buffer and contains a call that
failed. -/
theorem main_exit_trace (h : Host) (file : List Byte) (cap : Nat) (config : Config) (code : Int)
    (s' : World) (hc : headerOf h file = some config) (hcount : fwrite_count h 0 28 1 cap = 1)
    (hrun : main h file cap = .exit code s') :
    (code = 0 ∨ code = 1) ∧
    ∃ calls, s'.trace = [.fread_config 1, .fwrite_config 1]
        ++ callocEvents h (convert_config h.endian config) ++ calls ∧
      (∀ e ∈ calls, e.isCalloc = false) ∧
      (code ≠ 0 → (∀ e ∈ calls, e.isFree = false) ∧ ∃ e ∈ s'.trace, e.failed = true) := by
  rw [main_eq_of_count h file cap config hc hcount] at hrun
  cases hm : malloc_weights h (convert_config h.endian config) (afterHeader file cap) with
  | mk o s3 =>
    have hs3 := malloc_weights_eq h _ _ _ _ hm
    have htr3 : s3.trace = [.fread_config 1, .fwrite_config 1]
        ++ callocEvents h (convert_config h.endian config) := by rw [hs3]; rfl
    rw [hm] at hrun
    cases o with
    | none =>
      simp only at hrun
      injection hrun with e1 e2
      subst e1 e2
      rw [fclose_trace]
      refine ⟨Or.inr rfl, [], by rw [htr3, List.append_nil], by simp, fun _ => ⟨by simp, ?_⟩⟩
      obtain ⟨t, ht⟩ := malloc_weights_none_inv h _ _ _ hm
      have hmem := mem_callocEvents h (convert_config h.endian config) t
      rw [ht] at hmem
      refine ⟨.calloc t (toSizeT h (allocCount (convert_config h.endian config) t)) false, ?_, rfl⟩
      rw [htr3]
      exact List.mem_append_right _ hmem
    | some w =>
      simp only at hrun
      cases hcw : convert_weights h w (convert_config h.endian config) s3 with
      | fault f => rw [hcw] at hrun; cases hrun
      | ret code2 w' s4 =>
        rw [hcw] at hrun
        simp only at hrun
        have hplan := planEvents_isTransfer h
        split at hrun
        · rename_i hne
          injection hrun with e1 e2
          subst e1 e2
          rw [fclose_trace]
          rcases convert_weights_trace h w _ s3 code2 w' s4 hcw with
            ⟨h0, _⟩ | ⟨_, l1, t, c, l2, r, _, hr, htr | htr⟩
          · exact absurd h0 hne
          · refine ⟨Or.inr rfl, planEvents h l1 ++ [.fread t (toSizeT h c) r],
              by rw [htr, htr3, List.append_assoc], ?_, fun _ => ⟨?_, ?_⟩⟩
            · intro e he
              rcases List.mem_append.mp he with he | he
              · exact (isTransfer_kind e (hplan l1 e he)).1
              · rw [List.mem_singleton.mp he]; rfl
            · intro e he
              rcases List.mem_append.mp he with he | he
              · exact (isTransfer_kind e (hplan l1 e he)).2
              · rw [List.mem_singleton.mp he]; rfl
            · exact ⟨.fread t (toSizeT h c) r, by rw [htr]; simp, by simp [Event.failed, hr]⟩
          · refine ⟨Or.inr rfl, planEvents h l1 ++ [.fread t (toSizeT h c) (toSizeT h c),
                .fabyteswap t c, .fwrite t (toSizeT h c) r],
              by rw [htr, htr3, List.append_assoc], ?_, fun _ => ⟨?_, ?_⟩⟩
            · intro e he
              rcases List.mem_append.mp he with he | he
              · exact (isTransfer_kind e (hplan l1 e he)).1
              · simp only [List.mem_cons, List.mem_singleton, List.not_mem_nil, or_false] at he
                rcases he with rfl | rfl | rfl <;> rfl
            · intro e he
              rcases List.mem_append.mp he with he | he
              · exact (isTransfer_kind e (hplan l1 e he)).2
              · simp only [List.mem_cons, List.mem_singleton, List.not_mem_nil, or_false] at he
                rcases he with rfl | rfl | rfl <;> rfl
            · exact ⟨.fwrite t (toSizeT h c) r, by rw [htr]; simp, by simp [Event.failed, hr]⟩
        · rename_i hcode
          have hcode0 : code2 = 0 := by simpa using hcode
          subst hcode0
          injection hrun with e1 e2
          subst e1 e2
          rcases convert_weights_trace h w _ s3 0 w' s4 hcw with ⟨_, htr⟩ | ⟨h1, _⟩
          · refine ⟨Or.inl rfl, planEvents h (transfers (convert_config h.endian config)
                (Int.tdiv (convert_config h.endian config).dim
                  (convert_config h.endian config).n_heads)) ++ freeEvents, ?_, ?_,
              fun hne => absurd rfl hne⟩
            · simp only [free_weights, fclose, htr, htr3, freeEvents, List.append_assoc]
            · intro e he
              rcases List.mem_append.mp he with he | he
              · exact (isTransfer_kind e (hplan _ e he)).1
              · have hfree : ∀ x ∈ freeEvents, x.isCalloc = false := by decide
                exact hfree e he
          · omega

/-! ## Lemmas: runs on arbitrary headers -/

theorem callocEvents_not_transfer (h : Host) (p : Config) :
    ∀ e ∈ callocEvents h p, e.isTransfer = false := by
  intro e he
  simp only [callocEvents, List.mem_cons, List.mem_singleton, List.not_mem_nil, or_false] at he
  rcases he with e1 | e1 | e1 | e1 | e1 | e1 | e1 | e1 | e1 | e1 | e1 | e1 | e1 <;>
    (rw [e1]; rfl)

/-- A transfer of zero elements: nothing is consumed, nothing is written, the
buffer is left as it is, no call returns a count other than the one requested. -/
theorem xfer_zero (h : Host) (t : Tensor) (buf : List CFloat) (s : World) :
    xfer h t buf 0 s
      = .next buf { s with trace := s.trace ++ [.fread t 0 0, .fabyteswap t 0, .fwrite t 0 0] } := by
  have hz : toSizeT h 0 = 0 := toSizeT_of_nonneg h 0 (by decide) (by decide)
  have hf : fabyteswap buf 0 = .ok buf := rfl
  simp [xfer, fread, fwrite, fwrite_count_zero, hz, hf, decodeFloats]

/-- When `head_size` can be computed and the count requested for the last two
tensors is within their buffers, `main` ends with an exit status. -/
theorem main_total (h : Host) (file : List Byte) (cap : Nat) (config : Config)
    (hc : headerOf h file = some config)
    (hdiv : ∃ hs, cdiv (convert_config h.endian config).dim
      (convert_config h.endian config).n_heads = .ok hs)
    (hfit : toSizeT h (Int.tdiv (imul (convert_config h.endian config).seq_len
        (Int.tdiv (convert_config h.endian config).dim
          (convert_config h.endian config).n_heads)) 2)
      ≤ toSizeT h (allocCount (convert_config h.endian config) .freq_cis_real)) :
    ∃ code s', main h file cap = .exit code s' := by
  by_cases hcount : fwrite_count h 0 28 1 cap = 1
  swap
  · exact ⟨1, _, main_header_reported h file cap config hc hcount⟩
  rw [main_eq_of_count h file cap config hc hcount]
  cases hm : malloc_weights h (convert_config h.endian config) (afterHeader file cap) with
  | mk o s3 =>
    cases o with
    | none => exact ⟨1, fclose s3, rfl⟩
    | some w =>
      obtain ⟨hs, hd⟩ := hdiv
      have hhs := cdiv_ok _ _ _ hd
      have hlen := malloc_weights_length h _ _ w s3 hm
      obtain ⟨code, w', s4, hcw⟩ := convert_weights_returns h w (convert_config h.endian config) s3
        hs (convert_config_inRange _ _) hd (by
          intro x hx
          rw [hlen x.1]
          unfold transfers at hx
          rcases List.mem_append.mp hx with hx | hx
          · rw [(mem_firstEleven _ hs x hx).1]
          · rw [hhs] at hx
            simp only [lastTwo, List.mem_cons, List.mem_singleton, List.not_mem_nil,
              or_false] at hx
            rcases hx with rfl | rfl
            · exact hfit
            · exact hfit)
      simp only
      rw [hcw]
      simp only
      by_cases hcode : code ≠ 0
      · exact ⟨1, fclose s4, by rw [if_pos hcode]⟩
      · exact ⟨0, _, by rw [if_neg hcode]⟩

/-- A header whose byte-swapped `n_heads` is 0: once the first eleven tensors
are transferred, the computation of `head_size` divides by zero. -/
theorem main_div_by_zero (h : Host) (file : List Byte) (cap : Nat) (config : Config)
    (hc : headerOf h file = some config)
    (hmem : ∀ t, ∃ b, calloc h (toSizeT h (allocCount (convert_config h.endian config) t)) = some b)
    (hnh : (convert_config h.endian config).n_heads = 0)
    (hsrc : 28 + 4 * totalCount (firstEleven (convert_config h.endian config)) ≤ file.length)
    (hcap : 28 + 4 * totalCount (firstEleven (convert_config h.endian config)) ≤ cap) :
    main h file cap = .fault .div_by_zero := by
  rw [main_eq h file cap config hc (by omega)]
  obtain ⟨w, hw⟩ := malloc_weights_ok h (convert_config h.endian config) (afterHeader file cap) hmem
  rw [hw]
  simp only
  have hlen := malloc_weights_length h _ _ w _ hw
  have hfit := firstEleven_fit h _ (convert_config_inRange h.endian config) hmem
  obtain ⟨w', _, hr⟩ := run_ok h (firstEleven (convert_config h.endian config)) w
    { afterHeader file cap with
      trace := (afterHeader file cap).trace ++ callocEvents h (convert_config h.endian config) }
    (fun x hx => ⟨(hfit x hx).1,
      (transfers_inInt32 _ (convert_config_inRange h.endian config) 0 x
        (mem_firstEleven _ 0 x hx).2).2,
      by rw [hlen x.1]; exact le_of_eq (hfit x hx).2⟩)
    (by
      show 4 * _ ≤ (file.drop 28).length
      rw [List.length_drop]
      omega)
    (by
      show (swapWords (file.take 28)).length + 4 * _ ≤ cap
      rw [swapWords_length, List.length_take]
      omega)
  rw [convert_weights_eq, hr]
  simp only [Outcome.andThen, if_true, cdiv, hnh]

/-- The three calls of a transfer that is part of a complete run. -/
theorem mem_planEvents (h : Host) (l : List (Tensor × Int)) (t : Tensor) (c : Int)
    (hm : (t, c) ∈ l) :
    Event.fread t (toSizeT h c) (toSizeT h c) ∈ planEvents h l ∧
    Event.fabyteswap t c ∈ planEvents h l ∧
    Event.fwrite t (toSizeT h c) (toSizeT h c) ∈ planEvents h l := by
  induction l with
  | nil => simp at hm
  | cons x l ih =>
    obtain ⟨t2, c2⟩ := x
    rcases List.mem_cons.mp hm with e | hm
    · injection e with e1 e2
      subst e1 e2
      simp [planEvents]
    · obtain ⟨i1, i2, i3⟩ := ih hm
      simp only [planEvents, List.mem_cons]
      exact ⟨Or.inr (Or.inr (Or.inr i1)), Or.inr (Or.inr (Or.inr i2)),
        Or.inr (Or.inr (Or.inr i3))⟩

theorem fileSeqZero_length (h : Host) : (fileSeqZero h).length = 748 := by
  simp [fileSeqZero, toBytes_length, payload_length]

theorem headerOf_fileSeqZero (h : Host) :
    headerOf h (fileSeqZero h) = some (convert_config h.endian seqZero) :=
  headerOf_append h _ (convert_config_inRange _ _) _

theorem convert_config_seqZero (e : Endian) :
    convert_config e (convert_config e seqZero) = seqZero :=
  convert_config_convert_config e seqZero (by decide)

/-! ## Lemmas: writes that are never reported short -/

/-- A tensor whose count is non-negative, fits its buffer and is supplied by the
source is transferred completely when its write is reported complete. -/
theorem xfer_next_of_count (h : Host) (t : Tensor) (buf : List CFloat) (c : Int) (s : World)
    (h0 : 0 ≤ c) (h1 : c < 2147483648) (hbuf : c.toNat ≤ buf.length)
    (hsrc : 4 * c.toNat ≤ s.src.length)
    (hcount : fwrite_count h s.dst.length 4 c.toNat s.cap = c.toNat) :
    ∃ b, b.length = buf.length ∧ xfer h t buf c s = .next b (s.afterTensor t c c.toNat) := by
  obtain ⟨b, hl, hx⟩ := xfer_written h t buf c s h0 h1 hbuf hsrc
  rw [hcount, if_neg (by simp)] at hx
  exact ⟨b, hl, hx⟩

theorem convert_config_palindrome :
    convert_config .little palindromeHeader = palindromeHeader := by decide

theorem filePalindrome_length : filePalindrome.length = 263196 := by
  unfold filePalindrome
  rw [List.length_append, toBytes_length, payload_length]

theorem swapWords_filePalindrome :
    swapWords filePalindrome = palindromeHeader.toBytes .little ++ swapWords (payload 263168) := by
  unfold filePalindrome
  rw [swapWords_append _ _ (by rw [toBytes_length]; exact ⟨7, rfl⟩), ← toBytes_convert_config,
    convert_config_palindrome]

/-- A file that consists of `palindromeHeader` and 263168 more bytes is
converted completely on the sample host. -/
theorem main_palindrome (rest : List Byte) (hl : rest.length = 263168) :
    ∃ s', main hostLE (palindromeHeader.toBytes .little ++ rest) 263196 = .exit 0 s' ∧
      s'.src = [] ∧ s'.dst = swapWords (palindromeHeader.toBytes .little ++ rest) := by
  have hcc : convert_config hostLE.endian palindromeHeader = palindromeHeader :=
    convert_config_palindrome
  have hlen : (palindromeHeader.toBytes .little ++ rest).length = 263196 := by
    rw [List.length_append, toBytes_length, hl]
  obtain ⟨s', h1, h2, h3, _⟩ := main_ok_of_counts hostLE
    (palindromeHeader.toBytes .little ++ rest) 263196 palindromeHeader 1
    (headerOf_append hostLE palindromeHeader (by decide) rest)
    (by rw [hcc]; rfl)
    (by
      rw [hcc]
      intro t
      exact ⟨_, calloc_of_ok _ _ (by cases t <;> decide) (by cases t <;> decide)⟩)
    (by rw [hcc]; decide)
    (by rw [hcc, hlen]; decide)
    (by rw [hcc]; decide)
  rw [hcc] at h2 h3
  have ht : 28 + 4 * totalCount (transfers palindromeHeader 1) = 263196 := by decide
  rw [ht] at h2 h3
  refine ⟨s', h1, ?_, ?_⟩
  · rw [h2, List.drop_of_length_le (by rw [hlen])]
  · rw [h3, List.take_of_length_le (by rw [hlen])]

/-! ## Lemmas: the writes of a successful run -/

/-- The write of a transfer that completes was reported complete. -/
theorem xfer_next_count (h : Host) (t : Tensor) (buf : List CFloat) (c : Int) (s : World)
    (b : List CFloat) (s' : World) (hc : InInt32 c) (hbuf : 4 * buf.length < h.size_t.modulus)
    (hx : xfer h t buf c s = .next b s') :
    fwrite_count h s.dst.length 4 c.toNat s.cap = c.toNat := by
  obtain ⟨h0, hfit, hsrc⟩ := xfer_next_inv h t buf c s b s' hc hbuf hx
  obtain ⟨b1, hl, hb1⟩ := xfer_written h t buf c s h0 hc.2 hfit hsrc
  rw [hb1] at hx
  split at hx
  · cases hx
  · rename_i hne
    exact not_not.mp hne

theorem afterTensor_dst_length (s : World) (t : Tensor) (c : Int) (n : Nat)
    (hsrc : 4 * n ≤ s.src.length) :
    (s.afterTensor t c n).dst.length = s.dst.length + 4 * n := by
  simp only [World.afterTensor, List.length_append, swapWords_length, List.length_take]
  omega

/-- Every write of a run that returns 0 was reported complete. -/
theorem run_ret0_reported (h : Host) (l : List (Tensor × Int)) :
    ∀ (w : TransformerWeights) (s : World) (w' : TransformerWeights) (s' : World),
      (∀ x ∈ l, InInt32 x.2) → w.Bounded h →
      runTransfers h l w s = .ret 0 w' s' → writesReported h s.cap s.dst.length l := by
  induction l with
  | nil =>
    intro w s w' s' _ _ _
    trivial
  | cons x l ih =>
    intro w s w' s' hin hb hr
    obtain ⟨t, c⟩ := x
    have hc : InInt32 c := hin (t, c) (List.mem_cons_self _ _)
    simp only [runTransfers] at hr
    cases hx : xfer h t (w.get t) c s with
    | fault f => rw [hx] at hr; cases hr
    | ret1 b s1 =>
      rw [hx] at hr
      injection hr with e1 e2 e3
      omega
    | next b s1 =>
      rw [hx] at hr
      simp only at hr
      obtain ⟨h0, hfit, hsrc⟩ := xfer_next_inv h t _ c s b s1 hc (hb t) hx
      obtain ⟨hs1, hlen⟩ := xfer_next_state h t _ c s b s1 hc (hb t) hx
      have hcount := xfer_next_count h t _ c s b s1 hc (hb t) hx
      have hb' : (w.set t b).Bounded h := by
        intro t'
        rw [length_get_set w t t' b hlen]
        exact hb t'
      have hrec := ih (w.set t b) s1 w' s'
        (fun x hx => hin x (List.mem_cons_of_mem _ hx)) hb' hr
      rw [hs1, afterTensor_dst_length s t c c.toNat hsrc] at hrec
      exact ⟨hcount, hrec⟩

/-- A run whose counts are non-negative and fit the buffers, on a source that
supplies every element, returns 0 when each of its writes is reported
complete. -/
theorem run_ok_reported (h : Host) (l : List (Tensor × Int)) :
    ∀ (w : TransformerWeights) (s : World),
      (∀ x ∈ l, 0 ≤ x.2 ∧ x.2 < 2147483648 ∧ x.2.toNat ≤ (w.get x.1).length) →
      4 * totalCount l ≤ s.src.length → writesReported h s.cap s.dst.length l →
      ∃ w', (∀ t, (w'.get t).length = (w.get t).length) ∧
        runTransfers h l w s = .ret 0 w' (s.afterAll h l) := by
  induction l with
  | nil =>
    intro w s _ _ _
    exact ⟨w, fun _ => rfl, by simp [runTransfers, afterAll_nil]⟩
  | cons x l ih =>
    intro w s hin hsrc hrep
    obtain ⟨t, c⟩ := x
    obtain ⟨h0, h1, hfit⟩ := hin (t, c) (List.mem_cons_self _ _)
    rw [totalCount_cons] at hsrc
    obtain ⟨b, hlen, hx⟩ := xfer_next_of_count h t (w.get t) c s h0 h1 hfit (by omega) hrep.1
    obtain ⟨w', hw', hr⟩ := ih (w.set t b) (s.afterTensor t c c.toNat)
      (by
        intro x hx
        obtain ⟨a1, a2, a3⟩ := hin x (List.mem_cons_of_mem _ hx)
        refine ⟨a1, a2, ?_⟩
        rw [length_get_set w t x.1 b hlen]
        exact a3)
      (by simp only [World.afterTensor, List.length_drop]; omega)
      (by
        rw [afterTensor_dst_length s t c c.toNat (by omega)]
        exact hrep.2)
    refine ⟨w', ?_, ?_⟩
    · intro t'
      rw [hw' t', length_get_set w t t' b hlen]
    · simp only [runTransfers, hx]
      rw [hr, afterTensor_afterAll s h t c l h0 h1 (by omega)]

/-- A successful conversion: the write of the header and every write of a
tensor were reported complete. -/
theorem main_exit0_reported (h : Host) (file : List Byte) (cap : Nat) (s' : World)
    (hrun : main h file cap = .exit 0 s') :
    ∃ config hs, headerOf h file = some config ∧
      cdiv (convert_config h.endian config).dim (convert_config h.endian config).n_heads = .ok hs ∧
      fwrite_count h 0 28 1 cap = 1 ∧
      writesReported h cap 28 (transfers (convert_config h.endian config) hs) := by
  by_cases hl : file.length < 28
  · rw [main_no_header h file cap hl] at hrun
    injection hrun with e1 e2
    omega
  obtain ⟨config, hc, _, _⟩ := headerOf_some h file (by omega)
  by_cases hcount : fwrite_count h 0 28 1 cap = 1
  swap
  · rw [main_header_reported h file cap config hc hcount] at hrun
    injection hrun with e1 e2
    omega
  rw [main_eq_of_count h file cap config hc hcount] at hrun
  cases hm : malloc_weights h (convert_config h.endian config) (afterHeader file cap) with
  | mk o s3 =>
    rw [hm] at hrun
    cases o with
    | none =>
      simp only at hrun
      injection hrun with e1 e2
      omega
    | some w =>
      simp only at hrun
      have hs3 := malloc_weights_eq h _ _ _ _ hm
      cases hcw : convert_weights h w (convert_config h.endian config) s3 with
      | fault f => rw [hcw] at hrun; cases hrun
      | ret code w' s4 =>
        rw [hcw] at hrun
        simp only at hrun
        split at hrun
        · injection hrun with e1 e2
          omega
        · rename_i hcode
          have hcode0 : code = 0 := by simpa using hcode
          subst hcode0
          obtain ⟨hs, hd, hr⟩ := convert_weights_ret0 h w _ s3 w' s4 hcw
          have hrep := run_ret0_reported h _ w s3 w' s4
            (transfers_inInt32 _ (convert_config_inRange _ _) hs)
            (malloc_weights_bounded h _ _ w s3 hm) hr
          have hdst3 : s3.dst.length = 28 := by
            rw [hs3]
            show (swapWords (file.take 28)).length = 28
            rw [swapWords_length, List.length_take]
            omega
          have hcap3 : s3.cap = cap := by rw [hs3]; rfl
          rw [hdst3, hcap3] at hrep
          exact ⟨config, hs, hc, hd, hcount, hrep⟩

/-- A conversion in which the buffers are allocated, every count is
non-negative and fits its buffer, the file supplies header and tensors and
every write is reported complete exits with status 0; the destination holds
the first `cap` bytes of the byte-reversed input. -/
theorem main_ok_reported (h : Host) (file : List Byte) (cap : Nat) (config : Config) (hs : Int)
    (hc : headerOf h file = some config)
    (hd : cdiv (convert_config h.endian config).dim (convert_config h.endian config).n_heads
      = .ok hs)
    (hmem : ∀ t, ∃ b, calloc h (toSizeT h (allocCount (convert_config h.endian config) t)) = some b)
    (hin : ∀ x ∈ transfers (convert_config h.endian config) hs,
      0 ≤ x.2 ∧ x.2.toNat ≤ toSizeT h (allocCount (convert_config h.endian config) x.1))
    (hsrc : 28 + 4 * totalCount (transfers (convert_config h.endian config) hs) ≤ file.length)
    (hcount : fwrite_count h 0 28 1 cap = 1)
    (hrep : writesReported h cap 28 (transfers (convert_config h.endian config) hs)) :
    ∃ s', main h file cap = .exit 0 s' ∧
      s'.src = file.drop (28 + 4 * totalCount (transfers (convert_config h.endian config) hs)) ∧
      s'.dst = (swapWords
        (file.take (28 + 4 * totalCount (transfers (convert_config h.endian config) hs)))).take
          cap ∧
      s'.trace = successTrace h (convert_config h.endian config) hs := by
  rw [main_eq_of_count h file cap config hc hcount]
  obtain ⟨w, hw⟩ := malloc_weights_ok h (convert_config h.endian config) (afterHeader file cap) hmem
  rw [hw]
  have hlen := malloc_weights_length h _ _ w _ hw
  have hrange := transfers_inInt32 _ (convert_config_inRange h.endian config) hs
  have hl28 := headerOf_length h file config hc
  obtain ⟨w', _, hr⟩ := run_ok_reported h (transfers (convert_config h.endian config) hs) w
    { afterHeader file cap with
      trace := (afterHeader file cap).trace ++ callocEvents h (convert_config h.endian config) }
    (fun x hx => ⟨(hin x hx).1, (hrange x hx).2, by rw [hlen x.1]; exact (hin x hx).2⟩)
    (by
      show 4 * _ ≤ (file.drop 28).length
      rw [List.length_drop]
      omega)
    (by
      show writesReported h cap (swapWords (file.take 28)).length _
      rw [swapWords_length, List.length_take, Nat.min_eq_left hl28]
      exact hrep)
  simp only
  rw [convert_weights_of_cdiv h w _ _ hs hd, hr]
  simp only [ne_eq, not_true_eq_false, if_false]
  have hall : swapWords (file.take 28) ++ swapWords ((file.drop 28).take
      (4 * totalCount (transfers (convert_config h.endian config) hs)))
      = swapWords (file.take
        (28 + 4 * totalCount (transfers (convert_config h.endian config) hs))) :=
    (swapWords_take_add file 28 _ ⟨7, rfl⟩ (by omega)).symm
  refine ⟨_, rfl, ?_, ?_, ?_⟩
  · rw [(free_weights_fields _ _).1]
    simp only [fclose, World.afterAll, afterHeader, List.drop_drop]
  · rw [(free_weights_fields _ _).2.1]
    simp only [fclose, World.afterAll, afterHeader]
    rw [hall]
  · simp only [free_weights, fclose, World.afterAll, afterHeader, successTrace, freeEvents]

/-! ## Lemmas: the bytes the library calls report -/

theorem bytesRead_append (a b : List Event) : bytesRead (a ++ b) = bytesRead a + bytesRead b := by
  simp [bytesRead]

theorem bytesWritten_append (a b : List Event) :
    bytesWritten (a ++ b) = bytesWritten a + bytesWritten b := by
  simp [bytesWritten]

theorem bytes_callocEvents (h : Host) (p : Config) :
    bytesRead (callocEvents h p) = 0 ∧ bytesWritten (callocEvents h p) = 0 := by
  simp [callocEvents, bytesRead, bytesWritten, Event.bytesRead, Event.bytesWritten]

theorem bytes_freeEvents : bytesRead freeEvents = 0 ∧ bytesWritten freeEvents = 0 := by
  simp [freeEvents, bytesRead, bytesWritten, Event.bytesRead, Event.bytesWritten]

/-- The calls of a complete run of transfers report as many bytes read, and as
many written, as the elements of the transfers have. -/
theorem bytes_planEvents (h : Host) (l : List (Tensor × Int))
    (hin : ∀ x ∈ l, 0 ≤ x.2 ∧ x.2 < 2147483648) :
    bytesRead (planEvents h l) = 4 * totalCount l ∧
      bytesWritten (planEvents h l) = 4 * totalCount l := by
  induction l with
  | nil => exact ⟨rfl, rfl⟩
  | cons x l ih =>
    obtain ⟨t, c⟩ := x
    obtain ⟨h0, h1⟩ := hin (t, c) (List.mem_cons_self _ _)
    obtain ⟨i1, i2⟩ := ih (fun x hx => hin x (List.mem_cons_of_mem _ hx))
    have hn := toSizeT_of_nonneg h c h0 h1
    unfold bytesRead at i1 ⊢
    unfold bytesWritten at i2 ⊢
    simp only [planEvents, List.map_cons, List.sum_cons, Event.bytesRead, Event.bytesWritten,
      totalCount_cons, hn, i1, i2]
    constructor <;> omega

/-- The calls of a successful conversion report as many bytes read, and as
many written, as the header and the thirteen tensors have. -/
theorem bytes_successTrace (h : Host) (p : Config) (hs : Int)
    (hin : ∀ x ∈ transfers p hs, 0 ≤ x.2 ∧ x.2 < 2147483648) :
    bytesRead (successTrace h p hs) = 28 + 4 * totalCount (transfers p hs) ∧
      bytesWritten (successTrace h p hs) = 28 + 4 * totalCount (transfers p hs) := by
  obtain ⟨p1, p2⟩ := bytes_planEvents h (transfers p hs) hin
  obtain ⟨c1, c2⟩ := bytes_callocEvents h p
  obtain ⟨f1, f2⟩ := bytes_freeEvents
  have e1 : bytesRead [.fread_config 1, .fwrite_config 1] = 28 := rfl
  have e2 : bytesWritten [.fread_config 1, .fwrite_config 1] = 28 := rfl
  unfold successTrace
  rw [bytesRead_append, bytesRead_append, bytesRead_append, bytesWritten_append,
    bytesWritten_append, bytesWritten_append, p1, p2, c1, c2, f1, f2, e1, e2]
  constructor <;> omega


/-! ## The swap primitive and the header codec -/

/-- C6: on every host and for every `int` value and every float, the object
representation of the result of `ibyteswap`, respectively `fbyteswap`, is the
object representation of the argument with its four bytes in reverse order:
result byte 0 is argument byte 3, byte 1 is byte 2, byte 2 is byte 1 and
byte 3 is byte 0.  Both functions apply the same permutation of byte positions
and no byte changes its value. -/
theorem swap_reverses_representation (e : Endian) (i : Int) (f : CFloat) :
    (intToBytes e (ibyteswap e i)).toList = (intToBytes e i).toList.reverse ∧
    (fbyteswap f).b.toList = f.b.toList.reverse ∧
    ((intToBytes e (ibyteswap e i)).b0 = (intToBytes e i).b3 ∧
     (intToBytes e (ibyteswap e i)).b1 = (intToBytes e i).b2 ∧
     (intToBytes e (ibyteswap e i)).b2 = (intToBytes e i).b1 ∧
     (intToBytes e (ibyteswap e i)).b3 = (intToBytes e i).b0) ∧
    ((fbyteswap f).b.b0 = f.b.b3 ∧ (fbyteswap f).b.b1 = f.b.b2 ∧
     (fbyteswap f).b.b2 = f.b.b1 ∧ (fbyteswap f).b.b3 = f.b.b0) ∧
    intToBytes e (ibyteswap e i) = swapBytes4 (intToBytes e i) ∧
    (fbyteswap f).b = swapBytes4 f.b := by
  have hi := intToBytes_ibyteswap e i
  refine ⟨?_, rfl, ?_, ⟨rfl, rfl, rfl, rfl⟩, hi, rfl⟩
  · rw [hi]; rfl
  · rw [hi]; exact ⟨rfl, rfl, rfl, rfl⟩

/-- C7: the swap is its own inverse.  For every value `i` of type `int`,
`ibyteswap (ibyteswap i) = i`; for every float, `fbyteswap (fbyteswap f) = f`
on its 32-bit pattern; and `fabyteswap` applied twice with the same `size` to a
buffer that holds at least `size` elements gives back the buffer. -/
theorem swap_involution (e : Endian) (i : Int) (f : CFloat) (buf : List CFloat) (size : Int)
    (hi : InInt32 i) (hsize : size.toNat ≤ buf.length) :
    ibyteswap e (ibyteswap e i) = i ∧ fbyteswap (fbyteswap f) = f ∧
    ∃ once, fabyteswap buf size = .ok once ∧ fabyteswap once size = .ok buf := by
  refine ⟨ibyteswap_ibyteswap e i hi, rfl, _, fabyteswap_ok buf size hsize, ?_⟩
  have hlen : ((buf.take size.toNat).map fbyteswap ++ buf.drop size.toNat).length = buf.length := by
    rw [List.length_append, List.length_map, List.length_take, List.length_drop]; omega
  rw [fabyteswap_ok _ size (by rw [hlen]; exact hsize)]
  congr 1
  have hl : ((buf.take size.toNat).map fbyteswap).length = size.toNat := by
    rw [List.length_map, List.length_take]; omega
  rw [List.take_append_of_le_length (by omega), List.take_of_length_le (by omega),
    List.drop_append_of_le_length (by omega), List.drop_of_length_le (by omega),
    List.map_map, List.nil_append]
  have hid : fbyteswap ∘ fbyteswap = id := by
    funext x; exact fbyteswap_fbyteswap x
  rw [hid, List.map_id, List.take_append_drop]

/-- Witness of C7: the value 4, the float with bytes 1 2 3 4, and a swap of
the first two elements of a buffer of three. -/
theorem swap_involution_witness :
    InInt32 4 ∧ (2 : Int).toNat ≤ [(⟨⟨1, 2, 3, 4⟩⟩ : CFloat), ⟨⟨5, 6, 7, 8⟩⟩, ⟨⟨9, 10, 11, 12⟩⟩].length ∧
    (ibyteswap .little (ibyteswap .little 4) = 4 ∧
     fbyteswap (fbyteswap ⟨⟨1, 2, 3, 4⟩⟩) = ⟨⟨1, 2, 3, 4⟩⟩ ∧
     ∃ once, fabyteswap [⟨⟨1, 2, 3, 4⟩⟩, ⟨⟨5, 6, 7, 8⟩⟩, ⟨⟨9, 10, 11, 12⟩⟩] 2 = .ok once ∧
       fabyteswap once 2 = .ok [⟨⟨1, 2, 3, 4⟩⟩, ⟨⟨5, 6, 7, 8⟩⟩, ⟨⟨9, 10, 11, 12⟩⟩]) :=
  ⟨by decide, by decide,
   swap_involution .little 4 ⟨⟨1, 2, 3, 4⟩⟩ [⟨⟨1, 2, 3, 4⟩⟩, ⟨⟨5, 6, 7, 8⟩⟩, ⟨⟨9, 10, 11, 12⟩⟩] 2
     (by decide) (by decide)⟩

/-- C8: for every header record `p` whose fields are values of type `int`,
`convert_config` sets each of the seven fields to `ibyteswap` of the field of
the same name; the 28 bytes of the result are the 28 bytes of `p` with each
consecutive 4-byte field reversed, fields in the same order; and
`convert_config` applied twice gives back `p`. -/
theorem convert_config_codec (e : Endian) (p : Config) (hp : p.InRange) :
    ((convert_config e p).dim = ibyteswap e p.dim ∧
     (convert_config e p).hidden_dim = ibyteswap e p.hidden_dim ∧
     (convert_config e p).n_layers = ibyteswap e p.n_layers ∧
     (convert_config e p).n_heads = ibyteswap e p.n_heads ∧
     (convert_config e p).n_kv_heads = ibyteswap e p.n_kv_heads ∧
     (convert_config e p).vocab_size = ibyteswap e p.vocab_size ∧
     (convert_config e p).seq_len = ibyteswap e p.seq_len) ∧
    ((convert_config e p).toBytes e).length = 28 ∧
    (convert_config e p).toBytes e = swapWords (p.toBytes e) ∧
    (∀ i, i < 28 →
      ((convert_config e p).toBytes e)[i]? = (p.toBytes e)[4 * (i / 4) + (3 - i % 4)]?) ∧
    convert_config e (convert_config e p) = p := by
  refine ⟨⟨rfl, rfl, rfl, rfl, rfl, rfl, rfl⟩, rfl, toBytes_convert_config e p, ?_,
    convert_config_convert_config e p hp⟩
  intro i hi
  rw [toBytes_convert_config]
  exact swapWords_getElem? (p.toBytes e) ⟨7, rfl⟩ i

/-- Witness of C8: the header of Scenario A, on a little-endian host. -/
theorem convert_config_codec_witness :
    scenarioA.InRange ∧
    convert_config .little scenarioA
      = ⟨67108864, 134217728, 16777216, 33554432, 33554432, 33554432, 33554432⟩ ∧
    convert_config .little (convert_config .little scenarioA) = scenarioA :=
  ⟨by decide, by decide, (convert_config_codec .little scenarioA (by decide)).2.2.2.2⟩

/-! ## The output of a successful conversion -/

/-- C4: in every call of `convert_weights` that returns, the `fread` requests
are an initial part of the thirteen transfers in the declared order, each with
the count the source computes for it (the `int` expressions `V*D`, `L*D`,
`L*D*D` four times, `L*D`, `L*D*H`, `L*H*D`, `L*D*H`, `D`, and twice
`S*head_size/2` with `head_size = D/n_heads`, converted to `size_t`); the
`fwrite` requests are the same tensors with the same counts, at most the last
read having no write; and when 0 is returned all thirteen tensors were read
and written, none reordered, skipped or merged.  When no product overflows the
counts are the exact values of section 3. -/
theorem transfers_in_declared_order (h : Host) (w : TransformerWeights) (p : Config) (s : World)
    (code : Int) (w' : TransformerWeights) (s' : World)
    (hr : convert_weights h w p s = .ret code w' s') :
    ∃ calls, s'.trace = s.trace ++ calls ∧
      (∃ rest, requests h (transfers p (Int.tdiv p.dim p.n_heads)) = reads calls ++ rest) ∧
      (∃ rest, reads calls = writes calls ++ rest ∧ rest.length ≤ 1) ∧
      (code = 0 → reads calls = requests h (transfers p (Int.tdiv p.dim p.n_heads)) ∧
        writes calls = requests h (transfers p (Int.tdiv p.dim p.n_heads))) ∧
      transfers p (Int.tdiv p.dim p.n_heads) =
        [ (.token_embedding_table, imul p.vocab_size p.dim),
          (.rms_att_weight, imul p.n_layers p.dim),
          (.wq, imul (imul p.n_layers p.dim) p.dim),
          (.wk, imul (imul p.n_layers p.dim) p.dim),
          (.wv, imul (imul p.n_layers p.dim) p.dim),
          (.wo, imul (imul p.n_layers p.dim) p.dim),
          (.rms_ffn_weight, imul p.n_layers p.dim),
          (.w1, imul (imul p.n_layers p.dim) p.hidden_dim),
          (.w2, imul (imul p.n_layers p.hidden_dim) p.dim),
          (.w3, imul (imul p.n_layers p.dim) p.hidden_dim),
          (.rms_final_weight, p.dim),
          (.freq_cis_real, Int.tdiv (imul p.seq_len (Int.tdiv p.dim p.n_heads)) 2),
          (.freq_cis_imag, Int.tdiv (imul p.seq_len (Int.tdiv p.dim p.n_heads)) 2) ] ∧
      (NoOverflow p → transfers p (Int.tdiv p.dim p.n_heads) = section3 p) := by
  rcases convert_weights_trace h w p s code w' s' hr with
    ⟨hc, htr⟩ | ⟨hc, l1, t, c, l2, r, hl, _, htr | htr⟩
  · refine ⟨_, htr, ⟨[], ?_⟩, ⟨[], ?_, by simp⟩, fun _ => ⟨?_, ?_⟩, rfl,
      transfers_eq_section3 p⟩
    · rw [reads_planEvents, List.append_nil]
    · rw [reads_planEvents, writes_planEvents, List.append_nil]
    · exact reads_planEvents h _
    · exact writes_planEvents h _
  · refine ⟨planEvents h l1 ++ [.fread t (toSizeT h c) r], by rw [htr, List.append_assoc],
      ⟨requests h l2, ?_⟩, ⟨[(t, toSizeT h c)], ?_, by simp⟩, fun h0 => ?_, rfl,
      transfers_eq_section3 p⟩
    · rw [hl, reads_append, reads_planEvents]
      simp [requests, reads]
    · rw [reads_append, writes_append, reads_planEvents, writes_planEvents]
      simp [reads, writes]
    · omega
  · refine ⟨planEvents h l1 ++ [.fread t (toSizeT h c) (toSizeT h c), .fabyteswap t c,
        .fwrite t (toSizeT h c) r], by rw [htr, List.append_assoc],
      ⟨requests h l2, ?_⟩, ⟨[], ?_, by simp⟩, fun h0 => ?_, rfl, transfers_eq_section3 p⟩
    · rw [hl, reads_append, reads_planEvents]
      simp [requests, reads]
    · rw [reads_append, writes_append, reads_planEvents, writes_planEvents]
      simp [reads, writes]
    · omega

/-- Witness of C4: the thirteen transfers of the Scenario A header, with the
counts 8, 4, 16, 16, 16, 16, 4, 32, 32, 32, 4, 2, 2. -/
theorem transfers_in_declared_order_witness :
    ∃ w' s', convert_weights hostLE (buffersA hostLE) scenarioA (streamA 736 736)
        = .ret 0 w' s' ∧
      reads s'.trace =
        [ (.token_embedding_table, 8), (.rms_att_weight, 4), (.wq, 16), (.wk, 16), (.wv, 16),
          (.wo, 16), (.rms_ffn_weight, 4), (.w1, 32), (.w2, 32), (.w3, 32),
          (.rms_final_weight, 4), (.freq_cis_real, 2), (.freq_cis_imag, 2) ] ∧
      writes s'.trace = reads s'.trace := by
  obtain ⟨w', s', hr⟩ := convert_weights_scenarioA
  obtain ⟨calls, h1, _, _, h4, _, _⟩ :=
    transfers_in_declared_order hostLE (buffersA hostLE) scenarioA (streamA 736 736) 0 w' s' hr
  obtain ⟨h5, h6⟩ := h4 rfl
  have htr : s'.trace = calls := by rw [h1]; rfl
  refine ⟨w', s', hr, ?_, ?_⟩
  · rw [htr, h5]; decide
  · rw [htr, h5, h6]

/-- C10: for every call of `convert_weights` that returns, the result is 0 or
1; it is non-zero if and only if some `fread` or `fwrite` of the call returned a
count different from the one requested; such a call is the last library call
of `convert_weights` (it returns at once, with no further read, swap or write);
and the result is 0 exactly when the calls are the thirteen reads, swaps and
writes, every read and write returning its full count.  Moreover the call does
return whenever `head_size` can be computed and every buffer holds the count
requested for its tensor. -/
theorem convert_weights_return_code (h : Host) (w : TransformerWeights) (p : Config) (s : World) :
    (∀ code w' s', convert_weights h w p s = .ret code w' s' →
      ∃ calls, s'.trace = s.trace ++ calls ∧
        (code = 0 ∨ code = 1) ∧
        (code ≠ 0 ↔ ∃ e ∈ calls, e.mismatch = true) ∧
        (∀ pre e post, calls = pre ++ e :: post → e.mismatch = true → post = []) ∧
        (code = 0 ↔ calls = planEvents h (transfers p (Int.tdiv p.dim p.n_heads)))) ∧
    (∀ hs, p.InRange → cdiv p.dim p.n_heads = .ok hs →
      (∀ x ∈ transfers p hs, toSizeT h x.2 ≤ (w.get x.1).length) →
      ∃ code w' s', convert_weights h w p s = .ret code w' s') := by
  refine ⟨?_, fun hs hp hd hb => convert_weights_returns h w p s hs hp hd hb⟩
  intro code w' s' hr
  have hplan := planEvents_no_mismatch h
  rcases convert_weights_trace h w p s code w' s' hr with
    ⟨hc, htr⟩ | ⟨hc, l1, t, c, l2, r, hl, hne, htr | htr⟩
  · refine ⟨_, htr, Or.inl hc, ?_, ?_, ?_⟩
    · constructor
      · intro hne; exact absurd hc hne
      · rintro ⟨e, he, hm⟩
        rw [hplan _ e he] at hm
        cases hm
    · intro pre e post hsplit hm
      have he : e ∈ planEvents h (transfers p (Int.tdiv p.dim p.n_heads)) := by
        rw [hsplit]; simp
      rw [hplan _ e he] at hm
      cases hm
    · exact ⟨fun _ => rfl, fun _ => hc⟩
  · have hmis : Event.mismatch (.fread t (toSizeT h c) r) = true := by
      simp [Event.mismatch, hne]
    refine ⟨planEvents h l1 ++ [.fread t (toSizeT h c) r], by rw [htr, List.append_assoc],
      Or.inr hc, ?_, ?_, ?_⟩
    · constructor
      · intro _; exact ⟨_, by simp, hmis⟩
      · intro _; omega
    · intro pre e post hsplit hm
      exact last_of_split (fun e => e.mismatch = true) _ _ pre post e
        (fun a ha => by show ¬ (a.mismatch = true); rw [hplan _ a ha]; simp) hm hsplit
    · constructor
      · intro h0; omega
      · intro heq
        exfalso
        have : Event.fread t (toSizeT h c) r
            ∈ planEvents h (transfers p (Int.tdiv p.dim p.n_heads)) := by
          rw [← heq]; simp
        rw [hplan _ _ this] at hmis
        cases hmis
  · have hmis : Event.mismatch (.fwrite t (toSizeT h c) r) = true := by
      simp [Event.mismatch, hne]
    have hcalls : planEvents h l1 ++ [.fread t (toSizeT h c) (toSizeT h c), .fabyteswap t c,
        .fwrite t (toSizeT h c) r]
        = (planEvents h l1 ++ [.fread t (toSizeT h c) (toSizeT h c), .fabyteswap t c])
          ++ [.fwrite t (toSizeT h c) r] := by simp
    refine ⟨planEvents h l1 ++ [.fread t (toSizeT h c) (toSizeT h c), .fabyteswap t c,
        .fwrite t (toSizeT h c) r], by rw [htr, List.append_assoc],
      Or.inr hc, ?_, ?_, ?_⟩
    · constructor
      · intro _; exact ⟨_, by simp, hmis⟩
      · intro _; omega
    · intro pre e post hsplit hm
      rw [hcalls] at hsplit
      refine last_of_split (fun e => e.mismatch = true) _ _ pre post e ?_ hm hsplit
      intro a ha
      show ¬ (a.mismatch = true)
      rcases List.mem_append.mp ha with ha | ha
      · rw [hplan _ a ha]; simp
      · simp only [List.mem_cons, List.mem_singleton, List.not_mem_nil, or_false] at ha
        rcases ha with rfl | rfl <;> simp [Event.mismatch]
    · constructor
      · intro h0; omega
      · intro heq
        exfalso
        have : Event.fwrite t (toSizeT h c) r
            ∈ planEvents h (transfers p (Int.tdiv p.dim p.n_heads)) := by
          rw [← heq]; simp
        rw [hplan _ _ this] at hmis
        cases hmis

/-- Witness of C10: on the Scenario A header with a source that holds only 700
of the 736 payload bytes, `convert_weights` returns 1 and its last call is a
read that came back short; with the full payload it returns 0. -/
theorem convert_weights_return_code_witness :
    (∃ w' s', convert_weights hostLE (buffersA hostLE) scenarioA (streamA 736 736)
      = .ret 0 w' s' ∧
      s'.trace = planEvents hostLE (transfers scenarioA 2)) ∧
    (∃ code w' s', convert_weights hostLE (buffersA hostLE) scenarioA (streamA 700 736)
      = .ret code w' s' ∧ (code = 0 ∨ code = 1)) := by
  constructor
  · obtain ⟨w', s', hr⟩ := convert_weights_scenarioA
    obtain ⟨calls, h1, _, _, _, h5⟩ :=
      (convert_weights_return_code hostLE (buffersA hostLE) scenarioA (streamA 736 736)).1
        0 w' s' hr
    refine ⟨w', s', hr, ?_⟩
    rw [h1, h5.mp rfl]
    rfl
  · obtain ⟨code, w', s', hr⟩ :=
      (convert_weights_return_code hostLE (buffersA hostLE) scenarioA (streamA 700 736)).2
        2 (by decide) rfl (by decide)
    obtain ⟨calls, _, h2, _⟩ :=
      (convert_weights_return_code hostLE (buffersA hostLE) scenarioA (streamA 700 736)).1
        code w' s' hr
    exact ⟨code, w', s', hr, h2⟩

/-! ## Valid files -/

/-- C3 (amended): for every input file whose header, once byte-swapped by
`convert_config`, has positive `dim`, `hidden_dim`, `n_layers`, `n_heads`,
`vocab_size` and `seq_len` and products `V*D`, `L*D*D`, `L*D*H`, `S*D` below
2^31, and which holds after the header exactly the thirteen tensor sections
with the element counts of section 3 evaluated on the byte-swapped header,
on a host that grants the thirteen buffers and with a destination that accepts
as many bytes as the file has, the conversion succeeds (exit status 0), the
output has exactly as many bytes as the input, and it is the input with every
4-byte element reversed. -/
theorem valid_file_converts (h : Host) (file : List Byte) (cap : Nat) (config : Config)
    (hc : headerOf h file = some config)
    (hpos : (convert_config h.endian config).Positive)
    (hsmall : (convert_config h.endian config).Small)
    (hmem : ∀ t, ∃ b, calloc h (toSizeT h (allocCount (convert_config h.endian config) t)) = some b)
    (hlen : file.length = 28 + 4 * totalCount (section3 (convert_config h.endian config)))
    (hcap : file.length ≤ cap) :
    ∃ s', main h file cap = .exit 0 s' ∧ s'.dst.length = file.length ∧
      s'.dst = swapWords file ∧ s'.src = [] := by
  have hno := noOverflow_of_small _ hpos hsmall
  have hsec := transfers_eq_section3 _ hno
  have hd := cdiv_of_pos (convert_config h.endian config).dim
    (convert_config h.endian config).n_heads hpos.2.2.2.1
  obtain ⟨s', h1, h2, h3, _⟩ := main_ok_of_counts h file cap config _ hc hd hmem
    (counts_fit h _ hpos hsmall) (by rw [hsec]; omega) (by rw [hsec]; omega)
  rw [hsec, ← hlen] at h2 h3
  rw [List.take_of_length_le (le_refl _)] at h3
  rw [List.drop_of_length_le (le_refl _)] at h2
  exact ⟨s', h1, by rw [h3, swapWords_length], h3, h2⟩

/-- Witness of C3 (amended): the file of Scenario A whose header reads
4, 8, 1, 2, 2, 2, 2 once byte-swapped, followed by 184 elements: 764 bytes in,
764 bytes out. -/
theorem valid_file_converts_witness :
    ∃ s', main hostLE (fileSwapped hostLE) 764 = .exit 0 s' ∧ s'.dst.length = 764 ∧
      s'.dst = swapWords (fileSwapped hostLE) := by
  have hcc : convert_config hostLE.endian (convert_config hostLE.endian scenarioA) = scenarioA :=
    convert_config_scenarioA _
  obtain ⟨s', h1, h2, h3, _⟩ := valid_file_converts hostLE (fileSwapped hostLE) 764
    (convert_config hostLE.endian scenarioA) (headerOf_fileSwapped hostLE)
    (by rw [hcc]; decide) (by rw [hcc]; decide)
    (by
      rw [hcc]
      intro t
      exact ⟨_, calloc_of_ok _ _ (by cases t <;> decide) (by cases t <;> decide)⟩)
    (by rw [hcc, fileSwapped_length]; decide)
    (by rw [fileSwapped_length])
  exact ⟨s', h1, by rw [h2, fileSwapped_length], h3⟩

/-- Counterexample to C3 as stated.  The file whose header the host reads as
Scenario A (all fields positive, 4 divisible by 2, 2 >= 2) followed by exactly
the 184 elements that section 3 gives for these fields is rejected: the counts
are computed from the byte-swapped header, which asks 67108864 elements for
`rms_final_weight`.  And when the invariants are read on the byte-swapped header
instead, the header 5120, 13824, 40, 40, 40, 32000, 2048 satisfies them, yet no
file with this header is converted, because the `int` product for `w1`
overflows to a negative count that `calloc` refuses. -/
theorem valid_file_rejected :
    (headerOf hostLE (fileNative hostLE) = some scenarioA ∧ scenarioA.Valid ∧
      (fileNative hostLE).length = 28 + 4 * totalCount (section3 scenarioA) ∧
      (main hostLE (fileNative hostLE) 764).status = some 1) ∧
    (bigHeader.Valid ∧ allocCount bigHeader .w1 = -1463812096 ∧
      ∀ (pl : List Byte) (cap : Nat), 28 ≤ cap →
        (main hostLE ((convert_config .little bigHeader).toBytes .little ++ pl) cap).status
          = some 1) := by
  refine ⟨⟨headerOf_fileNative hostLE, by decide, ?_, ?_⟩, by decide, by decide, ?_⟩
  · rw [fileNative_length]; decide
  · obtain ⟨s', hs, _⟩ := main_native hostLE (payload 736) (payload_length 736) rfl rfl
    exact status_of_exit _ 1 s' hs
  · intro pl cap hcap
    have hcc : convert_config hostLE.endian (convert_config .little bigHeader) = bigHeader :=
      convert_config_convert_config .little bigHeader (by decide)
    refine status_of_exit _ 1 _ (main_malloc_fail hostLE _ cap (convert_config .little bigHeader)
      .w1 (headerOf_append hostLE _ (convert_config_inRange _ _) pl) hcap ?_)
    rw [hcc]
    exact calloc_negative hostLE _ (by decide) (by decide)
/-! ## Round trip -/

/-- C2 (amended): whenever the conversion of a file succeeds and the conversion
of its output, by the same program on the same host, succeeds too, the second
output is, byte for byte, the initial part of the original file that the
second run consumed, as far as the second destination accepted it; it is the
whole original file when both runs consumed their whole input and both
destinations accepted as many bytes as the file has.  (That both runs succeed
does not follow from the invariants of section 3: the counts are computed from
the byte-swapped header.) -/
theorem round_trip_of_success (h : Host) (file : List Byte) (cap1 cap2 : Nat) (s1 s2 : World)
    (h1 : main h file cap1 = .exit 0 s1) (h2 : main h s1.dst cap2 = .exit 0 s2) :
    s2.dst = file.take s2.dst.length ∧
    s2.dst.length = min cap2 (s1.dst.length - s2.src.length) ∧
    (file.length ≤ cap1 → file.length ≤ cap2 → s1.src = [] → s2.src = [] → s2.dst = file) := by
  obtain ⟨c1, hs1, _, _, _, hsrc1, hr1, hd1, _⟩ := main_exit0_inv h file cap1 s1 h1
  obtain ⟨c2, hs2, _, _, _, hsrc2, hr2, hd2, _⟩ := main_exit0_inv h s1.dst cap2 s2 h2
  have hdvd1 : 4 ∣ 28 + 4 * totalCount (transfers (convert_config h.endian c1) hs1) :=
    ⟨7 + totalCount (transfers (convert_config h.endian c1) hs1), by omega⟩
  have hdvd2 : 4 ∣ 28 + 4 * totalCount (transfers (convert_config h.endian c2) hs2) :=
    ⟨7 + totalCount (transfers (convert_config h.endian c2) hs2), by omega⟩
  generalize 28 + 4 * totalCount (transfers (convert_config h.endian c1) hs1) = n1 at *
  generalize 28 + 4 * totalCount (transfers (convert_config h.endian c2) hs2) = n2 at *
  have hlen1 : s1.dst.length = min cap1 n1 := by
    rw [hd1, List.length_take, swapWords_length, List.length_take, Nat.min_eq_left hsrc1]
  have hn : n2 ≤ n1 := by omega
  have hn' : n2 ≤ cap1 := by omega
  have hdvd1' : 4 ∣ (file.take n1).length := by
    rw [List.length_take, Nat.min_eq_left hsrc1]; exact hdvd1
  have hpre : s1.dst.take n2 = swapWords (file.take n2) := by
    rw [hd1, List.take_take, Nat.min_eq_left hn', swapWords_take _ n2 hdvd2 hdvd1',
      List.take_take, Nat.min_eq_left hn]
  have hdst : s2.dst = file.take (min cap2 n2) := by
    rw [hd2, hpre, swapWords_swapWords, List.take_take]
  have hlen2 : s2.dst.length = min cap2 n2 := by
    rw [hdst, List.length_take]; omega
  have hsrclen : s2.src.length = s1.dst.length - n2 := by
    rw [hr2, List.length_drop]
  refine ⟨by rw [hlen2]; exact hdst, by rw [hlen2, hsrclen]; congr 1; omega, ?_⟩
  intro g1 g2 e1 e2
  rw [hr1] at e1
  rw [hr2] at e2
  have g3 : file.length ≤ n1 := List.drop_eq_nil_iff.mp e1
  have g4 : s1.dst.length ≤ n2 := List.drop_eq_nil_iff.mp e2
  rw [hdst, List.take_of_length_le (by omega)]

/-- Witness of C2 (amended): a file whose header reads the same in either byte
order (`dim = n_heads = 65792`, the other fields 0), followed by the 65792
elements of `rms_final_weight`, 263196 bytes in all.  Both conversions succeed
and consume their whole input, and the second output is the original file. -/
theorem round_trip_of_success_witness :
    ∃ s1 s2, main hostLE filePalindrome 263196 = .exit 0 s1 ∧
      main hostLE s1.dst 263196 = .exit 0 s2 ∧ s1.dst.length = 263196 ∧
      s2.dst = filePalindrome := by
  obtain ⟨s1, h1, e1, d1⟩ := main_palindrome (payload 263168) (payload_length _)
  obtain ⟨s2, h2, e2, _⟩ := main_palindrome (swapWords (payload 263168))
    (by rw [swapWords_length, payload_length])
  have hd : s1.dst = palindromeHeader.toBytes .little ++ swapWords (payload 263168) :=
    d1.trans swapWords_filePalindrome
  rw [← hd] at h2
  exact ⟨s1, s2, h1, h2, by rw [d1]; exact (swapWords_length _).trans filePalindrome_length,
    (round_trip_of_success hostLE filePalindrome 263196 263196 s1 s2 h1 h2).2.2
      (le_of_eq filePalindrome_length) (le_of_eq filePalindrome_length) e1 e2⟩

/-- Counterexample to C2 as stated.  On the little-endian sample host the
Scenario A file whose header reads 4, 8, 1, 2, 2, 2, 2 once byte-swapped is
converted, all 764 bytes of it, but the conversion of the result fails.  And on
the big-endian sample host the file whose header the host itself reads as
Scenario A, followed by exactly the thirteen sections of section 3, is not
converted at all. -/
theorem round_trip_fails :
    (∃ s1, main hostLE (fileSwapped hostLE) 764 = .exit 0 s1 ∧ s1.src = [] ∧
      s1.dst.length = 764 ∧ (main hostLE s1.dst 764).status = some 1) ∧
    (headerOf hostBE (fileNative hostBE) = some scenarioA ∧ scenarioA.Valid ∧
      (fileNative hostBE).length = 28 + 4 * totalCount (section3 scenarioA) ∧
      (main hostBE (fileNative hostBE) 764).status = some 1) := by
  constructor
  · obtain ⟨s1, h1, h2, h3, _⟩ := main_fileSwapped
    refine ⟨s1, h1, h2, by rw [h3, swapWords_length, fileSwapped_length], ?_⟩
    rw [h3, swapWords_fileSwapped]
    obtain ⟨s', hs, _⟩ := main_native hostLE (swapWords (payload 736))
      (by rw [swapWords_length, payload_length]) rfl rfl
    exact status_of_exit _ 1 s' hs
  · refine ⟨headerOf_fileNative hostBE, by decide, by rw [fileNative_length]; decide, ?_⟩
    obtain ⟨s', hs, _⟩ := main_native hostBE (payload 736) (payload_length 736) rfl rfl
    exact status_of_exit _ 1 s' hs

/-! ## Where the counts come from -/

/-- C5 (amended): in every run of `main` that exits, for every header `config`
read from the file, the count of every library call is computed from the
byte-swapped record `convert_config config`, not from `config`: every `fread`,
`fabyteswap` and `fwrite` uses the section 3 formula of its tensor, evaluated
in `int` arithmetic on `convert_config config` (and equal to the exact formula
when no product overflows); every `calloc` uses that same value for the first
eleven tensors, and `seq_len * dim / 2` of `convert_config config` for
`freq_cis_real` and `freq_cis_imag`. -/
theorem counts_from_swapped_header (h : Host) (file : List Byte) (cap : Nat) (config : Config)
    (code : Int) (s' : World) (hc : headerOf h file = some config)
    (hrun : main h file cap = .exit code s') :
    (∀ e ∈ s'.trace, e.countsFrom h (convert_config h.endian config)) ∧
    (∀ hs, transfers (convert_config h.endian config) hs
      = tensorOrder.map (fun t => (t, readCount (convert_config h.endian config) hs t))) ∧
    (NoOverflow (convert_config h.endian config) →
      transfers (convert_config h.endian config)
        (Int.tdiv (convert_config h.endian config).dim (convert_config h.endian config).n_heads)
        = section3 (convert_config h.endian config)) ∧
    (∀ hs t, t ≠ .freq_cis_real ∧ t ≠ .freq_cis_imag →
      allocCount (convert_config h.endian config) t
        = readCount (convert_config h.endian config) hs t) ∧
    allocCount (convert_config h.endian config) .freq_cis_real
      = Int.tdiv (imul (convert_config h.endian config).seq_len
          (convert_config h.endian config).dim) 2 ∧
    allocCount (convert_config h.endian config) .freq_cis_imag
      = Int.tdiv (imul (convert_config h.endian config).seq_len
          (convert_config h.endian config).dim) 2 :=
  ⟨main_counts h file cap config code s' hc hrun, fun _ => rfl, transfers_eq_section3 _,
    fun hs t ht => allocCount_eq_readCount _ hs t ht, rfl, rfl⟩

/-- Witness of C5 (amended): the Scenario A file on the sample host.  The
header as read is 67108864, 134217728, ...; the calls use the counts of its
byte-swapped form 4, 8, 1, 2, 2, 2, 2: 8 elements are read for
`token_embedding_table`, where the header as read would give the count 0. -/
theorem counts_from_swapped_header_witness :
    ∃ s', main hostLE (fileSwapped hostLE) 764 = .exit 0 s' ∧
      (∀ e ∈ s'.trace, e.countsFrom hostLE scenarioA) ∧
      Event.fread .token_embedding_table 8 8 ∈ s'.trace ∧
      readCount (convert_config .little scenarioA) 2 .token_embedding_table = 0 := by
  obtain ⟨s', h1, _, _, h4⟩ := main_fileSwapped
  have hcc : convert_config hostLE.endian (convert_config hostLE.endian scenarioA) = scenarioA :=
    convert_config_scenarioA _
  have h5 := (counts_from_swapped_header hostLE (fileSwapped hostLE) 764
    (convert_config hostLE.endian scenarioA) 0 s' (headerOf_fileSwapped hostLE) h1).1
  rw [hcc] at h5
  refine ⟨s', h1, h5, ?_, by decide⟩
  rw [h4]
  decide

/-- Counterexample to C5 as stated: in the conversion of the Scenario A file the
buffer of `freq_cis_real` is requested with 4 elements, `seq_len * dim / 2`,
while the section 3 formula `seq_len * head_size / 2` on the same byte-swapped
header gives 2, the count that is then read into it. -/
theorem buffer_size_differs_from_section3 :
    ∃ s', main hostLE (fileSwapped hostLE) 764 = .exit 0 s' ∧
      headerOf hostLE (fileSwapped hostLE) = some (convert_config .little scenarioA) ∧
      convert_config .little (convert_config .little scenarioA) = scenarioA ∧
      (Tensor.freq_cis_real, (2 : Int)) ∈ section3 scenarioA ∧
      Event.calloc .freq_cis_real 4 true ∈ s'.trace ∧
      Event.fread .freq_cis_real 2 2 ∈ s'.trace := by
  obtain ⟨s', h1, _, _, h4⟩ := main_fileSwapped
  refine ⟨s', h1, headerOf_fileSwapped hostLE, convert_config_scenarioA _, by decide, ?_, ?_⟩
  · rw [h4]; decide
  · rw [h4]; decide

/-! ## Short reads -/

/-- C15: for every `int` value `x` with `0 < x < 65536`, on a little-endian
host (and on a big-endian one as well), `ibyteswap x` is
`(x mod 256) * 2^24 + (x div 256) * 2^16` reduced to signed 32-bit; it is
negative or at least 65536, and so never equal to `x`. -/
theorem swap_of_small_dimension (e : Endian) (x : Int) (h0 : 0 < x) (h1 : x < 65536) :
    ibyteswap e x = wrap32 (x % 256 * 16777216 + x / 256 * 65536) ∧
    (ibyteswap e x < 0 ∨ 65536 ≤ ibyteswap e x) ∧
    ibyteswap e x ≠ x := by
  have hv := ibyteswap_small e x h0 h1
  have ha0 : 0 ≤ x % 256 := Int.emod_nonneg x (by decide)
  have ha1 : x % 256 < 256 := Int.emod_lt_of_pos x (by decide)
  have hq0 : 0 ≤ x / 256 := Int.ediv_nonneg (le_of_lt h0) (by decide)
  have hq1 : x / 256 < 256 := Int.ediv_lt_of_lt_mul (by decide) (by omega)
  have hx : x = 256 * (x / 256) + x % 256 := (Int.ediv_add_emod x 256).symm
  have hb : ibyteswap e x < 0 ∨ 65536 ≤ ibyteswap e x := by
    rw [hv]
    generalize x % 256 = a at *
    generalize x / 256 = q at *
    clear hv
    unfold wrap32
    omega
  exact ⟨hv, hb, by omega⟩

/-- Witness of C15: a dimension of 300 becomes 738263040, and 128 becomes
`INT_MIN`. -/
theorem swap_of_small_dimension_witness :
    ibyteswap .little 300 = 738263040 ∧ ibyteswap .little 128 = -2147483648 ∧
    (ibyteswap .little 300 < 0 ∨ 65536 ≤ ibyteswap .little 300) ∧
    ibyteswap .little 300 ≠ 300 :=
  ⟨by decide, by decide,
    (swap_of_small_dimension .little 300 (by decide) (by decide)).2.1,
    (swap_of_small_dimension .little 300 (by decide) (by decide)).2.2⟩

/-- C16: `fabyteswap(f, size)`, for a buffer that holds at least `size`
elements, returns the buffer `f` with every element at an index `idx`,
`0 <= idx < size`, replaced by `fbyteswap` of it; the elements at the indexes
from `size` on and the length of the buffer are unchanged; and for `size <= 0`
the buffer is returned as it is. -/
theorem fabyteswap_in_place (f : List CFloat) (size : Int) (hsize : size.toNat ≤ f.length) :
    ∃ g, fabyteswap f size = .ok g ∧ g.length = f.length ∧
      (∀ idx : Nat, (idx : Int) < size → g[idx]? = f[idx]?.map fbyteswap) ∧
      (∀ idx : Nat, size ≤ (idx : Int) → g[idx]? = f[idx]?) ∧
      (size ≤ 0 → g = f) := by
  obtain ⟨g, hg, hlen, hpt⟩ := fabyteswap_loop_spec size.toNat 0 f (by omega)
  refine ⟨g, hg, hlen, ?_, ?_, ?_⟩
  · intro idx hidx
    rw [hpt idx, if_pos ⟨Nat.zero_le _, by omega⟩]
  · intro idx hidx
    rw [hpt idx, if_neg (by omega)]
  · intro h0
    have hz : size.toNat = 0 := by omega
    rw [hz] at hg
    have : fabyteswap_loop 0 0 f = .ok f := rfl
    rw [this] at hg
    injection hg with hg
    exact hg.symm

/-- Witness of C16: a swap of the first two elements of a buffer of three; the
third element is left as it is. -/
theorem fabyteswap_in_place_witness :
    ∃ g, fabyteswap [⟨⟨1, 2, 3, 4⟩⟩, ⟨⟨5, 6, 7, 8⟩⟩, ⟨⟨9, 10, 11, 12⟩⟩] 2 = .ok g ∧
      g.length = 3 ∧ g[0]? = some ⟨⟨4, 3, 2, 1⟩⟩ ∧ g[1]? = some ⟨⟨8, 7, 6, 5⟩⟩ ∧
      g[2]? = some ⟨⟨9, 10, 11, 12⟩⟩ := by
  obtain ⟨g, h1, h2, h3, h4, _⟩ :=
    fabyteswap_in_place [⟨⟨1, 2, 3, 4⟩⟩, ⟨⟨5, 6, 7, 8⟩⟩, ⟨⟨9, 10, 11, 12⟩⟩] 2 (by decide)
  exact ⟨g, h1, h2, h3 0 (by decide), h3 1 (by decide), h4 2 (by decide)⟩

/-! ## Buffers -/

/-- C13 (amended): for every header and every call of `malloc_weights` that
returns, the buffer of each tensor has exactly as many elements as
`malloc_weights` requests for it; for each of the first eleven tensors this is
the element count `n` that `convert_weights` reads and writes for the tensor;
for `freq_cis_real` and `freq_cis_imag` it is `seq_len * dim / 2`, not the
count `n = seq_len * (dim / n_heads) / 2` read and written. -/
theorem buffer_sizes (h : Host) (p : Config) (s : World) (w : TransformerWeights) (s' : World)
    (hm : malloc_weights h p s = (some w, s')) :
    (∀ t, (w.get t).length = toSizeT h (allocCount p t)) ∧
    (∀ hs t, t ≠ .freq_cis_real ∧ t ≠ .freq_cis_imag →
      (w.get t).length = toSizeT h (readCount p hs t)) ∧
    (∀ hs x, x ∈ firstEleven p → x ∈ transfers p hs ∧ (w.get x.1).length = toSizeT h x.2) ∧
    w.freq_cis_real.length = toSizeT h (Int.tdiv (imul p.seq_len p.dim) 2) ∧
    w.freq_cis_imag.length = toSizeT h (Int.tdiv (imul p.seq_len p.dim) 2) := by
  have hlen := malloc_weights_length h p s w s' hm
  refine ⟨hlen, ?_, ?_, hlen .freq_cis_real, hlen .freq_cis_imag⟩
  · intro hs t ht
    rw [hlen t, allocCount_eq_readCount p hs t ht]
  · intro hs x hx
    obtain ⟨e1, e2⟩ := mem_firstEleven p hs x hx
    exact ⟨e2, by rw [hlen x.1, e1]⟩

/-- Witness of C13 (amended): the buffers for the Scenario A header: 8 elements
for `token_embedding_table`, 32 for `w1`, 4 for `freq_cis_real`. -/
theorem buffer_sizes_witness :
    ∃ w s', malloc_weights hostLE scenarioA (streamA 736 736) = (some w, s') ∧
      w.token_embedding_table.length = 8 ∧ w.w1.length = 32 ∧ w.freq_cis_real.length = 4 := by
  obtain ⟨w, hw⟩ := malloc_weights_ok hostLE scenarioA (streamA 736 736)
    (fun t => ⟨_, calloc_of_ok _ _ (by cases t <;> decide) (by cases t <;> decide)⟩)
  obtain ⟨h1, _, _, h4, _⟩ := buffer_sizes hostLE scenarioA (streamA 736 736) w _ hw
  exact ⟨w, _, hw, h1 .token_embedding_table, h1 .w1, h4⟩

/-- Counterexample to C13 as stated: for the Scenario A header the buffer of
`freq_cis_real` has 4 elements, while the count read and written for it,
`seq_len * (dim / n_heads) / 2`, is 2. -/
theorem freq_cis_buffer_larger_than_count :
    ∃ w s', malloc_weights hostLE scenarioA (streamA 736 736) = (some w, s') ∧
      (w.get .freq_cis_real).length = 4 ∧
      cdiv scenarioA.dim scenarioA.n_heads = .ok 2 ∧
      (Tensor.freq_cis_real, (2 : Int)) ∈ transfers scenarioA 2 ∧
      scenarioA.seq_len * (scenarioA.dim / scenarioA.n_heads) / 2 = 2 := by
  obtain ⟨w, hw⟩ := malloc_weights_ok hostLE scenarioA (streamA 736 736)
    (fun t => ⟨_, calloc_of_ok _ _ (by cases t <;> decide) (by cases t <;> decide)⟩)
  refine ⟨w, _, hw, ?_, rfl, by decide, by decide⟩
  rw [malloc_weights_length hostLE scenarioA _ w _ hw .freq_cis_real]
  decide

/-- C17: for every header of `int` values with all fields positive and all
products below 2^31, each of the thirteen buffers that `malloc_weights`
allocates holds at least as many elements as `convert_weights` reads into it
and swaps in it.  In particular `seq_len * dim / 2`, allocated for
`freq_cis_real` and `freq_cis_imag`, is at least
`seq_len * (dim / n_heads) / 2`, which is read into them, and
`n_layers * hidden_dim * dim`, allocated for `w1` and `w3`, equals
`n_layers * dim * hidden_dim`, which is read; so `convert_weights` returns
without a read or swap past the end of a buffer. -/
theorem buffers_hold_the_counts (h : Host) (p : Config) (s : World) (w : TransformerWeights)
    (s' : World) (hr : p.InRange) (hpos : p.Positive) (hsmall : p.Small)
    (hm : malloc_weights h p s = (some w, s')) :
    (∀ x ∈ transfers p (Int.tdiv p.dim p.n_heads),
      0 ≤ x.2 ∧ toSizeT h x.2 ≤ (w.get x.1).length) ∧
    Int.tdiv (p.seq_len * Int.tdiv p.dim p.n_heads) 2 ≤ Int.tdiv (p.seq_len * p.dim) 2 ∧
    readCount p (Int.tdiv p.dim p.n_heads) .freq_cis_real ≤ allocCount p .freq_cis_real ∧
    readCount p (Int.tdiv p.dim p.n_heads) .freq_cis_imag ≤ allocCount p .freq_cis_imag ∧
    allocCount p .w1 = readCount p (Int.tdiv p.dim p.n_heads) .w1 ∧
    allocCount p .w3 = readCount p (Int.tdiv p.dim p.n_heads) .w3 ∧
    allocCount p .w1 = p.n_layers * p.hidden_dim * p.dim ∧
    readCount p (Int.tdiv p.dim p.n_heads) .w1 = p.n_layers * p.dim * p.hidden_dim ∧
    (∀ s0, ∃ code w' s1, convert_weights h w p s0 = .ret code w' s1) := by
  have hfit := counts_fit h p hpos hsmall
  have hrange := transfers_inInt32 p hr (Int.tdiv p.dim p.n_heads)
  have hlen := malloc_weights_length h p s w s' hm
  have hno := noOverflow_of_small p hpos hsmall
  have hbuf : ∀ x ∈ transfers p (Int.tdiv p.dim p.n_heads),
      0 ≤ x.2 ∧ toSizeT h x.2 ≤ (w.get x.1).length := by
    intro x hx
    obtain ⟨h0, h1⟩ := hfit x hx
    rw [toSizeT_of_nonneg h x.2 h0 (hrange x hx).2, hlen x.1]
    exact ⟨h0, h1⟩
  obtain ⟨hD, hH, hL, hN, hV, hS⟩ := hpos
  obtain ⟨_, _, h3, h4⟩ := hsmall
  obtain ⟨hs0, hs1⟩ := tdiv_nonneg_le p.dim p.n_heads (le_of_lt hD) hN
  have e4 : p.seq_len * Int.tdiv p.dim p.n_heads ≤ p.seq_len * p.dim :=
    mul_le_mul_of_nonneg_left hs1 (le_of_lt hS)
  have e5 : 0 ≤ p.seq_len * Int.tdiv p.dim p.n_heads := mul_nonneg (le_of_lt hS) hs0
  have hSD0 : 0 < p.seq_len * p.dim := mul_pos hS hD
  have hexact : Int.tdiv (p.seq_len * Int.tdiv p.dim p.n_heads) 2
      ≤ Int.tdiv (p.seq_len * p.dim) 2 := by
    rw [tdiv_two, tdiv_two, if_pos e5, if_pos (le_of_lt hSD0)]
    omega
  have hfreq : Int.tdiv (imul p.seq_len (Int.tdiv p.dim p.n_heads)) 2
      ≤ Int.tdiv (imul p.seq_len p.dim) 2 := by
    unfold imul
    rw [wrap32_of_inInt32 _ hno.2.2.2.2.2.2, wrap32_of_inInt32 _ ⟨by omega, h4⟩]
    exact hexact
  obtain ⟨x1, x2⟩ := imul_imul_exact p.n_layers p.dim p.hidden_dim hL hD hH h3
  have hcomm : p.n_layers * p.hidden_dim * p.dim = p.n_layers * p.dim * p.hidden_dim := by ring
  refine ⟨hbuf, hexact, hfreq, hfreq, imul_right_comm _ _ _, imul_right_comm _ _ _,
    by rw [hcomm]; exact x2, x1, fun s0 => ?_⟩
  exact convert_weights_returns h w p s0 _ hr (cdiv_of_pos _ _ hN) (fun x hx => (hbuf x hx).2)

/-- Witness of C17: the buffers of the Scenario A header hold the counts of
Scenario A, and `convert_weights` returns on them. -/
theorem buffers_hold_the_counts_witness :
    ∃ w s', malloc_weights hostLE scenarioA (streamA 736 736) = (some w, s') ∧
      (2 : Int) ≤ allocCount scenarioA .freq_cis_real ∧
      ∃ code w' s1, convert_weights hostLE w scenarioA (streamA 736 736) = .ret code w' s1 := by
  obtain ⟨w, hw⟩ := malloc_weights_ok hostLE scenarioA (streamA 736 736)
    (fun t => ⟨_, calloc_of_ok _ _ (by cases t <;> decide) (by cases t <;> decide)⟩)
  obtain ⟨_, _, h3, _, _, _, _, _, h9⟩ := buffers_hold_the_counts hostLE scenarioA
    (streamA 736 736) w _ (by decide) (by decide) (by decide) hw
  exact ⟨w, _, hw, h3, h9 _⟩

/-! ## Bytes after the last tensor -/

/-- C18: `main` never checks for the end of the input after the last tensor.
For every file that is converted successfully and every run of extra bytes
added at its end, the conversion of the longer file succeeds too, makes the
same library calls (the write of the header and the thirteen writes of the
element counts, which report `28 + 4 * (sum of the thirteen element counts)`
bytes written)
and leaves exactly the same destination bytes, namely the byte-reversed first
`28 + 4 * (sum of the thirteen element counts)` bytes of the input as far as
the device accepted them (all of them when it accepts that many); the added
bytes are left unread, so when there are any the output is shorter than the
input. -/
theorem trailing_bytes_ignored (h : Host) (file extra : List Byte) (cap : Nat) (s' : World)
    (hrun : main h file cap = .exit 0 s') :
    ∃ s2, main h (file ++ extra) cap = .exit 0 s2 ∧
      s2.dst = s'.dst ∧ s2.trace = s'.trace ∧ s2.src = s'.src ++ extra ∧
      (∃ config hs, headerOf h (file ++ extra) = some config ∧
        cdiv (convert_config h.endian config).dim (convert_config h.endian config).n_heads
          = .ok hs ∧
        s2.trace = successTrace h (convert_config h.endian config) hs ∧
        bytesWritten s2.trace
          = 28 + 4 * totalCount (transfers (convert_config h.endian config) hs) ∧
        s2.dst = (swapWords ((file ++ extra).take
          (28 + 4 * totalCount (transfers (convert_config h.endian config) hs)))).take cap ∧
        s2.dst.length
          = min cap (28 + 4 * totalCount (transfers (convert_config h.endian config) hs)) ∧
        (28 + 4 * totalCount (transfers (convert_config h.endian config) hs) ≤ cap →
          s2.dst.length = 28 + 4 * totalCount (transfers (convert_config h.endian config) hs) ∧
          s2.dst.length + s'.src.length + extra.length = (file ++ extra).length)) ∧
      s2.dst.length + s'.src.length + extra.length ≤ (file ++ extra).length ∧
      (extra ≠ [] → s2.dst.length < (file ++ extra).length) := by
  obtain ⟨config, hs, hc, hd, hnn, hsrc, hs1, hs2, hs3⟩ := main_exit0_inv h file cap s' hrun
  obtain ⟨config', hs', hc', hd', hmem, hfit⟩ := main_exit0_alloc h file cap s' hrun
  rw [hc] at hc'
  injection hc' with hc'
  subst hc'
  rw [hd] at hd'
  injection hd' with hd'
  subst hd'
  obtain ⟨config', hs', hc', hd', hcount, hrep⟩ := main_exit0_reported h file cap s' hrun
  rw [hc] at hc'
  injection hc' with hc'
  subst hc'
  rw [hd] at hd'
  injection hd' with hd'
  subst hd'
  have hlen28 := headerOf_length h file config hc
  have hcx : headerOf h (file ++ extra) = some config := by
    rw [headerOf_append_of_le h file extra hlen28, hc]
  obtain ⟨s2, g1, g2, g3, g4⟩ := main_ok_reported h (file ++ extra) cap config hs hcx hd hmem
    hfit (by rw [List.length_append]; omega) hcount hrep
  have hdst : s2.dst = s'.dst := by
    rw [g3, hs2, List.take_append_of_le_length hsrc]
  have hdlen : s2.dst.length
      = min cap (28 + 4 * totalCount (transfers (convert_config h.endian config) hs)) := by
    rw [hdst, hs2, List.length_take, swapWords_length, List.length_take, Nat.min_eq_left hsrc]
  have hslen : s'.src.length
      = file.length - (28 + 4 * totalCount (transfers (convert_config h.endian config) hs)) := by
    rw [hs1, List.length_drop]
  have hbw := (bytes_successTrace h (convert_config h.endian config) hs
    (fun x hx => ⟨hnn x hx, (transfers_inInt32 _ (convert_config_inRange _ _) hs x hx).2⟩)).2
  rw [← g4] at hbw
  refine ⟨s2, g1, hdst, by rw [g4, hs3], ?_, ⟨config, hs, hcx, hd, g4, hbw, g3, hdlen, ?_⟩, ?_, ?_⟩
  · rw [g2, hs1, List.drop_append_of_le_length hsrc]
  · intro hcap
    rw [hdlen, hslen, List.length_append]
    omega
  · rw [hdlen, hslen, List.length_append]
    omega
  · intro hne
    have : 0 < extra.length := List.length_pos.mpr hne
    rw [hdlen, List.length_append]
    omega

/-- Witness of C18: the Scenario A file with 5 more bytes at its end: 769 bytes
in, the same 764 bytes out. -/
theorem trailing_bytes_ignored_witness :
    ∃ s' s2, main hostLE (fileSwapped hostLE) 764 = .exit 0 s' ∧
      main hostLE (fileSwapped hostLE ++ [1, 2, 3, 4, 5]) 764 = .exit 0 s2 ∧
      s2.dst = s'.dst ∧ s2.dst.length = 764 ∧ s2.src = [1, 2, 3, 4, 5] ∧
      (fileSwapped hostLE ++ [1, 2, 3, 4, 5]).length = 769 := by
  obtain ⟨s', h1, h2, h3, _⟩ := main_fileSwapped
  obtain ⟨s2, g1, g2, _, g4, _, _, _⟩ :=
    trailing_bytes_ignored hostLE (fileSwapped hostLE) [1, 2, 3, 4, 5] 764 s' h1
  refine ⟨s', s2, h1, g1, g2, ?_, ?_, ?_⟩
  · rw [g2, h3, swapWords_length, fileSwapped_length]
  · rw [g4, h2]
    rfl
  · rw [List.length_append, fileSwapped_length]
    rfl

/-! ## The field `n_kv_heads` -/

/-- C20: `n_kv_heads` influences nothing but its own header word.  For every
header `c` of `int` values, every other value `k` of `n_kv_heads` and every
byte stream `rest` that follows the header, the conversions of the two files
end alike (the same exit status or the same fault), make the same library
calls with the same counts, compute the same thirteen element counts and the
same buffer sizes (`wk` and `wv` are `n_layers * dim * dim`), and write
destination files of the same length that agree in every byte except bytes 16
to 19, the word of `n_kv_heads`. -/
theorem n_kv_heads_noninterference (h : Host) (c : Config) (k : Int) (rest : List Byte)
    (cap : Nat) (hc : c.InRange) (hk : InInt32 k) :
    (main h (c.toBytes h.endian ++ rest) cap).status
      = (main h (({ c with n_kv_heads := k } : Config).toBytes h.endian ++ rest) cap).status ∧
    (main h (c.toBytes h.endian ++ rest) cap).faulted
      = (main h (({ c with n_kv_heads := k } : Config).toBytes h.endian ++ rest) cap).faulted ∧
    (main h (c.toBytes h.endian ++ rest) cap).calls
      = (main h (({ c with n_kv_heads := k } : Config).toBytes h.endian ++ rest) cap).calls ∧
    (∀ hs, transfers (convert_config h.endian c) hs
      = transfers (convert_config h.endian { c with n_kv_heads := k }) hs) ∧
    (∀ t, allocCount (convert_config h.endian c) t
      = allocCount (convert_config h.endian { c with n_kv_heads := k }) t) ∧
    (∀ hs, (Tensor.wk, imul (imul (convert_config h.endian c).n_layers
        (convert_config h.endian c).dim) (convert_config h.endian c).dim)
          ∈ transfers (convert_config h.endian { c with n_kv_heads := k }) hs ∧
      (Tensor.wv, imul (imul (convert_config h.endian c).n_layers
        (convert_config h.endian c).dim) (convert_config h.endian c).dim)
          ∈ transfers (convert_config h.endian { c with n_kv_heads := k }) hs) ∧
    (main h (c.toBytes h.endian ++ rest) cap).output.length
      = (main h (({ c with n_kv_heads := k } : Config).toBytes h.endian ++ rest) cap).output.length ∧
    (main h (c.toBytes h.endian ++ rest) cap).output.take 16
      = ((main h (({ c with n_kv_heads := k } : Config).toBytes h.endian ++ rest) cap).output).take
          16 ∧
    (main h (c.toBytes h.endian ++ rest) cap).output.drop 20
      = ((main h (({ c with n_kv_heads := k } : Config).toBytes h.endian ++ rest) cap).output).drop
          20 := by
  have hc2 : ({ c with n_kv_heads := k } : Config).InRange :=
    ⟨hc.1, hc.2.1, hc.2.2.1, hc.2.2.2.1, hk, hc.2.2.2.2.2.1, hc.2.2.2.2.2.2⟩
  have hh1 := headerOf_append h c hc rest
  have hh2 := headerOf_append h _ hc2 rest
  have hcc := convert_config_kv h.endian c k
  obtain ⟨ht, hd⟩ := toBytes_kv h.endian (convert_config h.endian c) (ibyteswap h.endian k)
  have hcounts : (∀ hs, transfers (convert_config h.endian c) hs
        = transfers (convert_config h.endian { c with n_kv_heads := k }) hs) ∧
      (∀ t, allocCount (convert_config h.endian c) t
        = allocCount (convert_config h.endian { c with n_kv_heads := k }) t) := by
    rw [hcc]
    exact ⟨fun hs => (transfers_kv _ _ hs).symm, fun t => (allocCount_kv _ _ t).symm⟩
  have hmem : ∀ hs, (Tensor.wk, imul (imul (convert_config h.endian c).n_layers
        (convert_config h.endian c).dim) (convert_config h.endian c).dim)
          ∈ transfers (convert_config h.endian { c with n_kv_heads := k }) hs ∧
      (Tensor.wv, imul (imul (convert_config h.endian c).n_layers
        (convert_config h.endian c).dim) (convert_config h.endian c).dim)
          ∈ transfers (convert_config h.endian { c with n_kv_heads := k }) hs := by
    intro hs
    rw [← hcounts.1 hs]
    exact mem_transfers_wk_wv _ hs
  by_cases hcount : fwrite_count h 0 28 1 cap = 1
  · have e1 := main_eq_body h _ cap c hh1 hcount
    have e2 := main_eq_body h _ cap _ hh2 hcount
    rw [List.drop_left' (toBytes_length _ _), List.take_left' (toBytes_length _ _),
      ← toBytes_convert_config] at e1 e2
    rw [hcc, convertBody_kv] at e2
    obtain ⟨r, r1, r2⟩ := convertBody_prepend h (convert_config h.endian c)
      { src := rest, dst := [], cap := cap, trace := [.fread_config 1, .fwrite_config 1] }
      ((convert_config h.endian c).toBytes h.endian)
      (({ convert_config h.endian c with n_kv_heads := ibyteswap h.endian k } :
        Config).toBytes h.endian)
      (by rw [toBytes_length, toBytes_length])
    rw [r1] at e1
    rw [r2] at e2
    rw [e1, e2]
    obtain ⟨o1, o2, o3⟩ := output_prepend_kv r
      ((convert_config h.endian c).toBytes h.endian)
      (({ convert_config h.endian c with n_kv_heads := ibyteswap h.endian k } :
        Config).toBytes h.endian)
      (toBytes_length _ _) (toBytes_length _ _) ht.symm hd.symm
    refine ⟨?_, ?_, ?_, hcounts.1, hcounts.2, hmem, o1, o2, o3⟩
    · rw [status_prepend, status_prepend]
    · rw [faulted_prepend, faulted_prepend]
    · rw [calls_prepend, calls_prepend]
  · have e1 := main_header_reported h _ cap c hh1 hcount
    have e2 := main_header_reported h _ cap _ hh2 hcount
    rw [hcc] at e2
    rw [status_of_exit _ 1 _ e1, status_of_exit _ 1 _ e2, faulted_of_exit _ 1 _ e1,
      faulted_of_exit _ 1 _ e2, calls_of_exit _ 1 _ e1, calls_of_exit _ 1 _ e2,
      output_of_exit _ 1 _ e1, output_of_exit _ 1 _ e2]
    refine ⟨rfl, rfl, by simp only, hcounts.1, hcounts.2, hmem, ?_, ?_, ?_⟩
    · simp only [List.length_take, toBytes_length]
    · rw [List.take_take, List.take_take, Nat.min_comm, ← List.take_take, ← List.take_take, ht]
    · rw [List.drop_take, List.drop_take, hd]

/-- Witness of C20: the Scenario A file and the same file with `n_kv_heads`
changed from 2 to 1 (as the program reads the header): both conversions exit
with status 0 and the outputs agree outside bytes 16 to 19. -/
theorem n_kv_heads_noninterference_witness :
    (main hostLE (fileSwapped hostLE) 764).status = some 0 ∧
    (main hostLE (({ convert_config .little scenarioA with n_kv_heads := 16777216 } :
      Config).toBytes .little ++ payload 736) 764).status = some 0 ∧
    (main hostLE (fileSwapped hostLE) 764).output.drop 20
      = ((main hostLE (({ convert_config .little scenarioA with n_kv_heads := 16777216 } :
          Config).toBytes .little ++ payload 736) 764).output).drop 20 := by
  obtain ⟨s', h1, _⟩ := main_fileSwapped
  have hw := n_kv_heads_noninterference hostLE (convert_config .little scenarioA) 16777216
    (payload 736) 764 (convert_config_inRange _ _) (by decide)
  have hs : (main hostLE (fileSwapped hostLE) 764).status = some 0 := status_of_exit _ 0 s' h1
  exact ⟨hs, hw.1.symm.trans hs, hw.2.2.2.2.2.2.2.2⟩

/-! ## Lifetime of the buffers -/

/-- C12 (amended): malformed headers are not rejected.  For every header for
which `head_size = dim / n_heads` can be computed on the byte-swapped record
(`n_heads` is not 0, and not `INT_MIN / -1`) and for which the count requested
for `freq_cis_real` and `freq_cis_imag` is within their buffers, and for every
source stream, the conversion ends with exit status 0 or 1: with status 0 the
output is the byte-swapped initial part of the input that was read, as far as
the destination device accepted it (all of it when the device accepts that
many bytes); with status 1 one library call failed, which is a write of the
header that was reported short, a refused allocation, or a short read or write
of a tensor. -/
theorem malformed_header_outcome (h : Host) (file : List Byte) (cap : Nat) (config : Config)
    (hc : headerOf h file = some config)
    (hdiv : ∃ hs, cdiv (convert_config h.endian config).dim
      (convert_config h.endian config).n_heads = .ok hs)
    (hfit : toSizeT h (Int.tdiv (imul (convert_config h.endian config).seq_len
        (Int.tdiv (convert_config h.endian config).dim
          (convert_config h.endian config).n_heads)) 2)
      ≤ toSizeT h (allocCount (convert_config h.endian config) .freq_cis_real)) :
    ∃ code s', main h file cap = .exit code s' ∧ (code = 0 ∨ code = 1) ∧
      (code = 0 → s'.src.length ≤ file.length ∧
        s'.dst = (swapWords (file.take (file.length - s'.src.length))).take cap ∧
        (file.length - s'.src.length ≤ cap →
          s'.dst.length ≤ file.length ∧ s'.dst = swapWords (file.take s'.dst.length))) ∧
      (code = 1 → ∃ e ∈ s'.trace, e.failed = true) := by
  obtain ⟨code, s', hrun⟩ := main_total h file cap config hc hdiv hfit
  refine ⟨code, s', hrun, ?_⟩
  by_cases hcount : fwrite_count h 0 28 1 cap = 1
  swap
  · rw [main_header_reported h file cap config hc hcount] at hrun
    injection hrun with e1 e2
    subst e1 e2
    exact ⟨Or.inr rfl, fun h0 => absurd h0 (by decide), fun _ => ⟨.fwrite_config 0, by simp, rfl⟩⟩
  · obtain ⟨hcode, _, _, _, h3⟩ := main_exit_trace h file cap config code s' hc hcount hrun
    refine ⟨hcode, fun h0 => ?_, fun h1 => (h3 (by omega)).2⟩
    subst h0
    obtain ⟨c1, hs, _, _, _, hsrc, hs1, hdst, _⟩ := main_exit0_inv h file cap s' hrun
    have hslen : file.length - s'.src.length
        = 28 + 4 * totalCount (transfers (convert_config h.endian c1) hs) := by
      rw [hs1, List.length_drop]
      omega
    rw [hslen]
    refine ⟨by rw [hs1, List.length_drop]; omega, hdst, fun hcap => ?_⟩
    have hfull : s'.dst = swapWords (file.take
        (28 + 4 * totalCount (transfers (convert_config h.endian c1) hs))) := by
      rw [hdst, List.take_of_length_le
        (by rw [swapWords_length, List.length_take, Nat.min_eq_left hsrc]; exact hcap)]
    have hlen : s'.dst.length = 28 + 4 * totalCount (transfers (convert_config h.endian c1) hs) := by
      rw [hfull, swapWords_length, List.length_take, Nat.min_eq_left hsrc]
    rw [hlen]
    exact ⟨hsrc, hfull⟩

/-- Witness of C12 (amended): a header with `hidden_dim = -1`: the conversion
ends with status 1 and a library call that failed. -/
theorem malformed_header_outcome_witness :
    ∃ code s', main hostLE ((convert_config .little hiddenNegative).toBytes .little
        ++ payload 736) 764 = .exit code s' ∧
      (code = 0 ∨ code = 1) ∧ (code = 1 → ∃ e ∈ s'.trace, e.failed = true) := by
  have hcc : convert_config hostLE.endian (convert_config .little hiddenNegative)
      = hiddenNegative := convert_config_convert_config .little hiddenNegative (by decide)
  obtain ⟨code, s', h1, h2, _, h4⟩ := malformed_header_outcome hostLE
    ((convert_config .little hiddenNegative).toBytes .little ++ payload 736) 764
    (convert_config .little hiddenNegative)
    (headerOf_append hostLE _ (convert_config_inRange _ _) _)
    (by rw [hcc]; exact ⟨2, rfl⟩) (by rw [hcc]; decide)
  exact ⟨code, s', h1, h2, h4⟩

/-- Counterexample to C12 as stated.  A file of 28 zero bytes (every header
field 0) on a host that grants requests for zero elements: the run neither
completes nor fails with a short read, the computation of `head_size` divides
by zero.  The same happens for the header of Scenario A with `n_heads = 0`
followed by its eleven first tensors.  And for the header of Scenario A with
`hidden_dim = -1` the conversion fails with status 1 without any read of a
tensor: `calloc` refuses the negative count of `w1`. -/
theorem division_by_zero_in_head_size :
    (headerOf hostLE (List.replicate 28 0) = some ⟨0, 0, 0, 0, 0, 0, 0⟩ ∧
      main hostLE (List.replicate 28 0) 28 = .fault .div_by_zero) ∧
    (headerOf hostLE ((convert_config .little headsZero).toBytes .little ++ payload 720)
        = some (convert_config .little headsZero) ∧
      convert_config .little (convert_config .little headsZero) = headsZero ∧
      main hostLE ((convert_config .little headsZero).toBytes .little ++ payload 720) 748
        = .fault .div_by_zero) ∧
    (headerOf hostLE ((convert_config .little hiddenNegative).toBytes .little ++ payload 736)
        = some (convert_config .little hiddenNegative) ∧
      convert_config .little (convert_config .little hiddenNegative) = hiddenNegative ∧
      ∃ s', main hostLE ((convert_config .little hiddenNegative).toBytes .little ++ payload 736)
          764 = .exit 1 s' ∧
        (∀ e ∈ s'.trace, e.isTransfer = false) ∧
        Event.calloc .w1 18446744073709551612 false ∈ s'.trace) := by
  have hcc1 : convert_config hostLE.endian (convert_config .little headsZero) = headsZero :=
    convert_config_convert_config .little headsZero (by decide)
  have hcc2 : convert_config hostLE.endian (convert_config .little hiddenNegative)
      = hiddenNegative := convert_config_convert_config .little hiddenNegative (by decide)
  have hh1 := headerOf_append hostLE (convert_config .little headsZero)
    (convert_config_inRange _ _) (payload 720)
  have hh2 := headerOf_append hostLE (convert_config .little hiddenNegative)
    (convert_config_inRange _ _) (payload 736)
  have hrun := main_malloc_fail hostLE
    ((convert_config .little hiddenNegative).toBytes .little ++ payload 736) 764
    (convert_config .little hiddenNegative) .w1 hh2 (by decide)
    (by rw [hcc2]; exact calloc_negative hostLE _ (by decide) (by decide))
  refine ⟨⟨by decide, by decide⟩, ⟨hh1, hcc1, ?_⟩, ⟨hh2, hcc2, _, hrun, ?_, ?_⟩⟩
  · refine main_div_by_zero hostLE _ 748 _ hh1 ?_ (by rw [hcc1]; rfl) ?_ ?_
    · rw [hcc1]
      intro t
      exact ⟨_, calloc_of_ok _ _ (by cases t <;> decide) (by cases t <;> decide)⟩
    · rw [hcc1, List.length_append, toBytes_length, payload_length]
      decide
    · rw [hcc1]
      decide
  · intro e he
    simp only [List.cons_append, List.nil_append, List.mem_cons] at he
    rcases he with rfl | rfl | he
    · rfl
    · rfl
    · exact callocEvents_not_transfer _ _ e he
  · show _ ∈ [Event.fread_config 1, .fwrite_config 1] ++ callocEvents hostLE _
    rw [hcc2]
    decide

/-! ## Empty tensors -/

/-- C11 (amended): on a host that grants the thirteen requests of
`malloc_weights`, a request for zero elements included: for every header for
which the element count of some tensor `t` is 0, the three calls for `t` are a
read of 0 elements that returns 0, a swap of 0 elements and a write of 0
elements that returns 0; they consume and emit no bytes, leave the buffer as it
is and `convert_weights` goes on to the next tensor; and if `head_size` can be
computed, every count is non-negative and within its buffer, the source holds
all sections and the destination accepts them, the conversion succeeds. -/
theorem zero_count_section (h : Host) (file : List Byte) (cap : Nat) (config : Config)
    (hs : Int) (t : Tensor)
    (hc : headerOf h file = some config)
    (hd : cdiv (convert_config h.endian config).dim (convert_config h.endian config).n_heads
      = .ok hs)
    (hmem : ∀ t, ∃ b, calloc h (toSizeT h (allocCount (convert_config h.endian config) t)) = some b)
    (hin : ∀ x ∈ transfers (convert_config h.endian config) hs,
      0 ≤ x.2 ∧ x.2.toNat ≤ toSizeT h (allocCount (convert_config h.endian config) x.1))
    (hsrc : 28 + 4 * totalCount (transfers (convert_config h.endian config) hs) ≤ file.length)
    (hcap : 28 + 4 * totalCount (transfers (convert_config h.endian config) hs) ≤ cap)
    (ht : (t, (0 : Int)) ∈ transfers (convert_config h.endian config) hs) :
    (∀ buf s, xfer h t buf 0 s
      = .next buf { s with trace := s.trace ++ [.fread t 0 0, .fabyteswap t 0, .fwrite t 0 0] }) ∧
    ∃ s', main h file cap = .exit 0 s' ∧
      s'.dst = swapWords (file.take
        (28 + 4 * totalCount (transfers (convert_config h.endian config) hs))) ∧
      Event.calloc t (toSizeT h (allocCount (convert_config h.endian config) t)) true
        ∈ s'.trace ∧
      Event.fread t 0 0 ∈ s'.trace ∧ Event.fabyteswap t 0 ∈ s'.trace ∧
      Event.fwrite t 0 0 ∈ s'.trace := by
  refine ⟨fun buf s => xfer_zero h t buf s, ?_⟩
  obtain ⟨s', h1, _, h3, h4⟩ := main_ok_of_counts h file cap config hs hc hd hmem hin hsrc hcap
  have hz : toSizeT h 0 = 0 := toSizeT_of_nonneg h 0 (by decide) (by decide)
  obtain ⟨p1, p2, p3⟩ := mem_planEvents h _ t 0 ht
  rw [hz] at p1 p3
  have hcal := mem_callocEvents h (convert_config h.endian config) t
  obtain ⟨b, hb⟩ := hmem t
  rw [hb] at hcal
  refine ⟨s', h1, h3, ?_, ?_, ?_, ?_⟩ <;> rw [h4, successTrace]
  · exact List.mem_append_left _ (List.mem_append_left _ (List.mem_append_right _ hcal))
  · exact List.mem_append_left _ (List.mem_append_right _ p1)
  · exact List.mem_append_left _ (List.mem_append_right _ p2)
  · exact List.mem_append_left _ (List.mem_append_right _ p3)

/-- Witness of C11 (amended): the header of Scenario A with `seq_len = 0`
followed by its eleven non-empty tensors (748 bytes), on the sample host: the
conversion succeeds, with a read and a write of 0 elements for
`freq_cis_real`. -/
theorem zero_count_section_witness :
    ∃ s', main hostLE (fileSeqZero hostLE) 748 = .exit 0 s' ∧
      s'.dst.length = 748 ∧
      Event.calloc .freq_cis_real 0 true ∈ s'.trace ∧
      Event.fread .freq_cis_real 0 0 ∈ s'.trace ∧ Event.fwrite .freq_cis_real 0 0 ∈ s'.trace := by
  have hcc : convert_config hostLE.endian (convert_config hostLE.endian seqZero) = seqZero :=
    convert_config_seqZero _
  obtain ⟨_, s', h1, h2, h3, h4, _, h6⟩ := zero_count_section hostLE (fileSeqZero hostLE) 748
    (convert_config hostLE.endian seqZero) 2 .freq_cis_real (headerOf_fileSeqZero hostLE)
    (by rw [hcc]; rfl)
    (by
      rw [hcc]
      intro t
      exact ⟨_, calloc_of_ok _ _ (by cases t <;> decide) (by cases t <;> decide)⟩)
    (by rw [hcc]; decide)
    (by rw [hcc, fileSeqZero_length]; decide)
    (by rw [hcc]; decide)
    (by rw [hcc]; decide)
  rw [hcc] at h2 h3
  refine ⟨s', h1, ?_, h3, h4, h6⟩
  rw [h2, swapWords_length, List.length_take, fileSeqZero_length]
  decide

/-- Counterexample to C11 as stated: the same file (the header of Scenario A
with `seq_len = 0`, followed by all its non-empty sections) on a host whose
`calloc` returns `NULL` for a request of zero elements and grants every other
request: `malloc_weights` takes the `NULL` for `freq_cis_real` as a failed
allocation and the run ends with status 1 before any tensor is read. -/
theorem zero_count_allocation_refused :
    headerOf hostZeroNull (fileSeqZero hostZeroNull) = some (convert_config .little seqZero) ∧
    convert_config .little (convert_config .little seqZero) = seqZero ∧
    (Tensor.freq_cis_real, (0 : Int)) ∈ transfers seqZero 2 ∧
    (fileSeqZero hostZeroNull).length = 28 + 4 * totalCount (transfers seqZero 2) ∧
    (∀ t, allocCount seqZero t ≠ 0 →
      (calloc hostZeroNull (toSizeT hostZeroNull (allocCount seqZero t))).isSome = true) ∧
    ∃ s', main hostZeroNull (fileSeqZero hostZeroNull) 748 = .exit 1 s' ∧
      Event.calloc .freq_cis_real 0 false ∈ s'.trace ∧
      (∀ e ∈ s'.trace, e.isTransfer = false) ∧
      s'.dst.length = 28 := by
  have hcc : convert_config hostZeroNull.endian (convert_config .little seqZero) = seqZero :=
    convert_config_seqZero _
  have hrun := main_malloc_fail hostZeroNull (fileSeqZero hostZeroNull) 748
    (convert_config .little seqZero) .freq_cis_real (headerOf_fileSeqZero hostZeroNull)
    (by decide) (by rw [hcc]; decide)
  refine ⟨headerOf_fileSeqZero hostZeroNull, convert_config_seqZero _, by decide, ?_, ?_,
    _, hrun, ?_, ?_, ?_⟩
  · rw [fileSeqZero_length]
    decide
  · intro t ht
    cases t <;> first | rfl | exact absurd rfl ht
  · show _ ∈ [Event.fread_config 1, .fwrite_config 1] ++ callocEvents hostZeroNull _
    rw [hcc]
    decide
  · intro e he
    simp only [List.cons_append, List.nil_append, List.mem_cons] at he
    rcases he with rfl | rfl | he
    · rfl
    · rfl
    · exact callocEvents_not_transfer _ _ e he
  · show (swapWords ((fileSeqZero hostZeroNull).take 28)).length = 28
    rw [swapWords_length, List.length_take, fileSeqZero_length]
    decide

end Convert
